import Mathlib

/-!
# Key binding index of `keybinding.c`

A shallow embedding of the key binding index (`keybinding_register_root`,
`keybinding_unregister_root`, `keybinding_find`, the two comparators and the
binding constructor) together with proofs about it.

Conventions of the embedding:

* a `keybinding_t *` is an address (`Nat`); the heap maps an address to the record
  stored there, `none` for memory that is not allocated (never allocated, or freed);
* `unsigned long`, `xcb_keysym_t` (32 bit) and `xcb_keycode_t` (8 bit) values are
  natural numbers, all comparisons of the source are unsigned comparisons;
* the `int` indices `l`, `r`, `i` of the binary searches are natural numbers (the
  arrays are assumed shorter than `2^30` entries, so that `r + l` does not wrap);
* a function returns `none` when the C function does not return normally: a failed
  `assert`, a dereference of memory that is not allocated, or (for the loops, which
  carry a fuel argument) exhausted fuel.  The theorems that state a result show that
  the fuel handed over by the callers is always sufficient;
* calls to the window system and the reference counting operations are recorded, in
  order, in a log.
-/

namespace Keybinding

/-! ## Data model -/

/-- The record `keybinding_t`: reference count, modifier mask, key symbol, key code and
the Lua function reference. -/
structure keybinding_t where
  refcount : Int
  mod : Nat
  keysym : Nat
  keycode : Nat
  fct : Nat
  deriving DecidableEq, Repr

/-- The index `keybinding_idx_t`: two arrays of binding pointers. -/
structure keybinding_idx_t where
  by_code : List Nat
  by_sym : List Nat
  deriving DecidableEq, Repr

/-- The fields of `xcb_key_press_event_t` read by the matcher. -/
structure xcb_key_press_event_t where
  detail : Nat
  state : Nat
  deriving DecidableEq, Repr

/-- One observable step of the index code. The flag of the array operations tells the
array: `true` for `by_sym`, `false` for `by_code`. -/
inductive Effect where
  | ref (p : Nat)
  | unref (p : Nat)
  | delete (p : Nat)
  | tab_set (sym : Bool) (i : Nat) (p : Nat)
  | splice (sym : Bool) (i : Nat) (p : Nat)
  | take (sym : Bool) (i : Nat)
  | grabkey (p : Nat)
  | ungrabkey (p : Nat)
  deriving DecidableEq, Repr

/-- The program state the index code works on: the heap of binding records,
`globalconf.keys`, and the log of effects so far. -/
structure State where
  heap : Nat → Option keybinding_t
  keys : keybinding_idx_t
  log : List Effect

/-- What the code takes from its environment: the translation of a key name
(`XStringToKeysym`), of a modifier name (`xutil_keymask_fromstr`), the key map
(`xcb_key_symbols_get_keysym (globalconf.keysyms, code, 0)`) and
`globalconf.numlockmask`. -/
structure Platform where
  XStringToKeysym : String → Nat
  xutil_keymask_fromstr : String → Nat
  keysyms : Nat → Nat
  numlockmask : Nat

/-- The heap `h` with address `p` overwritten. -/
def heap_set (h : Nat → Option keybinding_t) (p : Nat) (v : Option keybinding_t) :
    Nat → Option keybinding_t :=
  fun q => if q = p then v else h q

/-- The array selected by `k->keysym ? &idx->by_sym : &idx->by_code`. -/
def arr_of (idx : keybinding_idx_t) (sym : Bool) : List Nat :=
  if sym then idx.by_sym else idx.by_code

/-- The index with the selected array replaced. -/
def arr_put (idx : keybinding_idx_t) (sym : Bool) (tab : List Nat) : keybinding_idx_t :=
  if sym then { idx with by_sym := tab } else { idx with by_code := tab }

/-! ## Collaborators that are not in `keybinding.c` -/

/-- Modelled from the spec: the array helper `keybinding_array_splice` (generated by the
array macros, not in this file): the `len` entries from position `pos` on are replaced
by `items`; with `len = 0` this is an insertion at `pos`. -/
def keybinding_array_splice (tab : List Nat) (pos len : Nat) (items : List Nat) : List Nat :=
  tab.take pos ++ items ++ tab.drop (pos + len)

/-- Modelled from the spec: the array helper `keybinding_array_take` (generated by the
array macros, not in this file): the entry at position `pos` is removed from the dense
sequence. -/
def keybinding_array_take (tab : List Nat) (pos : Nat) : List Nat :=
  keybinding_array_splice tab pos 1 []

/-- The destructor `keybinding_delete`: `p_delete` frees the record. -/
def keybinding_delete (g : State) (p : Nat) : State :=
  { g with heap := heap_set g.heap p none, log := g.log ++ [Effect.delete p] }

/-- Modelled from the spec: `keybinding_ref` (generated by the reference counting macros,
not in this file): retain increments the reference count. -/
def keybinding_ref (g : State) (p : Nat) : Option State :=
  match g.heap p with
  | none => none
  | some b =>
    some { g with heap := heap_set g.heap p (some { b with refcount := b.refcount + 1 }),
                  log := g.log ++ [Effect.ref p] }

/-- Modelled from the spec: `keybinding_unref` (generated by the reference counting
macros, not in this file): release decrements the reference count and destroys the
binding only when the count reaches zero. -/
def keybinding_unref (g : State) (p : Nat) : Option State :=
  match g.heap p with
  | none => none
  | some b =>
    let g1 : State :=
      { g with heap := heap_set g.heap p (some { b with refcount := b.refcount - 1 }),
               log := g.log ++ [Effect.unref p] }
    if b.refcount - 1 = 0 then some (keybinding_delete g1 p) else some g1

/-- The call `window_root_grabkey (k)`, recorded in the log. -/
def window_root_grabkey (g : State) (p : Nat) : State :=
  { g with log := g.log ++ [Effect.grabkey p] }

/-- The call `window_root_ungrabkey (k)`, recorded in the log. -/
def window_root_ungrabkey (g : State) (p : Nat) : State :=
  { g with log := g.log ++ [Effect.ungrabkey p] }

/-- The constant `XCB_MOD_MASK_LOCK` of the X protocol. -/
def XCB_MOD_MASK_LOCK : Nat := 2

/-- Modelled from the spec: the macro `CLEANMASK` (not in this file): the noise
modifiers, the lock bit and the num-lock bits, are masked off. For bit masks
`mask & ~noise` is `mask xor (mask & noise)`. -/
def CLEANMASK (numlockmask mask : Nat) : Nat :=
  mask ^^^ (mask &&& (numlockmask ||| XCB_MOD_MASK_LOCK))

/-! ## The comparators -/

/-- The function `keybinding_ev_cmp`. -/
def keybinding_ev_cmp (keysym keycode mod : Nat) (k : keybinding_t) : Int :=
  if k.keysym ≠ 0 ∧ k.keysym ≠ keysym then
    (if k.keysym > keysym then 1 else -1)
  else if k.keycode ≠ 0 ∧ k.keycode ≠ keycode then
    (if k.keycode > keycode then 1 else -1)
  else if k.mod = mod then 0 else (if k.mod > mod then 1 else -1)

/-- The function `keybinding_cmp`; `none` when one of its two assertions fails. -/
def keybinding_cmp (k1 k2 : keybinding_t) : Option Int :=
  if ¬ ((k1.keysym ≠ 0 ∧ k2.keysym ≠ 0) ∨ (k1.keycode ≠ 0 ∧ k2.keycode ≠ 0)) then none
  else if ¬ ((k1.keysym = 0 ∧ k2.keysym = 0) ∨ (k1.keycode = 0 ∧ k2.keycode = 0)) then none
  else if k1.keysym ≠ k2.keysym then
    some (if k2.keysym > k1.keysym then 1 else -1)
  else if k1.keycode ≠ k2.keycode then
    some (if k2.keycode > k1.keycode then 1 else -1)
  else some (if k1.mod = k2.mod then 0 else (if k2.mod > k1.mod then 1 else -1))

/-! ## Registration -/

/-- What `keybinding_register_root` does once its loop has ended without a match:
the splice at `r` and the grab. -/
def register_insert (k : Nat) (sym : Bool) (g : State) (r : Nat) : State :=
  window_root_grabkey
    { g with keys := arr_put g.keys sym (keybinding_array_splice (arr_of g.keys sym) r 0 [k]),
             log := g.log ++ [Effect.splice sym r k] } k

/-- What `keybinding_register_root` does in `case 0`: the entry at `i` is released and
the slot is overwritten with `k`. -/
def register_replace (k : Nat) (sym : Bool) (g : State) (i t : Nat) : Option State :=
  match keybinding_unref g t with
  | none => none
  | some g1 =>
    some { g1 with keys := arr_put g1.keys sym ((arr_of g1.keys sym).set i k),
                   log := g1.log ++ [Effect.tab_set sym i k] }

/-- The `while (l < r)` loop of `keybinding_register_root` and what follows it. -/
def register_loop (k : Nat) (sym : Bool) (g : State) : Nat → Nat → Nat → Option State
  | 0, l, r => if l < r then none else some (register_insert k sym g r)
  | fuel + 1, l, r =>
    if l < r then
      let i := (r + l) / 2
      match (arr_of g.keys sym)[i]? with
      | none => none
      | some t =>
        match g.heap k, g.heap t with
        | some kb, some tb =>
          match keybinding_cmp kb tb with
          | none => none
          | some c =>
            if c = -1 then register_loop k sym g fuel l i
            else if c = 0 then register_replace k sym g i t
            else if c = 1 then register_loop k sym g fuel (i + 1) r
            else register_loop k sym g fuel l r
        | _, _ => none
    else some (register_insert k sym g r)

/-- The function `keybinding_register_root`. -/
def keybinding_register_root (g : State) (k : Nat) : Option State :=
  match g.heap k with
  | none => none
  | some kb =>
    let sym := decide (kb.keysym ≠ 0)
    match keybinding_ref g k with
    | none => none
    | some g1 =>
      register_loop k sym g1 (arr_of g1.keys sym).length 0 (arr_of g1.keys sym).length

/-! ## Unregistration -/

/-- What `keybinding_unregister_root` does in `case 0`: the entry at `i` is taken out,
the key is ungrabbed and `*k` is released. -/
def unregister_remove (k : Nat) (sym : Bool) (g : State) (i : Nat) : Option State :=
  let g1 : State :=
    { g with keys := arr_put g.keys sym (keybinding_array_take (arr_of g.keys sym) i),
             log := g.log ++ [Effect.take sym i] }
  keybinding_unref (window_root_ungrabkey g1 k) k

/-- The `while (l < r)` loop of `keybinding_unregister_root`. -/
def unregister_loop (k : Nat) (sym : Bool) (g : State) : Nat → Nat → Nat → Option State
  | 0, l, r => if l < r then none else some g
  | fuel + 1, l, r =>
    if l < r then
      let i := (r + l) / 2
      match (arr_of g.keys sym)[i]? with
      | none => none
      | some t =>
        match g.heap k, g.heap t with
        | some kb, some tb =>
          match keybinding_cmp kb tb with
          | none => none
          | some c =>
            if c = -1 then unregister_loop k sym g fuel l i
            else if c = 0 then unregister_remove k sym g i
            else if c = 1 then unregister_loop k sym g fuel (i + 1) r
            else unregister_loop k sym g fuel l r
        | _, _ => none
    else some g

/-- The function `keybinding_unregister_root`. -/
def keybinding_unregister_root (g : State) (k : Nat) : Option State :=
  match g.heap k with
  | none => none
  | some kb =>
    let sym := decide (kb.keysym ≠ 0)
    unregister_loop k sym g (arr_of g.keys sym).length 0 (arr_of g.keys sym).length

/-! ## Lookup -/

/-- One pass of `keybinding_find` over one array, from the label `again` to the end of
the loop: `some (some t)` when `arr->tab[i]` is returned, `some none` when the loop ends
without a match. -/
def find_loop (heap : Nat → Option keybinding_t) (tab : List Nat) (keysym detail mod : Nat) :
    Nat → Nat → Nat → Option (Option Nat)
  | 0, l, r => if l < r then none else some none
  | fuel + 1, l, r =>
    if l < r then
      let i := (r + l) / 2
      match tab[i]? with
      | none => none
      | some t =>
        match heap t with
        | none => none
        | some tb =>
          let c := keybinding_ev_cmp keysym detail mod tb
          if c = -1 then find_loop heap tab keysym detail mod fuel l i
          else if c = 0 then some (some t)
          else if c = 1 then find_loop heap tab keysym detail mod fuel (i + 1) r
          else find_loop heap tab keysym detail mod fuel l r
    else some none

/-- The function `keybinding_find`: `some none` is the `NULL` result. -/
def keybinding_find (X : Platform) (heap : Nat → Option keybinding_t) (idx : keybinding_idx_t)
    (ev : xcb_key_press_event_t) : Option (Option Nat) :=
  let mod := CLEANMASK X.numlockmask ev.state
  let keysym := X.keysyms ev.detail
  match find_loop heap idx.by_sym keysym ev.detail mod idx.by_sym.length 0 idx.by_sym.length with
  | none => none
  | some (some t) => some (some t)
  | some none =>
    find_loop heap idx.by_code keysym ev.detail mod idx.by_code.length 0 idx.by_code.length

/-! ## Construction -/

/-- The digits read by `atoi`, most significant first, from an accumulator. -/
def atoi_digits : List Char → Nat → Nat
  | [], acc => acc
  | c :: cs, acc => if c.isDigit then atoi_digits cs (acc * 10 + (c.toNat - 48)) else acc

/-- The C library predicate `isspace` in the C locale: space, and the controls from
horizontal tab (9) to carriage return (13). -/
def isspace (c : Char) : Bool :=
  c.toNat = 32 || (9 ≤ c.toNat && c.toNat ≤ 13)

/-- The C library function `atoi`: leading white space, an optional sign, then decimal
digits up to the first other character. -/
def atoi (s : List Char) : Int :=
  match s.dropWhile isspace with
  | '-' :: cs => - (atoi_digits cs 0 : Int)
  | '+' :: cs => (atoi_digits cs 0 : Int)
  | cs => (atoi_digits cs 0 : Int)

/-- The function `__luaA_keystore`; the stores narrow to the field types, 32 bits for
the key symbol and 8 bits for the key code. -/
def __luaA_keystore (X : Platform) (key : keybinding_t) (str : String) : keybinding_t :=
  match str.toList with
  | [] => key
  | c :: cs =>
    if c ≠ '#' then { key with keysym := X.XStringToKeysym str % 2 ^ 32 }
    else { key with keycode := (atoi cs % 256).toNat }

/-- The record built by `luaA_keybinding_new` from the modifier names, the key specifier
and the function reference: `p_new` gives a zeroed record, the key is stored, the masks
of the modifier names are or-ed together, and the new userdata holds one reference. -/
def luaA_keybinding_new (X : Platform) (mods : List String) (key : String) (fct : Nat) :
    keybinding_t :=
  let k0 : keybinding_t := { refcount := 0, mod := 0, keysym := 0, keycode := 0, fct := 0 }
  let k1 := __luaA_keystore X k0 key
  let k2 := { k1 with fct := fct }
  let k3 := mods.foldl (fun k m => { k with mod := k.mod ||| X.xutil_keymask_fromstr m }) k2
  { k3 with refcount := k3.refcount + 1 }

/-! ## Ordering and invariants used by the proofs -/

/-- Exactly the symbolic discriminant is set. -/
def symOnly (b : keybinding_t) : Prop := b.keysym ≠ 0 ∧ b.keycode = 0
/-- Exactly the raw-code discriminant is set. -/
def codeOnly (b : keybinding_t) : Prop := b.keysym = 0 ∧ b.keycode ≠ 0
/-- Membership of a record in the class of bindings an array holds. -/
def cls (sym : Bool) (b : keybinding_t) : Prop := if sym then symOnly b else codeOnly b

instance (sym : Bool) (b : keybinding_t) : Decidable (cls sym b) := by
  unfold cls symOnly codeOnly; infer_instance

def rank (sym : Bool) (b : keybinding_t) : Nat × Nat :=
  (if sym then b.keysym else b.keycode, b.mod)

def plt (x y : Nat × Nat) : Prop := x.1 < y.1 ∨ (x.1 = y.1 ∧ x.2 < y.2)

instance (x y : Nat × Nat) : Decidable (plt x y) := by unfold plt; infer_instance

def sgn3 (x y : Nat × Nat) : Int := if x = y then 0 else if plt x y then 1 else -1

def prank (h : Nat → Option keybinding_t) (sym : Bool) (p : Nat) : Nat × Nat :=
  match h p with
  | some b => rank sym b
  | none => (0, 0)

def bsearch (c : Nat → Option Int) : Nat → Nat → Nat → Option (Nat ⊕ Nat)
  | 0, l, r => if l < r then none else some (Sum.inr r)
  | fuel + 1, l, r =>
    if l < r then
      match c ((r + l) / 2) with
      | none => none
      | some v =>
        if v = -1 then bsearch c fuel l ((r + l) / 2)
        else if v = 0 then some (Sum.inl ((r + l) / 2))
        else if v = 1 then bsearch c fuel ((r + l) / 2 + 1) r
        else bsearch c fuel l r
    else some (Sum.inr r)

def cmp_at (h : Nat → Option keybinding_t) (k : Nat) (tab : List Nat) (i : Nat) : Option Int :=
  match tab[i]? with
  | none => none
  | some t =>
    match h k, h t with
    | some kb, some tb => keybinding_cmp kb tb
    | _, _ => none

def ev_cmp_at (h : Nat → Option keybinding_t) (tab : List Nat) (ks kc m : Nat) (i : Nat) :
    Option Int :=
  match tab[i]? with
  | none => none
  | some t =>
    match h t with
    | none => none
    | some tb => some (keybinding_ev_cmp ks kc m tb)

/-- The array `tab` holds live bindings of one class in strictly descending rank. -/
def SortedTab (h : Nat → Option keybinding_t) (sym : Bool) (tab : List Nat) : Prop :=
  (∀ p, p ∈ tab → ∃ b, h p = some b ∧ cls sym b) ∧
  tab.Pairwise (fun p q => plt (prank h sym q) (prank h sym p))

/-- The part of a record the comparators read. -/
def kof (h : Nat → Option keybinding_t) (p : Nat) : Option (Nat × Nat × Nat) :=
  (h p).map (fun b => (b.keysym, b.keycode, b.mod))

/-- The state after `keybinding_ref (&k)` when `k` points to `kb`. -/
def ref_state (g : State) (k : Nat) (kb : keybinding_t) : State :=
  { g with heap := heap_set g.heap k (some { kb with refcount := kb.refcount + 1 }),
           log := g.log ++ [Effect.ref k] }

/-- Exactly one of `keysym` and `keycode` is non-zero. -/
def wellformed (b : keybinding_t) : Prop := symOnly b ∨ codeOnly b

/-- Both arrays of the index are sorted arrays of live bindings of their class. -/
def SortedIdx (g : State) : Prop :=
  SortedTab g.heap true g.keys.by_sym ∧ SortedTab g.heap false g.keys.by_code

/-- Every live record holds at least one reference. -/
def RefOK (h : Nat → Option keybinding_t) : Prop :=
  ∀ p b, h p = some b → 1 ≤ b.refcount

/-- A sorted index in a heap whose live records all hold at least one reference. -/
def Inv (g : State) : Prop :=
  SortedIdx g ∧ RefOK g.heap

/-- What one operation on the array of class `sym` guarantees of the state `g2` it leaves:
the array is sorted, the other array is the same list, records outside the class are not
touched, reference counts stay positive, and no record changes its key fields. -/
def StepOK (g g2 : State) (sym : Bool) : Prop :=
  SortedTab g2.heap sym (arr_of g2.keys sym) ∧
  arr_of g2.keys (!sym) = arr_of g.keys (!sym) ∧
  (∀ q b, g.heap q = some b → ¬ cls sym b → g2.heap q = some b) ∧
  RefOK g2.heap ∧
  (∀ p b2, g2.heap p = some b2 → kof g.heap p = kof g2.heap p)

/-- The empty index over the heap `h0`, nothing logged yet. -/
def empty_index (h0 : Nat → Option keybinding_t) : State :=
  { heap := h0, keys := { by_code := [], by_sym := [] }, log := [] }

/-- The state after `luaA_keybinding_new` has built a binding at the free address `q`. -/
def new_state (X : Platform) (g : State) (q : Nat) (mods : List String) (key : String)
    (fct : Nat) : State :=
  { g with heap := heap_set g.heap q (some (luaA_keybinding_new X mods key fct)) }

/-- The states the program reaches from the empty index, over a heap whose records
satisfy `Q`, by building bindings and by `keybinding_register_root` and
`keybinding_unregister_root` calls that return and whose argument is a live binding that
satisfies `P`. -/
inductive Reachable (X : Platform) (Q P : keybinding_t → Prop) : State → Prop where
  | init (h0 : Nat → Option keybinding_t) (hQ : ∀ p b, h0 p = some b → Q b) :
      Reachable X Q P (empty_index h0)
  | new (g : State) (q : Nat) (mods : List String) (key : String) (fct : Nat)
      (hg : Reachable X Q P g) (hq : g.heap q = none) :
      Reachable X Q P (new_state X g q mods key fct)
  | add (g g2 : State) (k : Nat) (kb : keybinding_t) (hg : Reachable X Q P g)
      (hk : g.heap k = some kb) (hP : P kb)
      (hrun : keybinding_register_root g k = some g2) : Reachable X Q P g2
  | remove (g g2 : State) (k : Nat) (kb : keybinding_t) (hg : Reachable X Q P g)
      (hk : g.heap k = some kb) (hP : P kb)
      (hrun : keybinding_unregister_root g k = some g2) : Reachable X Q P g2

/-- The record holds at least one reference. -/
def owned (b : keybinding_t) : Prop := 1 ≤ b.refcount

/-- Adjacent entries of the array compare as `-1` under `keybinding_cmp`. -/
def adjacent_sorted (h : Nat → Option keybinding_t) (tab : List Nat) : Prop :=
  ∀ (i a b : Nat), tab[i]? = some a → tab[i + 1]? = some b →
    ∃ ra rb, h a = some ra ∧ h b = some rb ∧ keybinding_cmp ra rb = some (-1)

/-- No two entries of the array share key symbol, key code and modifier mask. -/
def distinct_keys (h : Nat → Option keybinding_t) (tab : List Nat) : Prop :=
  ∀ (i j a b : Nat), i ≠ j → tab[i]? = some a → tab[j]? = some b →
    ∃ ra rb, h a = some ra ∧ h b = some rb ∧
      ¬ (ra.keysym = rb.keysym ∧ ra.keycode = rb.keycode ∧ ra.mod = rb.mod)

/-! ## Concrete states used to instantiate the theorems -/

/-- A heap with five bindings: three symbolic ones for the key symbol 97, two of them
with the same mask, and two raw-code ones for the key code 38. -/
def ex_heap : Nat → Option keybinding_t := fun p =>
  if p = 1 then some { refcount := 1, mod := 8, keysym := 97, keycode := 0, fct := 11 }
  else if p = 2 then some { refcount := 1, mod := 9, keysym := 97, keycode := 0, fct := 12 }
  else if p = 3 then some { refcount := 1, mod := 8, keysym := 97, keycode := 0, fct := 13 }
  else if p = 4 then some { refcount := 1, mod := 0, keysym := 0, keycode := 38, fct := 14 }
  else if p = 5 then some { refcount := 1, mod := 8, keysym := 0, keycode := 38, fct := 15 }
  else none

/-- A platform whose key map sends the key code 38 to the key symbol 97 and whose
num-lock mask is 16. -/
def ex_platform : Platform :=
  { XStringToKeysym := fun s => if s = "a" then 97 else 0,
    xutil_keymask_fromstr := fun s => if s = "Mod1" then 8 else if s = "Shift" then 1 else 0,
    keysyms := fun c => if c = 38 then 97 else 0,
    numlockmask := 16 }

/-- The state after binding 1 has been registered on the empty index over `ex_heap`. -/
def ex_state1 : State :=
  register_insert 1 true
    (ref_state (empty_index ex_heap) 1
      { refcount := 1, mod := 8, keysym := 97, keycode := 0, fct := 11 }) 0

/-- The state after binding 2 has been registered on `ex_state1`. -/
def ex_state2 : State :=
  register_insert 2 true
    (ref_state ex_state1 2 { refcount := 1, mod := 9, keysym := 97, keycode := 0, fct := 12 }) 0

/-- The state after binding 5 has been registered on `ex_state2`. -/
def ex_state3 : State :=
  register_insert 5 false
    (ref_state ex_state2 5 { refcount := 1, mod := 8, keysym := 0, keycode := 38, fct := 15 }) 0

/-- At most one of `keysym` and `keycode` is non-zero, as in every record that
`luaA_keybinding_new` builds. -/
def at_most_one (b : keybinding_t) : Prop := b.keysym = 0 ∨ b.keycode = 0

/-- A record with a positive reference count and at most one discriminant. -/
def constructed (b : keybinding_t) : Prop := owned b ∧ at_most_one b

/-- No restriction on the binding handed to a call. -/
def any_binding (_ : keybinding_t) : Prop := True

/-- The invariant of the index when bindings without discriminant may be registered:
`by_sym` is sorted, `by_code` is sorted or holds one binding without discriminant, and
every live record is `constructed`. -/
def DisjInv (g : State) : Prop :=
  SortedTab g.heap true g.keys.by_sym ∧
  (SortedTab g.heap false g.keys.by_code ∨
    ∃ z zb, g.keys.by_code = [z] ∧ g.heap z = some zb ∧ zb.keysym = 0 ∧ zb.keycode = 0) ∧
  (∀ p b, g.heap p = some b → constructed b)

/-- A heap with a binding built from the empty key specifier at address 7 and a raw-code
binding for the key code 38 at address 4. -/
def ex_bad_heap : Nat → Option keybinding_t := fun p =>
  if p = 7 then some (luaA_keybinding_new ex_platform [] "" 21)
  else if p = 4 then some { refcount := 1, mod := 0, keysym := 0, keycode := 38, fct := 14 }
  else none

/-! ## Counting grabs, and reference count accounting -/

/-- The number of `window_root_grabkey` calls in a log. -/
def grab_count (log : List Effect) : Nat :=
  log.countP (fun e => match e with
    | Effect.grabkey _ => true
    | _ => false)

/-- The number of `window_root_ungrabkey` calls in a log. -/
def ungrab_count (log : List Effect) : Nat :=
  log.countP (fun e => match e with
    | Effect.ungrabkey _ => true
    | _ => false)

/-- The number of entries of the index. -/
def entry_count (idx : keybinding_idx_t) : Nat :=
  idx.by_sym.length + idx.by_code.length

/-- The reference count accounting for the numbers `ext` of external owners: the count of
every live record is its number of external owners, plus one when it is an entry of
`by_sym` or `by_code`. -/
def accounted (ext : Nat → Int) (g : State) : Prop :=
  ∀ p b, g.heap p = some b →
    b.refcount = ext p + (if p ∈ g.keys.by_sym ∨ p ∈ g.keys.by_code then 1 else 0)

/-- The state `ex_state1` once the wrapper of binding 1 has released its reference: the
index holds the only reference to binding 1. -/
def ex_state_gc : State :=
  { ex_state1 with
    heap := heap_set ex_state1.heap 1
      (some { refcount := 1, mod := 8, keysym := 97, keycode := 0, fct := 11 }) }

/-! ## Lemmas -/

theorem plt_irrefl (x : Nat × Nat) : ¬ plt x x := by
  unfold plt; omega

theorem plt_trans {x y z : Nat × Nat} (h1 : plt x y) (h2 : plt y z) : plt x z := by
  unfold plt at *; omega

theorem plt_total (x y : Nat × Nat) : plt x y ∨ x = y ∨ plt y x := by
  rcases x with ⟨a, b⟩; rcases y with ⟨c, d⟩
  simp only [plt, Prod.mk.injEq]; omega

theorem sgn3_eq_zero {x y : Nat × Nat} : sgn3 x y = 0 ↔ x = y := by
  unfold sgn3; split_ifs <;> simp_all

theorem sgn3_eq_one {x y : Nat × Nat} : sgn3 x y = 1 ↔ plt x y := by
  unfold sgn3
  split_ifs with h1 h2
  · subst h1; simp [plt_irrefl]
  · simp [h2]
  · simp [h2]

theorem sgn3_eq_neg {x y : Nat × Nat} : sgn3 x y = -1 ↔ plt y x := by
  unfold sgn3
  split_ifs with h1 h2
  · subst h1; simp [plt_irrefl]
  · simp; intro h; exact plt_irrefl _ (plt_trans h h2)
  · simp; rcases plt_total x y with h | h | h
    · exact absurd h h2
    · exact absurd h h1
    · exact h

theorem sgn3_cases (x y : Nat × Nat) : sgn3 x y = -1 ∨ sgn3 x y = 0 ∨ sgn3 x y = 1 := by
  unfold sgn3; split_ifs <;> simp

theorem keybinding_cmp_rank (sym : Bool) (a b : keybinding_t) (ha : cls sym a) (hb : cls sym b) :
    keybinding_cmp a b = some (sgn3 (rank sym a) (rank sym b)) := by
  cases sym <;>
  · simp only [cls, symOnly, codeOnly, Bool.false_eq_true, if_false, if_true] at ha hb
    obtain ⟨ha1, ha2⟩ := ha
    obtain ⟨hb1, hb2⟩ := hb
    unfold keybinding_cmp sgn3 rank plt
    simp only [ha1, ha2, hb1, hb2, Prod.mk.injEq]
    split_ifs <;> simp_all <;> omega

theorem keybinding_ev_cmp_rank (sym : Bool) (ks kc m : Nat) (b : keybinding_t) (hb : cls sym b) :
    keybinding_ev_cmp ks kc m b = sgn3 (if sym then ks else kc, m) (rank sym b) := by
  cases sym <;>
  · simp only [cls, symOnly, codeOnly, Bool.false_eq_true, if_false, if_true] at hb
    obtain ⟨hb1, hb2⟩ := hb
    unfold keybinding_ev_cmp sgn3 rank plt
    simp only [hb1, hb2, Prod.mk.injEq]
    split_ifs <;> simp_all <;> omega

theorem bsearch_spec (c : Nat → Option Int) (n : Nat) (v : Nat → Int)
    (hc : ∀ i, i < n → c i = some (v i))
    (hv : ∀ i, i < n → v i = -1 ∨ v i = 0 ∨ v i = 1)
    (hm : ∀ i j, i < j → j < n → v i ≠ 1 → v j = -1) :
    ∀ fuel l r, r - l ≤ fuel → l ≤ r → r ≤ n →
      (∀ i, i < l → v i = 1) → (∀ i, r ≤ i → i < n → v i = -1) →
      (∃ i, i < n ∧ v i = 0 ∧ bsearch c fuel l r = some (Sum.inl i)) ∨
      (∃ p, p ≤ n ∧ (∀ i, i < p → v i = 1) ∧ (∀ i, p ≤ i → i < n → v i = -1) ∧
        bsearch c fuel l r = some (Sum.inr p)) := by
  intro fuel
  induction fuel with
  | zero =>
    intro l r hf hlr hrn hl hr
    have : l = r := by omega
    subst this
    right
    exact ⟨l, hrn, hl, hr, by simp [bsearch]⟩
  | succ fuel ih =>
    intro l r hf hlr hrn hl hr
    by_cases hlt : l < r
    · have hi : (r + l) / 2 < n := by omega
      have hil : l ≤ (r + l) / 2 := by omega
      have hir : (r + l) / 2 < r := by omega
      rw [bsearch, if_pos hlt, hc _ hi]
      rcases hv _ hi with h | h | h
      · simp only [h, if_true]
        refine ih l ((r + l) / 2) (by omega) hil (by omega) hl ?_
        intro j hj hjn
        rcases Nat.eq_or_lt_of_le hj with e | e
        · rw [← e]; exact h
        · exact hm _ _ e hjn (by rw [h]; decide)
      · left
        exact ⟨_, hi, h, by simp [h]⟩
      · simp only [h]
        refine ih ((r + l) / 2 + 1) r (by omega) (by omega) hrn ?_ hr
        intro j hj
        by_contra hne
        rcases Nat.eq_or_lt_of_le (Nat.lt_succ_iff.mp hj) with e | e
        · rw [e] at hne; exact hne h
        · have := hm _ _ e hi hne
          rw [h] at this; exact absurd this (by decide)
    · have : l = r := by omega
      subst this
      right
      exact ⟨l, hrn, hl, hr, by rw [bsearch, if_neg hlt]⟩

theorem register_loop_eq (k : Nat) (sym : Bool) (g : State) (fuel l r : Nat) :
    register_loop k sym g fuel l r =
      match bsearch (cmp_at g.heap k (arr_of g.keys sym)) fuel l r with
      | none => none
      | some (Sum.inl i) =>
        (match (arr_of g.keys sym)[i]? with
         | none => none
         | some t => register_replace k sym g i t)
      | some (Sum.inr p) => some (register_insert k sym g p) := by
  induction fuel generalizing l r with
  | zero =>
    unfold register_loop bsearch
    split_ifs <;> rfl
  | succ fuel ih =>
    rw [register_loop, bsearch]
    by_cases hlt : l < r
    · simp only [if_pos hlt]
      cases h1 : (arr_of g.keys sym)[(r + l) / 2]? with
      | none => simp [cmp_at, h1]
      | some t =>
        cases h2 : g.heap k with
        | none => simp [cmp_at, h1, h2]
        | some kb =>
          cases h3 : g.heap t with
          | none => simp [cmp_at, h1, h2, h3]
          | some tb =>
            cases h4 : keybinding_cmp kb tb with
            | none => simp [cmp_at, h1, h2, h3, h4]
            | some c =>
              have hc : cmp_at g.heap k (arr_of g.keys sym) ((r + l) / 2) = some c := by
                simp [cmp_at, h1, h2, h3, h4]
              rw [hc]
              simp only [h3, h4]
              split_ifs
              · exact ih _ _
              · simp [h1]
              · exact ih _ _
              · exact ih _ _
    · simp only [if_neg hlt]

theorem unregister_loop_eq (k : Nat) (sym : Bool) (g : State) (fuel l r : Nat) :
    unregister_loop k sym g fuel l r =
      match bsearch (cmp_at g.heap k (arr_of g.keys sym)) fuel l r with
      | none => none
      | some (Sum.inl i) => unregister_remove k sym g i
      | some (Sum.inr _) => some g := by
  induction fuel generalizing l r with
  | zero =>
    unfold unregister_loop bsearch
    split_ifs <;> rfl
  | succ fuel ih =>
    rw [unregister_loop, bsearch]
    by_cases hlt : l < r
    · simp only [if_pos hlt]
      cases h1 : (arr_of g.keys sym)[(r + l) / 2]? with
      | none => simp [cmp_at, h1]
      | some t =>
        cases h2 : g.heap k with
        | none => simp [cmp_at, h1, h2]
        | some kb =>
          cases h3 : g.heap t with
          | none => simp [cmp_at, h1, h2, h3]
          | some tb =>
            cases h4 : keybinding_cmp kb tb with
            | none => simp [cmp_at, h1, h2, h3, h4]
            | some c =>
              have hc : cmp_at g.heap k (arr_of g.keys sym) ((r + l) / 2) = some c := by
                simp [cmp_at, h1, h2, h3, h4]
              rw [hc]
              simp only [h3, h4]
              split_ifs
              · exact ih _ _
              · rfl
              · exact ih _ _
              · exact ih _ _
    · simp only [if_neg hlt]

theorem find_loop_eq (h : Nat → Option keybinding_t) (tab : List Nat) (ks kc m : Nat)
    (fuel l r : Nat) :
    find_loop h tab ks kc m fuel l r =
      match bsearch (ev_cmp_at h tab ks kc m) fuel l r with
      | none => none
      | some (Sum.inl i) => (match tab[i]? with
         | none => none
         | some t => some (some t))
      | some (Sum.inr _) => some none := by
  induction fuel generalizing l r with
  | zero =>
    unfold find_loop bsearch
    split_ifs <;> rfl
  | succ fuel ih =>
    rw [find_loop, bsearch]
    by_cases hlt : l < r
    · simp only [if_pos hlt]
      cases h1 : tab[(r + l) / 2]? with
      | none => simp [ev_cmp_at, h1]
      | some t =>
        cases h3 : h t with
        | none => simp [ev_cmp_at, h1, h3]
        | some tb =>
          have hc : ev_cmp_at h tab ks kc m ((r + l) / 2) = some (keybinding_ev_cmp ks kc m tb) := by
            simp [ev_cmp_at, h1, h3]
          rw [hc]
          simp only [h3]
          split_ifs
          · exact ih _ _
          · simp [h1]
          · exact ih _ _
          · exact ih _ _
    · simp only [if_neg hlt]

theorem SortedTab.idx {h : Nat → Option keybinding_t} {sym : Bool} {tab : List Nat}
    (hS : SortedTab h sym tab) {i j a b : Nat} (hij : i < j)
    (ha : tab[i]? = some a) (hb : tab[j]? = some b) :
    plt (prank h sym b) (prank h sym a) := by
  obtain ⟨hi, rfl⟩ := List.getElem?_eq_some.mp ha
  obtain ⟨hj, rfl⟩ := List.getElem?_eq_some.mp hb
  exact (List.pairwise_iff_getElem.mp hS.2) i j hi hj hij

theorem SortedTab.idx_unique {h : Nat → Option keybinding_t} {sym : Bool} {tab : List Nat}
    (hS : SortedTab h sym tab) {i j a b : Nat}
    (ha : tab[i]? = some a) (hb : tab[j]? = some b)
    (he : prank h sym a = prank h sym b) : i = j := by
  rcases Nat.lt_trichotomy i j with hlt | heq | hgt
  · have := hS.idx hlt ha hb
    rw [he] at this; exact absurd this (plt_irrefl _)
  · exact heq
  · have := hS.idx hgt hb ha
    rw [he] at this; exact absurd this (plt_irrefl _)

theorem SortedTab.mem_unique {h : Nat → Option keybinding_t} {sym : Bool} {tab : List Nat}
    (hS : SortedTab h sym tab) {a b : Nat} (ha : a ∈ tab) (hb : b ∈ tab)
    (he : prank h sym a = prank h sym b) : a = b := by
  obtain ⟨i, hi⟩ := List.mem_iff_getElem?.mp ha
  obtain ⟨j, hj⟩ := List.mem_iff_getElem?.mp hb
  have := hS.idx_unique hi hj he
  subst this
  rw [hi] at hj; exact Option.some.inj hj

theorem search_sorted {h : Nat → Option keybinding_t} {sym : Bool} {tab : List Nat}
    (hS : SortedTab h sym tab) (x : Nat × Nat) (c : Nat → Option Int)
    (hc : ∀ i t, tab[i]? = some t → c i = some (sgn3 x (prank h sym t))) :
    (∃ i t, tab[i]? = some t ∧ prank h sym t = x ∧
      bsearch c tab.length 0 tab.length = some (Sum.inl i)) ∨
    (∃ p, p ≤ tab.length ∧
      (∀ i t, i < p → tab[i]? = some t → plt x (prank h sym t)) ∧
      (∀ i t, p ≤ i → tab[i]? = some t → plt (prank h sym t) x) ∧
      bsearch c tab.length 0 tab.length = some (Sum.inr p)) := by
  let v : Nat → Int := fun i =>
    match tab[i]? with
    | some t => sgn3 x (prank h sym t)
    | none => 0
  have hv_at : ∀ i t, tab[i]? = some t → v i = sgn3 x (prank h sym t) := by
    intro i t ht
    simp only [v, ht]
  have get : ∀ i, i < tab.length → ∃ t, tab[i]? = some t := by
    intro i hi
    exact ⟨_, List.getElem?_eq_getElem hi⟩
  have h1 : ∀ i, i < tab.length → c i = some (v i) := by
    intro i hi
    obtain ⟨t, ht⟩ := get i hi
    rw [hc i t ht, hv_at i t ht]
  have h2 : ∀ i, i < tab.length → v i = -1 ∨ v i = 0 ∨ v i = 1 := by
    intro i hi
    obtain ⟨t, ht⟩ := get i hi
    rw [hv_at i t ht]
    exact sgn3_cases _ _
  have h3 : ∀ i j, i < j → j < tab.length → v i ≠ 1 → v j = -1 := by
    intro i j hij hj hne
    obtain ⟨a, ha⟩ := get i (by omega)
    obtain ⟨b, hb⟩ := get j hj
    rw [hv_at i a ha] at hne
    rw [hv_at j b hb]
    have hba := hS.idx hij ha hb
    rw [sgn3_eq_neg]
    rcases plt_total x (prank h sym a) with hlt | heq | hgt
    · exact absurd (sgn3_eq_one.mpr hlt) hne
    · rw [heq]; exact hba
    · exact plt_trans hba hgt
  rcases bsearch_spec c tab.length v h1 h2 h3 tab.length 0 tab.length (by omega) (by omega)
      (le_refl _) (by intro i hi; omega) (by intro i hi hi2; omega) with ⟨i, hi, hvi, hb⟩ | ⟨p, hp, hlo, hhi, hb⟩
  · left
    obtain ⟨t, ht⟩ := get i hi
    refine ⟨i, t, ht, ?_, hb⟩
    rw [hv_at i t ht] at hvi
    exact (sgn3_eq_zero.mp hvi).symm
  · right
    refine ⟨p, hp, ?_, ?_, hb⟩
    · intro i t hi ht
      have := hlo i hi
      rw [hv_at i t ht] at this
      exact sgn3_eq_one.mp this
    · intro i t hi ht
      have hlen : i < tab.length := (List.getElem?_eq_some.mp ht).1
      have := hhi i hi hlen
      rw [hv_at i t ht] at this
      exact sgn3_eq_neg.mp this

theorem kof_some {h : Nat → Option keybinding_t} {p : Nat} {b : keybinding_t}
    (hb : h p = some b) : kof h p = some (b.keysym, b.keycode, b.mod) := by
  simp [kof, hb]

theorem kof_live {h h2 : Nat → Option keybinding_t} {p : Nat} {b : keybinding_t}
    (he : kof h2 p = kof h p) (hb : h p = some b) :
    ∃ b2, h2 p = some b2 ∧ b2.keysym = b.keysym ∧ b2.keycode = b.keycode ∧ b2.mod = b.mod := by
  rw [kof_some hb] at he
  unfold kof at he
  cases h2p : h2 p with
  | none => rw [h2p] at he; simp at he
  | some b2 =>
    rw [h2p] at he
    simp only [Option.map_some', Option.some.injEq, Prod.mk.injEq] at he
    exact ⟨b2, rfl, he.1, he.2.1, he.2.2⟩

theorem prank_some {h : Nat → Option keybinding_t} {p : Nat} {b : keybinding_t} (sym : Bool)
    (hb : h p = some b) : prank h sym p = rank sym b := by
  simp [prank, hb]

theorem prank_congr {h h2 : Nat → Option keybinding_t} {p : Nat} (sym : Bool)
    (he : kof h2 p = kof h p) : prank h2 sym p = prank h sym p := by
  cases hp : h p with
  | none =>
    have : h2 p = none := by
      unfold kof at he; rw [hp] at he
      cases h2p : h2 p with
      | none => rfl
      | some b => rw [h2p] at he; simp at he
    simp [prank, hp, this]
  | some b =>
    obtain ⟨b2, hb2, e1, e2, e3⟩ := kof_live he hp
    rw [prank_some sym hp, prank_some sym hb2]
    simp [rank, e1, e2, e3]

theorem cls_congr {sym : Bool} {b b2 : keybinding_t} (e1 : b2.keysym = b.keysym)
    (e2 : b2.keycode = b.keycode) (hb : cls sym b) : cls sym b2 := by
  cases sym <;> simp_all [cls, symOnly, codeOnly]

theorem SortedTab.congr {h h2 : Nat → Option keybinding_t} {sym : Bool} {tab : List Nat}
    (hS : SortedTab h sym tab) (he : ∀ p, p ∈ tab → kof h2 p = kof h p) :
    SortedTab h2 sym tab := by
  constructor
  · intro p hp
    obtain ⟨b, hb, hc⟩ := hS.1 p hp
    obtain ⟨b2, hb2, e1, e2, _⟩ := kof_live (he p hp) hb
    exact ⟨b2, hb2, cls_congr e1 e2 hc⟩
  · refine List.Pairwise.imp_of_mem ?_ hS.2
    intro a b ha hb hab
    rw [prank_congr sym (he a ha), prank_congr sym (he b hb)]
    exact hab

theorem cls_sym {sym : Bool} {b : keybinding_t} (hb : cls sym b) :
    decide (b.keysym ≠ 0) = sym := by
  cases sym <;> simp_all [cls, symOnly, codeOnly]

theorem cmp_at_sorted {h : Nat → Option keybinding_t} {sym : Bool} {tab : List Nat}
    (hS : SortedTab h sym tab) {k : Nat} {kb : keybinding_t} (hk : h k = some kb)
    (hcls : cls sym kb) (i t : Nat) (ht : tab[i]? = some t) :
    cmp_at h k tab i = some (sgn3 (rank sym kb) (prank h sym t)) := by
  obtain ⟨b, hb, hc⟩ := hS.1 t (List.getElem?_mem ht)
  simp only [cmp_at, ht, hk, hb, prank_some sym hb]
  exact keybinding_cmp_rank sym kb b hcls hc

theorem ev_cmp_at_sorted {h : Nat → Option keybinding_t} {sym : Bool} {tab : List Nat}
    (hS : SortedTab h sym tab) (ks kc m : Nat) (i t : Nat) (ht : tab[i]? = some t) :
    ev_cmp_at h tab ks kc m i = some (sgn3 (if sym then ks else kc, m) (prank h sym t)) := by
  obtain ⟨b, hb, hc⟩ := hS.1 t (List.getElem?_mem ht)
  simp only [ev_cmp_at, ht, hb, prank_some sym hb]
  rw [keybinding_ev_cmp_rank sym ks kc m b hc]

theorem keybinding_ref_eq {g : State} {k : Nat} {kb : keybinding_t} (hk : g.heap k = some kb) :
    keybinding_ref g k = some (ref_state g k kb) := by
  simp [keybinding_ref, hk, ref_state]

theorem kof_ref_state {g : State} {k : Nat} {kb : keybinding_t} (hk : g.heap k = some kb)
    (p : Nat) : kof (ref_state g k kb).heap p = kof g.heap p := by
  unfold kof ref_state heap_set
  by_cases hp : p = k
  · subst hp; simp [hk]
  · simp [hp]

theorem register_fresh {g : State} {k : Nat} {kb : keybinding_t} {sym : Bool}
    (hk : g.heap k = some kb) (hcls : cls sym kb)
    (hS : SortedTab g.heap sym (arr_of g.keys sym))
    (hfresh : ∀ q, q ∈ arr_of g.keys sym → prank g.heap sym q ≠ rank sym kb) :
    ∃ p, p ≤ (arr_of g.keys sym).length ∧
      (∀ i t, i < p → (arr_of g.keys sym)[i]? = some t →
        plt (rank sym kb) (prank g.heap sym t)) ∧
      (∀ i t, p ≤ i → (arr_of g.keys sym)[i]? = some t →
        plt (prank g.heap sym t) (rank sym kb)) ∧
      keybinding_register_root g k = some (register_insert k sym (ref_state g k kb) p) := by
  have hS1 : SortedTab (ref_state g k kb).heap sym (arr_of g.keys sym) :=
    hS.congr (fun p _ => kof_ref_state hk p)
  have hk1 : (ref_state g k kb).heap k = some { kb with refcount := kb.refcount + 1 } := by
    simp [ref_state, heap_set]
  have hcls1 : cls sym { kb with refcount := kb.refcount + 1 } := cls_congr rfl rfl hcls
  have hpr : ∀ p, prank (ref_state g k kb).heap sym p = prank g.heap sym p :=
    fun p => prank_congr sym (kof_ref_state hk p)
  have hrk : rank sym { kb with refcount := kb.refcount + 1 } = rank sym kb := rfl
  have hrun : keybinding_register_root g k =
      register_loop k sym (ref_state g k kb) (arr_of g.keys sym).length 0
        (arr_of g.keys sym).length := by
    simp only [keybinding_register_root, hk, keybinding_ref_eq hk, cls_sym hcls]
    rfl
  rw [hrun, register_loop_eq]
  have hkeys : (ref_state g k kb).keys = g.keys := rfl
  rw [hkeys]
  rcases search_sorted hS1 (rank sym kb) (cmp_at (ref_state g k kb).heap k (arr_of g.keys sym))
      (fun i t ht => by rw [cmp_at_sorted hS1 hk1 hcls1 i t ht, hrk])
    with ⟨i, t, ht, hr, _⟩ | ⟨p, hp, hlo, hhi, hb⟩
  · rw [hpr] at hr
    exact absurd hr (hfresh t (List.getElem?_mem ht))
  · refine ⟨p, hp, ?_, ?_, ?_⟩
    · intro i t hi ht
      have := hlo i t hi ht
      rwa [hpr] at this
    · intro i t hi ht
      have := hhi i t hi ht
      rwa [hpr] at this
    · rw [hb]

theorem register_dup {g : State} {k : Nat} {kb : keybinding_t} {sym : Bool}
    (hk : g.heap k = some kb) (hcls : cls sym kb)
    (hS : SortedTab g.heap sym (arr_of g.keys sym))
    {i t : Nat} (hi : (arr_of g.keys sym)[i]? = some t)
    (hr : prank g.heap sym t = rank sym kb) :
    keybinding_register_root g k = register_replace k sym (ref_state g k kb) i t := by
  have hS1 : SortedTab (ref_state g k kb).heap sym (arr_of g.keys sym) :=
    hS.congr (fun p _ => kof_ref_state hk p)
  have hk1 : (ref_state g k kb).heap k = some { kb with refcount := kb.refcount + 1 } := by
    simp [ref_state, heap_set]
  have hcls1 : cls sym { kb with refcount := kb.refcount + 1 } := cls_congr rfl rfl hcls
  have hpr : ∀ p, prank (ref_state g k kb).heap sym p = prank g.heap sym p :=
    fun p => prank_congr sym (kof_ref_state hk p)
  have hrk : rank sym { kb with refcount := kb.refcount + 1 } = rank sym kb := rfl
  have hrun : keybinding_register_root g k =
      register_loop k sym (ref_state g k kb) (arr_of g.keys sym).length 0
        (arr_of g.keys sym).length := by
    simp only [keybinding_register_root, hk, keybinding_ref_eq hk, cls_sym hcls]
    rfl
  rw [hrun, register_loop_eq]
  have hkeys : (ref_state g k kb).keys = g.keys := rfl
  rw [hkeys]
  rcases search_sorted hS1 (rank sym kb) (cmp_at (ref_state g k kb).heap k (arr_of g.keys sym))
      (fun i t ht => by rw [cmp_at_sorted hS1 hk1 hcls1 i t ht, hrk])
    with ⟨j, u, hu, hru, hb⟩ | ⟨p, _, hlo, hhi, _⟩
  · rw [hpr] at hru
    have hij : i = j := hS.idx_unique hi hu (hr.trans hru.symm)
    subst hij
    rw [hb]
    simp only [hi]
  · rcases Nat.lt_or_ge i p with hlt | hge
    · have := hlo i t hlt hi
      rw [hpr, hr] at this
      exact absurd this (plt_irrefl _)
    · have := hhi i t hge hi
      rw [hpr, hr] at this
      exact absurd this (plt_irrefl _)

theorem unregister_absent {g : State} {k : Nat} {kb : keybinding_t} {sym : Bool}
    (hk : g.heap k = some kb) (hcls : cls sym kb)
    (hS : SortedTab g.heap sym (arr_of g.keys sym))
    (hfresh : ∀ q, q ∈ arr_of g.keys sym → prank g.heap sym q ≠ rank sym kb) :
    keybinding_unregister_root g k = some g := by
  have hrun : keybinding_unregister_root g k =
      unregister_loop k sym g (arr_of g.keys sym).length 0 (arr_of g.keys sym).length := by
    simp only [keybinding_unregister_root, hk, cls_sym hcls]
  rw [hrun, unregister_loop_eq]
  rcases search_sorted hS (rank sym kb) (cmp_at g.heap k (arr_of g.keys sym))
      (fun i t ht => cmp_at_sorted hS hk hcls i t ht)
    with ⟨i, t, ht, hr, _⟩ | ⟨p, _, _, _, hb⟩
  · exact absurd hr (hfresh t (List.getElem?_mem ht))
  · rw [hb]

theorem unregister_present {g : State} {k : Nat} {kb : keybinding_t} {sym : Bool}
    (hk : g.heap k = some kb) (hcls : cls sym kb)
    (hS : SortedTab g.heap sym (arr_of g.keys sym))
    {i t : Nat} (hi : (arr_of g.keys sym)[i]? = some t)
    (hr : prank g.heap sym t = rank sym kb) :
    keybinding_unregister_root g k = unregister_remove k sym g i := by
  have hrun : keybinding_unregister_root g k =
      unregister_loop k sym g (arr_of g.keys sym).length 0 (arr_of g.keys sym).length := by
    simp only [keybinding_unregister_root, hk, cls_sym hcls]
  rw [hrun, unregister_loop_eq]
  rcases search_sorted hS (rank sym kb) (cmp_at g.heap k (arr_of g.keys sym))
      (fun i t ht => cmp_at_sorted hS hk hcls i t ht)
    with ⟨j, u, hu, hru, hb⟩ | ⟨p, _, hlo, hhi, _⟩
  · have hij : i = j := hS.idx_unique hi hu (hr.trans hru.symm)
    subst hij
    rw [hb]
  · rcases Nat.lt_or_ge i p with hlt | hge
    · have := hlo i t hlt hi
      rw [hr] at this
      exact absurd this (plt_irrefl _)
    · have := hhi i t hge hi
      rw [hr] at this
      exact absurd this (plt_irrefl _)

theorem find_loop_sorted {h : Nat → Option keybinding_t} {sym : Bool} {tab : List Nat}
    (hS : SortedTab h sym tab) (ks kc m : Nat) :
    (∃ t, t ∈ tab ∧ prank h sym t = (if sym then ks else kc, m) ∧
      find_loop h tab ks kc m tab.length 0 tab.length = some (some t)) ∨
    ((∀ q, q ∈ tab → prank h sym q ≠ (if sym then ks else kc, m)) ∧
      find_loop h tab ks kc m tab.length 0 tab.length = some none) := by
  rw [find_loop_eq]
  rcases search_sorted hS (if sym then ks else kc, m) (ev_cmp_at h tab ks kc m)
      (fun i t ht => ev_cmp_at_sorted hS ks kc m i t ht)
    with ⟨i, t, ht, hr, hb⟩ | ⟨p, _, hlo, hhi, hb⟩
  · left
    refine ⟨t, List.getElem?_mem ht, hr, ?_⟩
    rw [hb]
    simp only [ht]
  · right
    refine ⟨?_, by rw [hb]⟩
    intro q hq he
    obtain ⟨i, hi⟩ := List.mem_iff_getElem?.mp hq
    rcases Nat.lt_or_ge i p with hlt | hge
    · have := hlo i q hlt hi
      rw [he] at this
      exact absurd this (plt_irrefl _)
    · have := hhi i q hge hi
      rw [he] at this
      exact absurd this (plt_irrefl _)

theorem mem_take_idx {tab : List Nat} {p a : Nat} (ha : a ∈ tab.take p) :
    ∃ i, i < p ∧ tab[i]? = some a := by
  obtain ⟨i, hi⟩ := List.mem_iff_getElem?.mp ha
  rw [List.getElem?_take] at hi
  by_cases hip : i < p
  · rw [if_pos hip] at hi; exact ⟨i, hip, hi⟩
  · rw [if_neg hip] at hi; exact absurd hi (by simp)

theorem mem_drop_idx {tab : List Nat} {p a : Nat} (ha : a ∈ tab.drop p) :
    ∃ i, p ≤ i ∧ tab[i]? = some a := by
  obtain ⟨i, hi⟩ := List.mem_iff_getElem?.mp ha
  rw [List.getElem?_drop] at hi
  exact ⟨p + i, by omega, hi⟩

theorem SortedTab.sublist {h : Nat → Option keybinding_t} {sym : Bool} {tab tab2 : List Nat}
    (hS : SortedTab h sym tab) (hsub : tab2.Sublist tab) : SortedTab h sym tab2 :=
  ⟨fun p hp => hS.1 p (hsub.subset hp), hS.2.sublist hsub⟩

theorem SortedTab.insert {h : Nat → Option keybinding_t} {sym : Bool} {tab : List Nat}
    (hS : SortedTab h sym tab) {k p : Nat} {kb : keybinding_t} (hk : h k = some kb)
    (hcls : cls sym kb)
    (hlo : ∀ i t, i < p → tab[i]? = some t → plt (rank sym kb) (prank h sym t))
    (hhi : ∀ i t, p ≤ i → tab[i]? = some t → plt (prank h sym t) (rank sym kb)) :
    SortedTab h sym (keybinding_array_splice tab p 0 [k]) := by
  have hpk : prank h sym k = rank sym kb := prank_some sym hk
  unfold keybinding_array_splice
  rw [Nat.add_zero]
  constructor
  · intro q hq
    simp only [List.mem_append, List.mem_singleton] at hq
    rcases hq with (hq | hq) | hq
    · exact hS.1 q (List.mem_of_mem_take hq)
    · subst hq; exact ⟨kb, hk, hcls⟩
    · exact hS.1 q (List.mem_of_mem_drop hq)
  · rw [List.pairwise_append, List.pairwise_append]
    refine ⟨⟨hS.2.sublist (List.take_sublist _ _), List.pairwise_singleton _ _, ?_⟩,
      hS.2.sublist (List.drop_sublist _ _), ?_⟩
    · intro a ha b hb
      rw [List.mem_singleton] at hb
      subst hb
      obtain ⟨i, hi, hai⟩ := mem_take_idx ha
      rw [hpk]
      exact hlo i a hi hai
    · intro a ha b hb
      obtain ⟨j, hj, hbj⟩ := mem_drop_idx hb
      have hbx := hhi j b hj hbj
      rw [List.mem_append, List.mem_singleton] at ha
      rcases ha with ha | ha
      · obtain ⟨i, hi, hai⟩ := mem_take_idx ha
        exact hS.idx (by omega) hai hbj
      · subst ha
        rw [hpk]; exact hbx

theorem kof_live2 {h h2 : Nat → Option keybinding_t} {p q : Nat} {b : keybinding_t}
    (he : kof h2 q = kof h p) (hb : h p = some b) :
    ∃ b2, h2 q = some b2 ∧ b2.keysym = b.keysym ∧ b2.keycode = b.keycode ∧ b2.mod = b.mod := by
  rw [kof_some hb] at he
  unfold kof at he
  cases h2p : h2 q with
  | none => rw [h2p] at he; simp at he
  | some b2 =>
    rw [h2p] at he
    simp only [Option.map_some', Option.some.injEq, Prod.mk.injEq] at he
    exact ⟨b2, rfl, he.1, he.2.1, he.2.2⟩

theorem SortedTab.transfer {h h2 : Nat → Option keybinding_t} {sym : Bool}
    {tab tab2 : List Nat} (hS : SortedTab h sym tab) (hlen : tab2.length = tab.length)
    (hpt : ∀ (i a b : Nat), tab[i]? = some a → tab2[i]? = some b → kof h2 b = kof h a) :
    SortedTab h2 sym tab2 := by
  have hrank : ∀ (i a b : Nat), tab[i]? = some a → tab2[i]? = some b →
      prank h2 sym b = prank h sym a := by
    intro i a b ha hb
    obtain ⟨ra, hra, hc⟩ := hS.1 a (List.getElem?_mem ha)
    obtain ⟨rb, hrb, e1, e2, e3⟩ := kof_live2 (hpt i a b ha hb) hra
    rw [prank_some sym hra, prank_some sym hrb]
    simp [rank, e1, e2, e3]
  constructor
  · intro b hb
    obtain ⟨i, hi⟩ := List.mem_iff_getElem?.mp hb
    have hil : i < tab.length := by
      rw [← hlen]; exact (List.getElem?_eq_some.mp hi).1
    have ha : tab[i]? = some tab[i] := List.getElem?_eq_getElem hil
    obtain ⟨ra, hra, hc⟩ := hS.1 _ (List.getElem?_mem ha)
    obtain ⟨rb, hrb, e1, e2, _⟩ := kof_live2 (hpt i _ b ha hi) hra
    exact ⟨rb, hrb, cls_congr e1 e2 hc⟩
  · rw [List.pairwise_iff_getElem]
    intro i j hi hj hij
    have hi2 : i < tab.length := by omega
    have hj2 : j < tab.length := by omega
    have hai : tab[i]? = some tab[i] := List.getElem?_eq_getElem hi2
    have haj : tab[j]? = some tab[j] := List.getElem?_eq_getElem hj2
    have hbi : tab2[i]? = some tab2[i] := List.getElem?_eq_getElem hi
    have hbj : tab2[j]? = some tab2[j] := List.getElem?_eq_getElem hj
    rw [hrank i _ _ hai hbi, hrank j _ _ haj hbj]
    exact hS.idx hij hai haj

theorem SortedIdx.arr {g : State} (hS : SortedIdx g) (sym : Bool) :
    SortedTab g.heap sym (arr_of g.keys sym) := by
  cases sym
  · exact hS.2
  · exact hS.1

theorem SortedIdx.of_arr {g : State}
    (hS : ∀ sym, SortedTab g.heap sym (arr_of g.keys sym)) : SortedIdx g :=
  ⟨hS true, hS false⟩

theorem arr_of_put_same (idx : keybinding_idx_t) (sym : Bool) (tab : List Nat) :
    arr_of (arr_put idx sym tab) sym = tab := by
  cases sym <;> rfl

theorem arr_of_put_other (idx : keybinding_idx_t) (sym : Bool) (tab : List Nat) :
    arr_of (arr_put idx sym tab) (!sym) = arr_of idx (!sym) := by
  cases sym <;> rfl

theorem arr_put_put (idx : keybinding_idx_t) (sym : Bool) (tab tab2 : List Nat) :
    arr_put (arr_put idx sym tab) sym tab2 = arr_put idx sym tab2 := by
  cases sym <;> rfl

theorem arr_put_self (idx : keybinding_idx_t) (sym : Bool) :
    arr_put idx sym (arr_of idx sym) = idx := by
  cases sym <;> rfl

theorem cls_disjoint {sym : Bool} {b : keybinding_t} (h1 : cls sym b) (h2 : cls (!sym) b) :
    False := by
  cases sym <;> simp_all [cls, symOnly, codeOnly]

theorem wellformed_cls {b : keybinding_t} (hb : wellformed b) : ∃ sym, cls sym b := by
  rcases hb with h | h
  · exact ⟨true, h⟩
  · exact ⟨false, h⟩

theorem cls_rank_key {sym : Bool} {a b : keybinding_t} (ha : cls sym a) (hb : cls sym b)
    (he : rank sym a = rank sym b) :
    (a.keysym, a.keycode, a.mod) = (b.keysym, b.keycode, b.mod) := by
  cases sym <;> simp_all [cls, symOnly, codeOnly, rank]

theorem unref_spec {g : State} {t : Nat} {tb : keybinding_t} (ht : g.heap t = some tb) :
    ∃ g2, keybinding_unref g t = some g2 ∧ g2.keys = g.keys ∧
      (∀ q, q ≠ t → g2.heap q = g.heap q) ∧
      ((tb.refcount - 1 = 0 ∧ g2.heap t = none ∧
          g2.log = g.log ++ [Effect.unref t, Effect.delete t]) ∨
       (tb.refcount - 1 ≠ 0 ∧ g2.heap t = some { tb with refcount := tb.refcount - 1 } ∧
          g2.log = g.log ++ [Effect.unref t])) := by
  unfold keybinding_unref
  simp only [ht]
  by_cases hz : tb.refcount - 1 = 0
  · rw [if_pos hz]
    refine ⟨_, rfl, rfl, ?_, Or.inl ⟨hz, ?_, ?_⟩⟩
    · intro q hq; simp [keybinding_delete, heap_set, hq]
    · simp [keybinding_delete, heap_set]
    · simp [keybinding_delete]
  · rw [if_neg hz]
    refine ⟨_, rfl, rfl, ?_, Or.inr ⟨hz, ?_, rfl⟩⟩
    · intro q hq; simp [heap_set, hq]
    · simp [heap_set]

theorem step_insert {g : State} {k p : Nat} {kb : keybinding_t} {sym : Bool}
    (hS : SortedTab g.heap sym (arr_of g.keys sym)) (hR : RefOK g.heap)
    (hk : g.heap k = some kb) (hcls : cls sym kb)
    (hlo : ∀ i t, i < p → (arr_of g.keys sym)[i]? = some t →
      plt (rank sym kb) (prank g.heap sym t))
    (hhi : ∀ i t, p ≤ i → (arr_of g.keys sym)[i]? = some t →
      plt (prank g.heap sym t) (rank sym kb)) :
    StepOK g (register_insert k sym (ref_state g k kb) p) sym := by
  have hkof := fun q => kof_ref_state (g := g) hk q
  have hk1 : (ref_state g k kb).heap k = some { kb with refcount := kb.refcount + 1 } := by
    simp [ref_state, heap_set]
  have hcls1 : cls sym { kb with refcount := kb.refcount + 1 } := cls_congr rfl rfl hcls
  have hpr : ∀ q, prank (ref_state g k kb).heap sym q = prank g.heap sym q :=
    fun q => prank_congr sym (hkof q)
  have hheap : (register_insert k sym (ref_state g k kb) p).heap = (ref_state g k kb).heap := rfl
  refine ⟨?_, ?_, ?_, ?_, ?_⟩
  · have hS1 : SortedTab (ref_state g k kb).heap sym (arr_of g.keys sym) :=
      hS.congr (fun q _ => hkof q)
    have := hS1.insert (p := p) hk1 hcls1
      (fun i t hi ht => by rw [hpr]; exact hlo i t hi ht)
      (fun i t hi ht => by rw [hpr]; exact hhi i t hi ht)
    simpa [register_insert, window_root_grabkey, arr_of_put_same, ref_state] using this
  · simp [register_insert, window_root_grabkey, arr_of_put_other, ref_state]
  · intro q b hq hnc
    rw [hheap]
    have hqk : q ≠ k := by
      intro e; subst e; rw [hk] at hq; cases hq; exact hnc hcls
    simp [ref_state, heap_set, hqk, hq]
  · intro q b hq
    rw [hheap] at hq
    have hq2 : heap_set g.heap k (some { kb with refcount := kb.refcount + 1 }) q = some b := hq
    unfold heap_set at hq2
    by_cases hqk : q = k
    · rw [if_pos hqk] at hq2
      have := hR k kb hk
      cases hq2
      simp only
      omega
    · rw [if_neg hqk] at hq2
      exact hR q b hq2
  · intro q b2 _
    rw [hheap]
    exact (hkof q).symm

theorem step_replace {g : State} {k i t : Nat} {kb : keybinding_t} {sym : Bool}
    (hS : SortedTab g.heap sym (arr_of g.keys sym)) (hR : RefOK g.heap)
    (hk : g.heap k = some kb) (hcls : cls sym kb)
    (hi : (arr_of g.keys sym)[i]? = some t)
    (hr : prank g.heap sym t = rank sym kb) :
    ∃ g1, keybinding_unref (ref_state g k kb) t = some g1 ∧
      register_replace k sym (ref_state g k kb) i t =
        some { g1 with keys := arr_put g.keys sym ((arr_of g.keys sym).set i k),
                       log := g1.log ++ [Effect.tab_set sym i k] } ∧
      StepOK g { g1 with keys := arr_put g.keys sym ((arr_of g.keys sym).set i k),
                         log := g1.log ++ [Effect.tab_set sym i k] } sym := by
  have hkof := fun q => kof_ref_state (g := g) hk q
  have hk1 : (ref_state g k kb).heap k = some { kb with refcount := kb.refcount + 1 } := by
    simp [ref_state, heap_set]
  have hne1 : ∀ q, q ≠ k → (ref_state g k kb).heap q = g.heap q := by
    intro q hq; simp [ref_state, heap_set, hq]
  obtain ⟨tb, htb, htc⟩ := hS.1 t (List.getElem?_mem hi)
  have hil : i < (arr_of g.keys sym).length := (List.getElem?_eq_some.mp hi).1
  obtain ⟨tb1, htb1, hkey1, hrc1⟩ : ∃ tb1, (ref_state g k kb).heap t = some tb1 ∧
      (tb1.keysym, tb1.keycode, tb1.mod) = (kb.keysym, kb.keycode, kb.mod) ∧
      (2 ≤ tb1.refcount ∨ (t ≠ k ∧ 1 ≤ tb1.refcount)) := by
    by_cases htk : t = k
    · subst htk
      exact ⟨_, hk1, rfl, Or.inl (by have := hR t kb hk; simp only; omega)⟩
    · refine ⟨tb, by rw [hne1 t htk]; exact htb, ?_, Or.inr ⟨htk, hR t tb htb⟩⟩
      apply cls_rank_key htc hcls
      rw [← hr, prank_some sym htb]
  obtain ⟨g1, hg1, hkeys1, hoth, hcase⟩ := unref_spec htb1
  refine ⟨g1, hg1, ?_, ?_⟩
  · simp only [register_replace, hg1, hkeys1]
    rfl
  have hkoft : kof g.heap t = some (kb.keysym, kb.keycode, kb.mod) := by
    rw [kof_some htb]
    simp only [Option.some.injEq]
    apply cls_rank_key htc hcls
    rw [← hr, prank_some sym htb]
  have hkofk : kof g1.heap k = some (kb.keysym, kb.keycode, kb.mod) := by
    by_cases htk : t = k
    · subst htk
      rcases hcase with ⟨hz, _, _⟩ | ⟨_, hl, _⟩
      · rcases hrc1 with h2 | ⟨h2, _⟩
        · omega
        · exact absurd rfl h2
      · rw [kof_some hl]
        simp only [Option.some.injEq]
        exact hkey1
    · rw [show kof g1.heap k = kof (ref_state g k kb).heap k by
        unfold kof; rw [hoth k (Ne.symm htk)], kof_some hk1]
  have hkofq : ∀ q, q ≠ t → kof g1.heap q = kof g.heap q := by
    intro q hq
    rw [← hkof q]
    unfold kof
    rw [hoth q hq]
  refine ⟨?_, ?_, ?_, ?_, ?_⟩
  · simp only [arr_of_put_same]
    refine hS.transfer (by simp) ?_
    intro j a b ha hb
    by_cases hji : j = i
    · subst hji
      rw [List.getElem?_set_self hil] at hb
      rw [hi] at ha
      cases ha; cases hb
      rw [hkofk, hkoft]
    · rw [List.getElem?_set_ne (Ne.symm hji)] at hb
      rw [ha] at hb
      cases hb
      apply hkofq
      intro hat
      subst hat
      exact hji (hS.idx_unique ha hi rfl)
  · simp only [arr_of_put_other]
  · intro q b hq hnc
    have hqk : q ≠ k := by
      intro e; subst e; rw [hk] at hq; cases hq; exact hnc hcls
    have hqt : q ≠ t := by
      intro e; subst e; rw [htb] at hq; cases hq; exact hnc htc
    show g1.heap q = some b
    rw [hoth q hqt, hne1 q hqk, hq]
  · intro q b hq
    have hq2 : g1.heap q = some b := hq
    by_cases hqt : q = t
    · subst hqt
      rcases hcase with ⟨_, hl, _⟩ | ⟨hz, hl, _⟩
      · rw [hl] at hq2; cases hq2
      · rw [hl] at hq2
        cases hq2
        simp only
        rcases hrc1 with h2 | ⟨_, h2⟩ <;> omega
    · rw [hoth q hqt] at hq2
      by_cases hqk : q = k
      · subst hqk
        rw [hk1] at hq2
        cases hq2
        have := hR q kb hk
        simp only
        omega
      · rw [hne1 q hqk] at hq2
        exact hR q b hq2
  · intro q b2 hq
    have hq2 : g1.heap q = some b2 := hq
    show kof g.heap q = kof g1.heap q
    by_cases hqt : q = t
    · subst hqt
      rcases hcase with ⟨_, hl, _⟩ | ⟨hz, hl, _⟩
      · rw [hl] at hq2; cases hq2
      · rw [hkoft, kof_some hl]
        simp only [Option.some.injEq]
        exact hkey1.symm
    · exact (hkofq q hqt).symm

theorem mem_take_splice {tab : List Nat} {i q : Nat}
    (hq : q ∈ keybinding_array_take tab i) : ∃ j, j ≠ i ∧ tab[j]? = some q := by
  unfold keybinding_array_take keybinding_array_splice at hq
  simp only [List.append_nil, List.mem_append] at hq
  rcases hq with hq | hq
  · obtain ⟨j, hj, hjq⟩ := mem_take_idx hq
    exact ⟨j, by omega, hjq⟩
  · obtain ⟨j, hj, hjq⟩ := mem_drop_idx hq
    exact ⟨j, by omega, hjq⟩

theorem take_sublist_tab (tab : List Nat) (i : Nat) :
    (keybinding_array_take tab i).Sublist tab := by
  unfold keybinding_array_take keybinding_array_splice
  simp only [List.append_nil]
  have h := (List.take_sublist i tab)
  have h2 : (tab.take i ++ tab.drop (i + 1)).Sublist (tab.take i ++ tab.drop i) :=
    List.Sublist.append (List.Sublist.refl _) (List.drop_sublist_drop_left tab (Nat.le_succ i))
  rwa [List.take_append_drop] at h2

theorem step_remove {g : State} {k i t : Nat} {kb : keybinding_t} {sym : Bool}
    (hS : SortedTab g.heap sym (arr_of g.keys sym)) (hR : RefOK g.heap)
    (hk : g.heap k = some kb) (hcls : cls sym kb)
    (hi : (arr_of g.keys sym)[i]? = some t)
    (hr : prank g.heap sym t = rank sym kb) :
    ∃ g2, unregister_remove k sym g i = some g2 ∧ StepOK g g2 sym ∧
      g2.keys = arr_put g.keys sym (keybinding_array_take (arr_of g.keys sym) i) := by
  let g1 : State := window_root_ungrabkey
    { g with keys := arr_put g.keys sym (keybinding_array_take (arr_of g.keys sym) i),
             log := g.log ++ [Effect.take sym i] } k
  have hk1 : g1.heap k = some kb := hk
  obtain ⟨g2, hg2, hkeys2, hoth, hcase⟩ := unref_spec hk1
  refine ⟨g2, hg2, ?_, hkeys2⟩
  have hoth2 : ∀ q, q ≠ k → g2.heap q = g.heap q := fun q hq => hoth q hq
  have hkofq : ∀ q, q ≠ k → kof g2.heap q = kof g.heap q := by
    intro q hq
    unfold kof
    rw [hoth2 q hq]
  refine ⟨?_, ?_, ?_, ?_, ?_⟩
  · rw [hkeys2]
    simp only [g1, window_root_ungrabkey, arr_of_put_same]
    refine (hS.sublist (take_sublist_tab _ i)).congr ?_
    intro q hq
    apply hkofq
    intro hqk
    subst hqk
    obtain ⟨j, hji, hj⟩ := mem_take_splice hq
    apply hji
    apply hS.idx_unique hj hi
    rw [hr, prank_some sym hk]
  · rw [hkeys2]
    simp only [g1, window_root_ungrabkey, arr_of_put_other]
  · intro q b hq hnc
    have hqk : q ≠ k := by
      intro e; subst e; rw [hk] at hq; cases hq; exact hnc hcls
    rw [hoth2 q hqk, hq]
  · intro q b hq
    by_cases hqk : q = k
    · subst hqk
      rcases hcase with ⟨_, hl, _⟩ | ⟨hz, hl, _⟩
      · rw [hl] at hq; cases hq
      · rw [hl] at hq
        cases hq
        have := hR q kb hk
        simp only
        omega
    · rw [hoth2 q hqk] at hq
      exact hR q b hq
  · intro q b2 hq
    by_cases hqk : q = k
    · subst hqk
      rcases hcase with ⟨_, hl, _⟩ | ⟨hz, hl, _⟩
      · rw [hl] at hq; cases hq
      · rw [kof_some hk, kof_some hl]
    · exact (hkofq q hqk).symm

theorem StepOK.refl {g : State} {sym : Bool}
    (hS : SortedTab g.heap sym (arr_of g.keys sym)) (hR : RefOK g.heap) : StepOK g g sym :=
  ⟨hS, rfl, fun _ _ hq _ => hq, hR, fun _ _ _ => rfl⟩

theorem StepOK.other {g g2 : State} {sym : Bool} (hst : StepOK g g2 sym)
    (hO : SortedTab g.heap (!sym) (arr_of g.keys (!sym))) :
    SortedTab g2.heap (!sym) (arr_of g2.keys (!sym)) := by
  rw [hst.2.1]
  refine hO.congr ?_
  intro q hq
  obtain ⟨b, hb, hbc⟩ := hO.1 q hq
  have := hst.2.2.1 q b hb (fun hc => cls_disjoint hc hbc)
  rw [kof_some hb, kof_some this]

theorem StepOK.inv {g g2 : State} {sym : Bool} (hI : Inv g) (hst : StepOK g g2 sym) :
    Inv g2 := by
  refine ⟨SortedIdx.of_arr ?_, hst.2.2.2.1⟩
  intro s
  by_cases hs : s = sym
  · subst hs; exact hst.1
  · have hs2 : s = !sym := by cases s <;> cases sym <;> simp_all
    subst hs2
    exact hst.other (hI.1.arr _)

theorem exists_rank_or (h : Nat → Option keybinding_t) (sym : Bool) (tab : List Nat)
    (x : Nat × Nat) :
    (∃ (i t : Nat), tab[i]? = some t ∧ prank h sym t = x) ∨
      (∀ q, q ∈ tab → prank h sym q ≠ x) := by
  by_cases hex : ∃ q, q ∈ tab ∧ prank h sym q = x
  · obtain ⟨q, hq, hx⟩ := hex
    obtain ⟨i, hi⟩ := List.mem_iff_getElem?.mp hq
    exact Or.inl ⟨i, q, hi, hx⟩
  · right
    intro q hq hx
    exact hex ⟨q, hq, hx⟩

theorem register_step {g : State} {k : Nat} {kb : keybinding_t} {sym : Bool}
    (hS : SortedTab g.heap sym (arr_of g.keys sym)) (hR : RefOK g.heap)
    (hk : g.heap k = some kb) (hcls : cls sym kb) :
    ∃ g2, keybinding_register_root g k = some g2 ∧ StepOK g g2 sym := by
  rcases exists_rank_or g.heap sym (arr_of g.keys sym) (rank sym kb)
    with ⟨i, t, hi, hr⟩ | hfresh
  · obtain ⟨g1, _, hrep, hst⟩ := step_replace hS hR hk hcls hi hr
    exact ⟨_, (register_dup hk hcls hS hi hr).trans hrep, hst⟩
  · obtain ⟨p, _, hlo, hhi, hrun⟩ := register_fresh hk hcls hS hfresh
    exact ⟨_, hrun, step_insert hS hR hk hcls hlo hhi⟩

theorem unregister_step {g : State} {k : Nat} {kb : keybinding_t} {sym : Bool}
    (hS : SortedTab g.heap sym (arr_of g.keys sym)) (hR : RefOK g.heap)
    (hk : g.heap k = some kb) (hcls : cls sym kb) :
    ∃ g2, keybinding_unregister_root g k = some g2 ∧ StepOK g g2 sym := by
  rcases exists_rank_or g.heap sym (arr_of g.keys sym) (rank sym kb)
    with ⟨i, t, hi, hr⟩ | hfresh
  · obtain ⟨g2, hrem, hst, _⟩ := step_remove hS hR hk hcls hi hr
    exact ⟨g2, (unregister_present hk hcls hS hi hr).trans hrem, hst⟩
  · exact ⟨g, unregister_absent hk hcls hS hfresh, StepOK.refl hS hR⟩

theorem register_inv {g : State} {k : Nat} {kb : keybinding_t}
    (hI : Inv g) (hk : g.heap k = some kb) (hw : wellformed kb) :
    ∃ g2, keybinding_register_root g k = some g2 ∧ Inv g2 := by
  obtain ⟨sym, hcls⟩ := wellformed_cls hw
  obtain ⟨g2, h1, h2⟩ := register_step (hI.1.arr sym) hI.2 hk hcls
  exact ⟨g2, h1, h2.inv hI⟩

theorem unregister_inv {g : State} {k : Nat} {kb : keybinding_t}
    (hI : Inv g) (hk : g.heap k = some kb) (hw : wellformed kb) :
    ∃ g2, keybinding_unregister_root g k = some g2 ∧ Inv g2 := by
  obtain ⟨sym, hcls⟩ := wellformed_cls hw
  obtain ⟨g2, h1, h2⟩ := unregister_step (hI.1.arr sym) hI.2 hk hcls
  exact ⟨g2, h1, h2.inv hI⟩

/-! ## Lemmas about reachable states, lookup and the concrete states -/

theorem new_fields (X : Platform) (mods : List String) (key : String) (fct : Nat) :
    (luaA_keybinding_new X mods key fct).refcount = 1 ∧
    ((luaA_keybinding_new X mods key fct).keysym = 0 ∨
      (luaA_keybinding_new X mods key fct).keycode = 0) := by
  have hfold : ∀ (ms : List String) (k : keybinding_t),
      (ms.foldl (fun k m => { k with mod := k.mod ||| X.xutil_keymask_fromstr m }) k).refcount
        = k.refcount ∧
      (ms.foldl (fun k m => { k with mod := k.mod ||| X.xutil_keymask_fromstr m }) k).keysym
        = k.keysym ∧
      (ms.foldl (fun k m => { k with mod := k.mod ||| X.xutil_keymask_fromstr m }) k).keycode
        = k.keycode := by
    intro ms
    induction ms with
    | nil => intro k; exact ⟨rfl, rfl, rfl⟩
    | cons m ms ih =>
      intro k
      simp only [List.foldl_cons]
      obtain ⟨h1, h2, h3⟩ := ih { k with mod := k.mod ||| X.xutil_keymask_fromstr m }
      exact ⟨h1, h2, h3⟩
  unfold luaA_keybinding_new
  simp only
  obtain ⟨h1, h2, h3⟩ := hfold mods
    { __luaA_keystore X { refcount := 0, mod := 0, keysym := 0, keycode := 0, fct := 0 } key
      with fct := fct }
  rw [h1, h2, h3]
  unfold __luaA_keystore
  split
  · simp
  · split_ifs <;> simp

theorem inv_new {X : Platform} {g : State} {q : Nat} (mods : List String) (key : String)
    (fct : Nat) (hI : Inv g) (hq : g.heap q = none) : Inv (new_state X g q mods key fct) := by
  have hne : ∀ p b, g.heap p = some b → (new_state X g q mods key fct).heap p = some b := by
    intro p b hp
    have : p ≠ q := by intro e; subst e; rw [hq] at hp; cases hp
    simp [new_state, heap_set, this, hp]
  have hk : ∀ sym, ∀ p, p ∈ arr_of g.keys sym →
      kof (new_state X g q mods key fct).heap p = kof g.heap p := by
    intro sym p hp
    obtain ⟨b, hb, _⟩ := (hI.1.arr sym).1 p hp
    rw [kof_some hb, kof_some (hne p b hb)]
  refine ⟨⟨(hI.1.arr true).congr (hk true), (hI.1.arr false).congr (hk false)⟩, ?_⟩
  intro p b hp
  by_cases hpq : p = q
  · subst hpq
    have : b = luaA_keybinding_new X mods key fct := by
      simp [new_state, heap_set] at hp; exact hp.symm
    rw [this, (new_fields X mods key fct).1]
  · have : g.heap p = some b := by simpa [new_state, heap_set, hpq] using hp
    exact hI.2 p b this

theorem inv_empty (h0 : Nat → Option keybinding_t) (hQ : ∀ p b, h0 p = some b → owned b) :
    Inv (empty_index h0) :=
  ⟨⟨⟨fun _ hp => absurd hp (List.not_mem_nil _), List.Pairwise.nil⟩,
    ⟨fun _ hp => absurd hp (List.not_mem_nil _), List.Pairwise.nil⟩⟩, hQ⟩

theorem reachable_inv {X : Platform} {g : State} (hg : Reachable X owned wellformed g) :
    Inv g := by
  induction hg with
  | init h0 hQ => exact inv_empty h0 hQ
  | new g q mods key fct _ hq ih => exact inv_new mods key fct ih hq
  | add g g2 k kb _ hk hP hrun ih =>
    obtain ⟨g3, h3, hI3⟩ := register_inv ih hk hP
    rw [hrun] at h3; cases h3; exact hI3
  | remove g g2 k kb _ hk hP hrun ih =>
    obtain ⟨g3, h3, hI3⟩ := unregister_inv ih hk hP
    rw [hrun] at h3; cases h3; exact hI3

theorem sorted_adjacent {h : Nat → Option keybinding_t} {sym : Bool} {tab : List Nat}
    (hS : SortedTab h sym tab) : adjacent_sorted h tab := by
  intro i a b ha hb
  obtain ⟨ra, hra, hca⟩ := hS.1 a (List.getElem?_mem ha)
  obtain ⟨rb, hrb, hcb⟩ := hS.1 b (List.getElem?_mem hb)
  refine ⟨ra, rb, hra, hrb, ?_⟩
  rw [keybinding_cmp_rank sym ra rb hca hcb, Option.some.injEq, sgn3_eq_neg]
  have := hS.idx (Nat.lt_succ_self i) ha hb
  rwa [prank_some sym hra, prank_some sym hrb] at this

theorem sorted_distinct {h : Nat → Option keybinding_t} {sym : Bool} {tab : List Nat}
    (hS : SortedTab h sym tab) : distinct_keys h tab := by
  intro i j a b hij ha hb
  obtain ⟨ra, hra, hca⟩ := hS.1 a (List.getElem?_mem ha)
  obtain ⟨rb, hrb, hcb⟩ := hS.1 b (List.getElem?_mem hb)
  refine ⟨ra, rb, hra, hrb, ?_⟩
  rintro ⟨e1, e2, e3⟩
  apply hij
  apply hS.idx_unique ha hb
  rw [prank_some sym hra, prank_some sym hrb]
  simp [rank, e1, e2, e3]

theorem prank_sym_eq {h : Nat → Option keybinding_t} {p : Nat} {b : keybinding_t}
    (hb : h p = some b) (ks m : Nat) :
    prank h true p = (ks, m) ↔ b.keysym = ks ∧ b.mod = m := by
  rw [prank_some true hb]
  simp [rank]

theorem prank_code_eq {h : Nat → Option keybinding_t} {p : Nat} {b : keybinding_t}
    (hb : h p = some b) (kc m : Nat) :
    prank h false p = (kc, m) ↔ b.keycode = kc ∧ b.mod = m := by
  rw [prank_some false hb]
  simp [rank]

/-- The result of `keybinding_find` on a sorted index: the entry of `by_sym` with the
resolved key symbol and the clean mask when there is one, else the entry of `by_code` with
the key code and the clean mask when there is one, else `NULL`. -/
theorem find_spec (X : Platform) {g : State} (hS : SortedIdx g) (ev : xcb_key_press_event_t) :
    (∃ p b, p ∈ g.keys.by_sym ∧ g.heap p = some b ∧ b.keysym = X.keysyms ev.detail ∧
        b.mod = CLEANMASK X.numlockmask ev.state ∧
        keybinding_find X g.heap g.keys ev = some (some p)) ∨
    ((∀ p b, p ∈ g.keys.by_sym → g.heap p = some b →
        ¬ (b.keysym = X.keysyms ev.detail ∧ b.mod = CLEANMASK X.numlockmask ev.state)) ∧
      ((∃ p b, p ∈ g.keys.by_code ∧ g.heap p = some b ∧ b.keycode = ev.detail ∧
          b.mod = CLEANMASK X.numlockmask ev.state ∧
          keybinding_find X g.heap g.keys ev = some (some p)) ∨
       ((∀ p b, p ∈ g.keys.by_code → g.heap p = some b →
          ¬ (b.keycode = ev.detail ∧ b.mod = CLEANMASK X.numlockmask ev.state)) ∧
        keybinding_find X g.heap g.keys ev = some none))) := by
  unfold keybinding_find
  simp only
  rcases find_loop_sorted hS.1 (X.keysyms ev.detail) ev.detail
      (CLEANMASK X.numlockmask ev.state) with ⟨t, ht, hr, hrun⟩ | ⟨hno, hrun⟩
  · left
    obtain ⟨b, hb, _⟩ := hS.1.1 t ht
    simp only [if_true] at hr
    obtain ⟨e1, e2⟩ := (prank_sym_eq hb _ _).mp hr
    exact ⟨t, b, ht, hb, e1, e2, by rw [hrun]⟩
  · right
    constructor
    · intro p b hp hb hh
      apply hno p hp
      simp only [if_true]
      exact (prank_sym_eq hb _ _).mpr hh
    · rw [hrun]
      simp only
      rcases find_loop_sorted hS.2 (X.keysyms ev.detail) ev.detail
          (CLEANMASK X.numlockmask ev.state) with ⟨t, ht, hr, hrun2⟩ | ⟨hno2, hrun2⟩
      · left
        obtain ⟨b, hb, _⟩ := hS.2.1 t ht
        simp only [Bool.false_eq_true, if_false] at hr
        obtain ⟨e1, e2⟩ := (prank_code_eq hb _ _).mp hr
        exact ⟨t, b, ht, hb, e1, e2, hrun2⟩
      · right
        refine ⟨?_, hrun2⟩
        intro p b hp hb hh
        apply hno2 p hp
        simp only [Bool.false_eq_true, if_false]
        exact (prank_code_eq hb _ _).mpr hh

theorem ex_heap_owned : ∀ p b, ex_heap p = some b → owned b := by
  intro p b h
  unfold ex_heap at h
  split_ifs at h <;> cases h <;> simp [owned]

theorem ex_state1_reachable : Reachable ex_platform owned wellformed ex_state1 :=
  Reachable.add (empty_index ex_heap) ex_state1 1
    { refcount := 1, mod := 8, keysym := 97, keycode := 0, fct := 11 }
    (Reachable.init ex_heap ex_heap_owned) rfl (Or.inl ⟨by decide, rfl⟩) rfl

theorem ex_state2_reachable : Reachable ex_platform owned wellformed ex_state2 :=
  Reachable.add ex_state1 ex_state2 2
    { refcount := 1, mod := 9, keysym := 97, keycode := 0, fct := 12 }
    ex_state1_reachable rfl (Or.inl ⟨by decide, rfl⟩) rfl

theorem ex_state3_reachable : Reachable ex_platform owned wellformed ex_state3 :=
  Reachable.add ex_state2 ex_state3 5
    { refcount := 1, mod := 8, keysym := 0, keycode := 38, fct := 15 }
    ex_state2_reachable rfl (Or.inr ⟨rfl, by decide⟩) rfl

theorem andnot_eq_of_diff (W s1 s2 : Nat) (h : (s1 ^^^ s2) &&& W = s1 ^^^ s2) :
    s1 ^^^ (s1 &&& W) = s2 ^^^ (s2 &&& W) := by
  apply Nat.eq_of_testBit_eq
  intro i
  have hi := congrArg (fun x => Nat.testBit x i) h
  simp only [Nat.testBit_xor, Nat.testBit_and] at hi ⊢
  revert hi
  cases s1.testBit i <;> cases s2.testBit i <;> cases W.testBit i <;> simp

theorem andnot_or_noise (W M n : Nat) (hM : M &&& W = 0) (hn : n &&& W = n) :
    (M ||| n) ^^^ ((M ||| n) &&& W) = M := by
  apply Nat.eq_of_testBit_eq
  intro i
  have h1 := congrArg (fun x => Nat.testBit x i) hM
  have h2 := congrArg (fun x => Nat.testBit x i) hn
  simp only [Nat.testBit_xor, Nat.testBit_and, Nat.testBit_or, Nat.zero_testBit] at h1 h2 ⊢
  revert h1 h2
  cases M.testBit i <;> cases n.testBit i <;> cases W.testBit i <;> simp

theorem cleanmask_eq_of_noise_diff (N s1 s2 : Nat)
    (h : (s1 ^^^ s2) &&& (N ||| XCB_MOD_MASK_LOCK) = s1 ^^^ s2) :
    CLEANMASK N s1 = CLEANMASK N s2 :=
  andnot_eq_of_diff _ _ _ h

theorem cleanmask_or_noise (N M n : Nat) (hM : M &&& (N ||| XCB_MOD_MASK_LOCK) = 0)
    (hn : n &&& (N ||| XCB_MOD_MASK_LOCK) = n) :
    CLEANMASK N (M ||| n) = M :=
  andnot_or_noise _ _ _ hM hn

theorem cleanmask_clean (N M : Nat) (hM : M &&& (N ||| XCB_MOD_MASK_LOCK) = 0) :
    CLEANMASK N M = M := by
  unfold CLEANMASK
  rw [hM]
  simp

theorem splice_getElem_self (tab : List Nat) (p k : Nat) (hp : p ≤ tab.length) :
    (keybinding_array_splice tab p 0 [k])[p]? = some k := by
  unfold keybinding_array_splice
  have hl : (tab.take p).length = p := List.length_take_of_le hp
  rw [List.append_assoc, List.getElem?_append_right (by omega), hl]
  simp

theorem key_of_kof {h h2 : Nat → Option keybinding_t} {p : Nat} {b b2 : keybinding_t}
    (he : kof h p = kof h2 p) (hb : h p = some b) (hb2 : h2 p = some b2) :
    b2.keysym = b.keysym ∧ b2.keycode = b.keycode ∧ b2.mod = b.mod := by
  rw [kof_some hb, kof_some hb2] at he
  simp only [Option.some.injEq, Prod.mk.injEq] at he
  exact ⟨he.1.symm, he.2.1.symm, he.2.2.symm⟩

/-- The state a registration leaves: the binding is stored at some index, its record
keeps its key fields, and every other binding that the caller still owns besides the
index stays live. -/
theorem register_result {g : State} {k : Nat} {kb : keybinding_t} {sym : Bool}
    (hS : SortedTab g.heap sym (arr_of g.keys sym)) (hR : RefOK g.heap)
    (hk : g.heap k = some kb) (hcls : cls sym kb) :
    ∃ (g2 : State) (i : Nat) (r : keybinding_t),
      keybinding_register_root g k = some g2 ∧ StepOK g g2 sym ∧
      (arr_of g2.keys sym)[i]? = some k ∧ g2.heap k = some r ∧
      (∀ q bq, q ≠ k → g.heap q = some bq →
        (q ∈ arr_of g.keys sym → 2 ≤ bq.refcount) → ∃ bq2, g2.heap q = some bq2) := by
  have hne1 : ∀ q, q ≠ k → (ref_state g k kb).heap q = g.heap q := by
    intro q hq; simp [ref_state, heap_set, hq]
  rcases exists_rank_or g.heap sym (arr_of g.keys sym) (rank sym kb)
    with ⟨i, t, hi, hr⟩ | hfresh
  · obtain ⟨g1, hun, hrep, hst⟩ := step_replace hS hR hk hcls hi hr
    have hil : i < (arr_of g.keys sym).length := (List.getElem?_eq_some.mp hi).1
    have hidx : (arr_of ({ g1 with keys := arr_put g.keys sym ((arr_of g.keys sym).set i k),
                                   log := g1.log ++ [Effect.tab_set sym i k] } : State).keys
        sym)[i]? = some k := by
      simp only [arr_of_put_same]
      exact List.getElem?_set_self hil
    obtain ⟨r, hr1, _⟩ := hst.1.1 k (List.getElem?_mem hidx)
    refine ⟨_, i, r, (register_dup hk hcls hS hi hr).trans hrep, hst, hidx, hr1, ?_⟩
    intro q bq hqk hq hown
    show ∃ bq2, g1.heap q = some bq2
    by_cases hqt : q = t
    · subst hqt
      have hq1 : (ref_state g k kb).heap q = some bq := by rw [hne1 q hqk]; exact hq
      obtain ⟨g1b, hun2, _, _, hcase⟩ := unref_spec hq1
      rw [hun] at hun2
      cases hun2
      have := hown (List.getElem?_mem hi)
      rcases hcase with ⟨hz, _, _⟩ | ⟨_, hl, _⟩
      · omega
      · exact ⟨_, hl⟩
    · obtain ⟨tb, htb, _⟩ := hS.1 t (List.getElem?_mem hi)
      have ht1 : ∃ tb1, (ref_state g k kb).heap t = some tb1 := by
        by_cases htk : t = k
        · subst htk
          exact ⟨{ kb with refcount := kb.refcount + 1 }, by simp [ref_state, heap_set]⟩
        · exact ⟨tb, by rw [hne1 t htk]; exact htb⟩
      obtain ⟨tb1, htb1⟩ := ht1
      obtain ⟨g1b, hun2, _, hoth, _⟩ := unref_spec htb1
      rw [hun] at hun2
      cases hun2
      exact ⟨bq, by rw [hoth q hqt, hne1 q hqk]; exact hq⟩
  · obtain ⟨p, hp, hlo, hhi, hrun⟩ := register_fresh hk hcls hS hfresh
    have hst := step_insert hS hR hk hcls hlo hhi
    have hidx : (arr_of (register_insert k sym (ref_state g k kb) p).keys sym)[p]? = some k := by
      simp only [register_insert, window_root_grabkey, arr_of_put_same]
      exact splice_getElem_self _ p k hp
    obtain ⟨r, hr1, _⟩ := hst.1.1 k (List.getElem?_mem hidx)
    refine ⟨_, p, r, hrun, hst, hidx, hr1, ?_⟩
    intro q bq hqk hq _
    exact ⟨bq, by
      show (ref_state g k kb).heap q = some bq
      rw [hne1 q hqk]; exact hq⟩

theorem splice_take_insert (tab : List Nat) (p k : Nat) (hp : p ≤ tab.length) :
    keybinding_array_take (keybinding_array_splice tab p 0 [k]) p = tab := by
  unfold keybinding_array_take keybinding_array_splice
  have hl : (tab.take p).length = p := List.length_take_of_le hp
  simp only [Nat.add_zero, List.append_nil, List.append_assoc]
  rw [List.take_append_of_le_length (by omega), List.take_of_length_le (by omega)]
  have : List.drop (p + 1) (List.take p tab ++ ([k] ++ List.drop p tab)) = List.drop p tab := by
    rw [List.drop_append_eq_append_drop, hl, List.drop_of_length_le (by omega)]
    simp
  rw [this, List.take_append_drop]

theorem keybinding_cmp_none_left {k1 : keybinding_t} (k2 : keybinding_t)
    (h1 : k1.keysym = 0) (h2 : k1.keycode = 0) : keybinding_cmp k1 k2 = none := by
  simp [keybinding_cmp, h1, h2]

theorem keybinding_cmp_none_right (k1 : keybinding_t) {k2 : keybinding_t}
    (h1 : k2.keysym = 0) (h2 : k2.keycode = 0) : keybinding_cmp k1 k2 = none := by
  simp [keybinding_cmp, h1, h2]

theorem bsearch_abort (c : Nat → Option Int) (n : Nat) (hn : 0 < n)
    (hc : c ((n + 0) / 2) = none) : bsearch c n 0 n = none := by
  cases n with
  | zero => omega
  | succ m =>
    rw [bsearch, if_pos hn, hc]

theorem cmp_at_abort {h : Nat → Option keybinding_t} {k : Nat} {tab : List Nat}
    (hall : ∀ t kb tb, t ∈ tab → h k = some kb → h t = some tb → keybinding_cmp kb tb = none)
    (i : Nat) : cmp_at h k tab i = none := by
  cases h1 : tab[i]? with
  | none => simp [cmp_at, h1]
  | some t =>
    cases h2 : h k with
    | none => simp [cmp_at, h1, h2]
    | some kb =>
      cases h3 : h t with
      | none => simp [cmp_at, h1, h2, h3]
      | some tb =>
        simp only [cmp_at, h1, h2, h3]
        exact hall t kb tb (List.getElem?_mem h1) h2 h3

theorem register_abort {g : State} {k : Nat} {kb : keybinding_t}
    (hk : g.heap k = some kb)
    (hne : arr_of g.keys (decide (kb.keysym ≠ 0)) ≠ [])
    (hall : ∀ t tb, t ∈ arr_of g.keys (decide (kb.keysym ≠ 0)) → g.heap t = some tb →
      (kb.keysym = 0 ∧ kb.keycode = 0) ∨ (tb.keysym = 0 ∧ tb.keycode = 0)) :
    keybinding_register_root g k = none := by
  have hrun : keybinding_register_root g k =
      register_loop k (decide (kb.keysym ≠ 0)) (ref_state g k kb)
        (arr_of g.keys (decide (kb.keysym ≠ 0))).length 0
        (arr_of g.keys (decide (kb.keysym ≠ 0))).length := by
    simp only [keybinding_register_root, hk, keybinding_ref_eq hk]
    rfl
  rw [hrun, register_loop_eq]
  have hkeys : (ref_state g k kb).keys = g.keys := rfl
  rw [hkeys, bsearch_abort _ _ (List.length_pos.mpr hne)]
  apply cmp_at_abort
  intro t kb1 tb1 ht hk1 ht1
  -- the records after the retain have the key fields they had before
  obtain ⟨kb0, hkb0, e1, e2, _⟩ : ∃ b0, g.heap k = some b0 ∧ kb1.keysym = b0.keysym ∧
      kb1.keycode = b0.keycode ∧ kb1.mod = b0.mod := by
    have := kof_ref_state hk k
    cases hg : g.heap k with
    | none => rw [hg] at hk; cases hk
    | some b0 =>
      obtain ⟨x1, x2, x3⟩ := key_of_kof this.symm hg hk1
      exact ⟨b0, rfl, x1, x2, x3⟩
  rw [hk] at hkb0
  cases hkb0
  have htk := kof_ref_state hk t
  cases hg : g.heap t with
  | none =>
    unfold kof at htk
    rw [hg, ht1] at htk
    simp at htk
  | some tb0 =>
    obtain ⟨y1, y2, _⟩ := key_of_kof htk.symm hg ht1
    rcases hall t tb0 ht hg with ⟨z1, z2⟩ | ⟨z1, z2⟩
    · exact keybinding_cmp_none_left _ (by rw [e1, z1]) (by rw [e2, z2])
    · exact keybinding_cmp_none_right _ (by rw [y1, z1]) (by rw [y2, z2])

theorem unregister_abort {g : State} {k : Nat} {kb : keybinding_t}
    (hk : g.heap k = some kb)
    (hne : arr_of g.keys (decide (kb.keysym ≠ 0)) ≠ [])
    (hall : ∀ t tb, t ∈ arr_of g.keys (decide (kb.keysym ≠ 0)) → g.heap t = some tb →
      (kb.keysym = 0 ∧ kb.keycode = 0) ∨ (tb.keysym = 0 ∧ tb.keycode = 0)) :
    keybinding_unregister_root g k = none := by
  have hrun : keybinding_unregister_root g k =
      unregister_loop k (decide (kb.keysym ≠ 0)) g
        (arr_of g.keys (decide (kb.keysym ≠ 0))).length 0
        (arr_of g.keys (decide (kb.keysym ≠ 0))).length := by
    simp only [keybinding_unregister_root, hk]
  rw [hrun, unregister_loop_eq, bsearch_abort _ _ (List.length_pos.mpr hne)]
  apply cmp_at_abort
  intro t kb1 tb1 ht hk1 ht1
  rw [hk] at hk1
  cases hk1
  rcases hall t tb1 ht ht1 with ⟨z1, z2⟩ | ⟨z1, z2⟩
  · exact keybinding_cmp_none_left _ z1 z2
  · exact keybinding_cmp_none_right _ z1 z2

theorem register_empty {g : State} {k : Nat} {kb : keybinding_t}
    (hk : g.heap k = some kb)
    (hempty : arr_of g.keys (decide (kb.keysym ≠ 0)) = []) :
    keybinding_register_root g k =
      some (register_insert k (decide (kb.keysym ≠ 0)) (ref_state g k kb) 0) := by
  have hrun : keybinding_register_root g k =
      register_loop k (decide (kb.keysym ≠ 0)) (ref_state g k kb)
        (arr_of g.keys (decide (kb.keysym ≠ 0))).length 0
        (arr_of g.keys (decide (kb.keysym ≠ 0))).length := by
    simp only [keybinding_register_root, hk, keybinding_ref_eq hk]
    rfl
  rw [hrun, hempty]
  rfl

theorem unregister_empty {g : State} {k : Nat} {kb : keybinding_t}
    (hk : g.heap k = some kb)
    (hempty : arr_of g.keys (decide (kb.keysym ≠ 0)) = []) :
    keybinding_unregister_root g k = some g := by
  have hrun : keybinding_unregister_root g k =
      unregister_loop k (decide (kb.keysym ≠ 0)) g
        (arr_of g.keys (decide (kb.keysym ≠ 0))).length 0
        (arr_of g.keys (decide (kb.keysym ≠ 0))).length := by
    simp only [keybinding_unregister_root, hk]
  rw [hrun, hempty]
  rfl

theorem at_most_one_cases {b : keybinding_t} (hb : at_most_one b) :
    cls true b ∨ cls false b ∨ (b.keysym = 0 ∧ b.keycode = 0) := by
  unfold at_most_one at hb
  simp only [cls, symOnly, codeOnly, if_true, Bool.false_eq_true, if_false]
  by_cases h1 : b.keysym = 0 <;> by_cases h2 : b.keycode = 0 <;> simp_all

theorem StepOK.constructed {g g2 : State} {sym : Bool} (hst : StepOK g g2 sym)
    (hC : ∀ p b, g.heap p = some b → constructed b) :
    ∀ p b, g2.heap p = some b → constructed b := by
  intro p b2 hp
  refine ⟨hst.2.2.2.1 p b2 hp, ?_⟩
  have hk := hst.2.2.2.2 p b2 hp
  cases hg : g.heap p with
  | none =>
    unfold kof at hk
    rw [hg, hp] at hk
    simp at hk
  | some b =>
    obtain ⟨e1, e2, _⟩ := key_of_kof hk hg hp
    have := (hC p b hg).2
    unfold at_most_one at this ⊢
    rw [e1, e2]
    exact this

theorem StepOK.stuck {g g2 : State} {sym : Bool} (hst : StepOK g g2 sym) (hsym : sym = true)
    (hz : ∃ z zb, g.keys.by_code = [z] ∧ g.heap z = some zb ∧ zb.keysym = 0 ∧ zb.keycode = 0) :
    ∃ z zb, g2.keys.by_code = [z] ∧ g2.heap z = some zb ∧ zb.keysym = 0 ∧ zb.keycode = 0 := by
  subst hsym
  obtain ⟨z, zb, h1, h2, h3, h4⟩ := hz
  refine ⟨z, zb, ?_, ?_, h3, h4⟩
  · have := hst.2.1
    simp only [Bool.not_true, arr_of, Bool.false_eq_true, if_false] at this
    rw [this, h1]
  · apply hst.2.2.1 z zb h2
    simp [cls, symOnly, h3]

/-- One step on the array of class `sym`, from a state where that array is sorted,
keeps the invariant. -/
theorem DisjInv.step {g g2 : State} {sym : Bool} (hI : DisjInv g) (hst : StepOK g g2 sym)
    (hS : sym = false → SortedTab g.heap false g.keys.by_code) : DisjInv g2 := by
  cases sym with
  | true =>
    refine ⟨hst.1, ?_, hst.constructed hI.2.2⟩
    rcases hI.2.1 with hs | hz
    · exact Or.inl (hst.other hs)
    · exact Or.inr (hst.stuck rfl hz)
  | false =>
    exact ⟨hst.other hI.1, Or.inl hst.1, hst.constructed hI.2.2⟩

theorem DisjInv.refOK {g : State} (hI : DisjInv g) : RefOK g.heap :=
  fun p b hp => (hI.2.2 p b hp).1

/-- In a state whose `by_code` holds a binding without discriminant, every comparison
against it fails its assertion. -/
theorem stuck_all {g : State} {kb : keybinding_t}
    (hz : ∃ z zb, g.keys.by_code = [z] ∧ g.heap z = some zb ∧ zb.keysym = 0 ∧ zb.keycode = 0) :
    g.keys.by_code ≠ [] ∧
    ∀ t tb, t ∈ g.keys.by_code → g.heap t = some tb →
      (kb.keysym = 0 ∧ kb.keycode = 0) ∨ (tb.keysym = 0 ∧ tb.keycode = 0) := by
  obtain ⟨z, zb, h1, h2, h3, h4⟩ := hz
  refine ⟨by rw [h1]; simp, ?_⟩
  intro t tb ht htb
  rw [h1, List.mem_singleton] at ht
  subst ht
  rw [h2] at htb
  cases htb
  exact Or.inr ⟨h3, h4⟩

theorem disjInv_register {g g2 : State} {k : Nat} {kb : keybinding_t} (hI : DisjInv g)
    (hk : g.heap k = some kb) (hrun : keybinding_register_root g k = some g2) :
    DisjInv g2 := by
  rcases at_most_one_cases (hI.2.2 k kb hk).2 with hc | hc | ⟨hz1, hz2⟩
  · obtain ⟨g3, h3, hst⟩ := @register_step g k kb true hI.1 hI.refOK hk hc
    rw [hrun] at h3; cases h3
    exact hI.step hst (fun h => by cases h)
  · have hks : kb.keysym = 0 := hc.1
    rcases hI.2.1 with hs | hz
    · obtain ⟨g3, h3, hst⟩ := @register_step g k kb false hs hI.refOK hk hc
      rw [hrun] at h3; cases h3
      exact hI.step hst (fun _ => hs)
    · obtain ⟨hne, hall⟩ := @stuck_all g kb hz
      have := register_abort hk (by simpa [hks, arr_of] using hne)
        (by simpa [hks, arr_of] using hall)
      rw [hrun] at this; cases this
  · by_cases hempty : g.keys.by_code = []
    · have := register_empty hk (by simpa [hz1, arr_of] using hempty)
      rw [hrun] at this
      cases this
      have hkof := fun q => kof_ref_state (g := g) hk q
      refine ⟨?_, Or.inr ⟨k, { kb with refcount := kb.refcount + 1 }, ?_, ?_, hz1, hz2⟩, ?_⟩
      · have := @SortedTab.congr g.heap (ref_state g k kb).heap true _ hI.1 (fun q _ => hkof q)
        simpa [register_insert, window_root_grabkey, hz1, arr_put, ref_state] using this
      · simp [register_insert, window_root_grabkey, hz1, arr_put, arr_of, ref_state, hempty,
          keybinding_array_splice]
      · simp [register_insert, window_root_grabkey, ref_state, heap_set]
      · intro p b hp
        have hp2 : heap_set g.heap k (some { kb with refcount := kb.refcount + 1 }) p
            = some b := hp
        unfold heap_set at hp2
        by_cases hpk : p = k
        · rw [if_pos hpk] at hp2
          cases hp2
          have := hI.2.2 k kb hk
          refine ⟨?_, this.2⟩
          have h1 : 1 ≤ kb.refcount := this.1
          show 1 ≤ kb.refcount + 1
          omega
        · rw [if_neg hpk] at hp2
          exact hI.2.2 p b hp2
    · have hall : ∀ t tb, t ∈ g.keys.by_code → g.heap t = some tb →
          (kb.keysym = 0 ∧ kb.keycode = 0) ∨ (tb.keysym = 0 ∧ tb.keycode = 0) :=
        fun _ _ _ _ => Or.inl ⟨hz1, hz2⟩
      have := register_abort hk (by simpa [hz1, arr_of] using hempty)
        (by simpa [hz1, arr_of] using hall)
      rw [hrun] at this; cases this

theorem disjInv_unregister {g g2 : State} {k : Nat} {kb : keybinding_t} (hI : DisjInv g)
    (hk : g.heap k = some kb) (hrun : keybinding_unregister_root g k = some g2) :
    DisjInv g2 := by
  rcases at_most_one_cases (hI.2.2 k kb hk).2 with hc | hc | ⟨hz1, hz2⟩
  · obtain ⟨g3, h3, hst⟩ := @unregister_step g k kb true hI.1 hI.refOK hk hc
    rw [hrun] at h3; cases h3
    exact hI.step hst (fun h => by cases h)
  · have hks : kb.keysym = 0 := hc.1
    rcases hI.2.1 with hs | hz
    · obtain ⟨g3, h3, hst⟩ := @unregister_step g k kb false hs hI.refOK hk hc
      rw [hrun] at h3; cases h3
      exact hI.step hst (fun _ => hs)
    · obtain ⟨hne, hall⟩ := @stuck_all g kb hz
      have := unregister_abort hk (by simpa [hks, arr_of] using hne)
        (by simpa [hks, arr_of] using hall)
      rw [hrun] at this; cases this
  · by_cases hempty : g.keys.by_code = []
    · have := unregister_empty hk (by simpa [hz1, arr_of] using hempty)
      rw [hrun] at this
      cases this
      exact hI
    · have hall : ∀ t tb, t ∈ g.keys.by_code → g.heap t = some tb →
          (kb.keysym = 0 ∧ kb.keycode = 0) ∨ (tb.keysym = 0 ∧ tb.keycode = 0) :=
        fun _ _ _ _ => Or.inl ⟨hz1, hz2⟩
      have := unregister_abort hk (by simpa [hz1, arr_of] using hempty)
        (by simpa [hz1, arr_of] using hall)
      rw [hrun] at this; cases this

theorem new_discriminants (X : Platform) (mods : List String) (key : String) (fct : Nat) :
    (luaA_keybinding_new X mods key fct).keysym =
      (__luaA_keystore X { refcount := 0, mod := 0, keysym := 0, keycode := 0, fct := 0 }
        key).keysym ∧
    (luaA_keybinding_new X mods key fct).keycode =
      (__luaA_keystore X { refcount := 0, mod := 0, keysym := 0, keycode := 0, fct := 0 }
        key).keycode := by
  have hfold : ∀ (ms : List String) (k : keybinding_t),
      (ms.foldl (fun k m => { k with mod := k.mod ||| X.xutil_keymask_fromstr m }) k).keysym
        = k.keysym ∧
      (ms.foldl (fun k m => { k with mod := k.mod ||| X.xutil_keymask_fromstr m }) k).keycode
        = k.keycode := by
    intro ms
    induction ms with
    | nil => intro k; exact ⟨rfl, rfl⟩
    | cons m ms ih =>
      intro k
      simp only [List.foldl_cons]
      obtain ⟨h2, h3⟩ := ih { k with mod := k.mod ||| X.xutil_keymask_fromstr m }
      exact ⟨h2, h3⟩
  unfold luaA_keybinding_new
  simp only
  obtain ⟨h2, h3⟩ := hfold mods
    { __luaA_keystore X { refcount := 0, mod := 0, keysym := 0, keycode := 0, fct := 0 } key
      with fct := fct }
  exact ⟨h2, h3⟩

theorem new_constructed (X : Platform) (mods : List String) (key : String) (fct : Nat) :
    constructed (luaA_keybinding_new X mods key fct) := by
  obtain ⟨h1, h2⟩ := new_fields X mods key fct
  exact ⟨by unfold owned; rw [h1], h2⟩

theorem disjInv_new {X : Platform} {g : State} {q : Nat} (mods : List String) (key : String)
    (fct : Nat) (hI : DisjInv g) (hq : g.heap q = none) :
    DisjInv (new_state X g q mods key fct) := by
  have hne : ∀ p b, g.heap p = some b → (new_state X g q mods key fct).heap p = some b := by
    intro p b hp
    have : p ≠ q := by intro e; subst e; rw [hq] at hp; cases hp
    simp [new_state, heap_set, this, hp]
  have hk : ∀ (sym : Bool) (tab : List Nat), SortedTab g.heap sym tab →
      SortedTab (new_state X g q mods key fct).heap sym tab := by
    intro sym tab hS
    refine hS.congr ?_
    intro p hp
    obtain ⟨b, hb, _⟩ := hS.1 p hp
    rw [kof_some hb, kof_some (hne p b hb)]
  refine ⟨hk true _ hI.1, ?_, ?_⟩
  · rcases hI.2.1 with hs | ⟨z, zb, h1, h2, h3, h4⟩
    · exact Or.inl (hk false _ hs)
    · exact Or.inr ⟨z, zb, h1, hne z zb h2, h3, h4⟩
  · intro p b hp
    by_cases hpq : p = q
    · subst hpq
      have : b = luaA_keybinding_new X mods key fct := by
        simp [new_state, heap_set] at hp; exact hp.symm
      rw [this]
      exact new_constructed X mods key fct
    · have : g.heap p = some b := by simpa [new_state, heap_set, hpq] using hp
      exact hI.2.2 p b this

theorem reachable_disjInv {X : Platform} {g : State}
    (hg : Reachable X constructed any_binding g) : DisjInv g := by
  induction hg with
  | init h0 hQ =>
    exact ⟨⟨fun _ hp => absurd hp (List.not_mem_nil _), List.Pairwise.nil⟩,
      Or.inl ⟨fun _ hp => absurd hp (List.not_mem_nil _), List.Pairwise.nil⟩, hQ⟩
  | new g q mods key fct _ hq ih => exact disjInv_new mods key fct ih hq
  | add g g2 k kb _ hk _ hrun ih => exact disjInv_register ih hk hrun
  | remove g g2 k kb _ hk _ hrun ih => exact disjInv_unregister ih hk hrun

theorem ex_heap_constructed : ∀ p b, ex_heap p = some b → constructed b := by
  intro p b h
  unfold ex_heap at h
  split_ifs at h <;> cases h <;> simp [constructed, owned, at_most_one]

theorem two_pow_and_noise (W i : Nat) (hi : W.testBit i = false) : 2 ^ i &&& W = 0 := by
  apply Nat.eq_of_testBit_eq
  intro k
  rw [Nat.testBit_and, Nat.testBit_two_pow, Nat.zero_testBit]
  by_cases hik : i = k
  · subst hik; simp [hi]
  · simp [hik]

theorem or_and_noise (W a b : Nat) (ha : a &&& W = 0) (hb : b &&& W = 0) :
    (a ||| b) &&& W = 0 := by
  apply Nat.eq_of_testBit_eq
  intro k
  have h1 := congrArg (fun x => Nat.testBit x k) ha
  have h2 := congrArg (fun x => Nat.testBit x k) hb
  simp only [Nat.testBit_and, Nat.testBit_or, Nat.zero_testBit] at h1 h2 ⊢
  revert h1 h2
  cases a.testBit k <;> cases b.testBit k <;> cases W.testBit k <;> simp

theorem two_pow_lt_or (i j : Nat) (hij : i ≠ j) : 2 ^ i < 2 ^ i ||| 2 ^ j := by
  have hle : 2 ^ i ≤ 2 ^ i ||| 2 ^ j := by
    apply Nat.le_of_testBit
    intro k hk
    rw [Nat.testBit_or, hk]
    rfl
  have hne : 2 ^ i ≠ 2 ^ i ||| 2 ^ j := by
    intro he
    have := congrArg (fun x => Nat.testBit x j) he
    simp only [Nat.testBit_or, Nat.testBit_two_pow_self, Nat.testBit_two_pow_of_ne hij] at this
    simp at this
  omega

theorem two_pow_ne_or (i j : Nat) (hij : i ≠ j) : 2 ^ j ≠ 2 ^ i ||| 2 ^ j := by
  intro he
  have := congrArg (fun x => Nat.testBit x i) he
  simp only [Nat.testBit_or, Nat.testBit_two_pow_self,
    Nat.testBit_two_pow_of_ne (Ne.symm hij)] at this
  simp at this

theorem two_pow_ne (i j : Nat) (hij : i ≠ j) : (2 : Nat) ^ j ≠ 2 ^ i := by
  intro he
  exact hij (Nat.pow_right_injective (le_refl 2) he).symm

theorem sortedTab_nil (h : Nat → Option keybinding_t) (sym : Bool) : SortedTab h sym [] :=
  ⟨fun _ hp => absurd hp (List.not_mem_nil _), List.Pairwise.nil⟩

theorem sortedTab_singleton {h : Nat → Option keybinding_t} {sym : Bool} {p : Nat}
    {b : keybinding_t} (hp : h p = some b) (hc : cls sym b) : SortedTab h sym [p] := by
  refine ⟨?_, List.pairwise_singleton _ _⟩
  intro q hq
  rw [List.mem_singleton] at hq
  subst hq
  exact ⟨b, hp, hc⟩

theorem sortedTab_pair {h : Nat → Option keybinding_t} {sym : Bool} {p q : Nat}
    {b c : keybinding_t} (hp : h p = some b) (hq : h q = some c) (hb : cls sym b)
    (hc : cls sym c) (hlt : plt (rank sym c) (rank sym b)) : SortedTab h sym [p, q] := by
  constructor
  · intro x hx
    simp only [List.mem_cons, List.mem_singleton, List.not_mem_nil, or_false] at hx
    rcases hx with hx | hx
    · subst hx; exact ⟨b, hp, hb⟩
    · subst hx; exact ⟨c, hq, hc⟩
  · simp only [List.pairwise_cons, List.mem_singleton, List.not_mem_nil, forall_eq,
      false_imp_iff, implies_true, List.Pairwise.nil, and_true]
    rw [prank_some sym hp, prank_some sym hq]
    exact hlt

/-! ## The claims -/

/-- C1: on every index reachable from the empty index by register and unregister calls
on bindings with exactly one of keysym and keycode non-zero, `keybinding_find` returns,
it returns a binding exactly when some entry of `by_sym` has the key symbol resolved from
the event code and the clean mask, or some entry of `by_code` has the event code and the
clean mask, and the binding it returns is such an entry. With only a raw-code binding
of key code 38 and mask 0 registered, an event of code 38 with no modifier returns it. -/
theorem C1_find_matches (X : Platform) :
    (∀ (g : State), Reachable X owned wellformed g → ∀ (ev : xcb_key_press_event_t),
      ∃ res, keybinding_find X g.heap g.keys ev = some res ∧
        (res ≠ none ↔
          ((∃ p b, p ∈ g.keys.by_sym ∧ g.heap p = some b ∧
              b.keysym = X.keysyms ev.detail ∧ b.mod = CLEANMASK X.numlockmask ev.state) ∨
           (∃ p b, p ∈ g.keys.by_code ∧ g.heap p = some b ∧
              b.keycode = ev.detail ∧ b.mod = CLEANMASK X.numlockmask ev.state))) ∧
        (∀ p, res = some p → ∃ b, g.heap p = some b ∧
          ((p ∈ g.keys.by_sym ∧ b.keysym = X.keysyms ev.detail ∧
              b.mod = CLEANMASK X.numlockmask ev.state) ∨
           (p ∈ g.keys.by_code ∧ b.keycode = ev.detail ∧
              b.mod = CLEANMASK X.numlockmask ev.state)))) ∧
    (∀ (h0 : Nat → Option keybinding_t) (p : Nat) (b : keybinding_t),
      h0 p = some b → b.keysym = 0 → b.keycode = 38 → b.mod = 0 →
      ∃ g1, keybinding_register_root (empty_index h0) p = some g1 ∧
        g1.keys.by_code = [p] ∧ g1.keys.by_sym = [] ∧
        keybinding_find X g1.heap g1.keys { detail := 38, state := 0 } = some (some p)) := by
  constructor
  · intro g hg ev
    have hI := reachable_inv hg
    rcases find_spec X hI.1 ev with ⟨p, b, hp, hb, e1, e2, hrun⟩ |
      ⟨hno, ⟨p, b, hp, hb, e1, e2, hrun⟩ | ⟨hno2, hrun⟩⟩
    · refine ⟨some p, hrun, ?_, ?_⟩
      · constructor
        · intro _; exact Or.inl ⟨p, b, hp, hb, e1, e2⟩
        · intro _; simp
      · intro q hq
        cases hq
        exact ⟨b, hb, Or.inl ⟨hp, e1, e2⟩⟩
    · refine ⟨some p, hrun, ?_, ?_⟩
      · constructor
        · intro _; exact Or.inr ⟨p, b, hp, hb, e1, e2⟩
        · intro _; simp
      · intro q hq
        cases hq
        exact ⟨b, hb, Or.inr ⟨hp, e1, e2⟩⟩
    · refine ⟨none, hrun, ?_, ?_⟩
      · constructor
        · intro h; exact absurd rfl h
        · rintro (⟨p, b, hp, hb, e1, e2⟩ | ⟨p, b, hp, hb, e1, e2⟩)
          · exact absurd ⟨e1, e2⟩ (hno p b hp hb)
          · exact absurd ⟨e1, e2⟩ (hno2 p b hp hb)
      · intro q hq; cases hq
  · intro h0 p b hp hks hkc hm
    have hcmp : keybinding_ev_cmp (X.keysyms 38) 38 0
        { b with refcount := b.refcount + 1 } = 0 := by
      simp [keybinding_ev_cmp, hks, hkc, hm]
    have hcls : cls false b := by
      simp [cls, codeOnly, hks, hkc]
    obtain ⟨r, hr, _, _, hrun⟩ := register_fresh (g := empty_index h0) hp hcls
      ⟨fun _ hq => absurd hq (List.not_mem_nil _), List.Pairwise.nil⟩
      (fun _ hq => absurd hq (List.not_mem_nil _))
    have hr0 : r = 0 := by simpa [empty_index, arr_of] using hr
    subst hr0
    refine ⟨_, hrun, rfl, rfl, ?_⟩
    simp [keybinding_find, find_loop, register_insert, window_root_grabkey, arr_put, arr_of,
      keybinding_array_splice, ref_state, empty_index, heap_set, CLEANMASK, hcmp]

/-- C1 at a concrete state: on the index that holds the symbolic bindings 2 and 1 and the
raw-code binding 5, the event of code 38 and state 8 gets a result, and it is a binding
exactly when an entry matches. -/
theorem C1_find_matches_witness :
    ∃ res, keybinding_find ex_platform ex_state3.heap ex_state3.keys
        { detail := 38, state := 8 } = some res ∧
      (res ≠ none ↔
        ((∃ p b, p ∈ ex_state3.keys.by_sym ∧ ex_state3.heap p = some b ∧
            b.keysym = ex_platform.keysyms 38 ∧
            b.mod = CLEANMASK ex_platform.numlockmask 8) ∨
         (∃ p b, p ∈ ex_state3.keys.by_code ∧ ex_state3.heap p = some b ∧
            b.keycode = 38 ∧ b.mod = CLEANMASK ex_platform.numlockmask 8))) ∧
      (∀ p, res = some p → ∃ b, ex_state3.heap p = some b ∧
        ((p ∈ ex_state3.keys.by_sym ∧ b.keysym = ex_platform.keysyms 38 ∧
            b.mod = CLEANMASK ex_platform.numlockmask 8) ∨
         (p ∈ ex_state3.keys.by_code ∧ b.keycode = 38 ∧
            b.mod = CLEANMASK ex_platform.numlockmask 8))) :=
  (C1_find_matches ex_platform).1 ex_state3 ex_state3_reachable { detail := 38, state := 8 }

/-- C2: from the empty index, after every register or unregister call on a binding with
exactly one of keysym and keycode non-zero, both arrays are sorted: adjacent entries
compare as `-1` under `keybinding_cmp` throughout, so no two entries of an array share
key identity and modifier mask; and every such call returns. -/
theorem C2_sorted_after_every_call (X : Platform) (g : State)
    (hg : Reachable X owned wellformed g) :
    (adjacent_sorted g.heap g.keys.by_sym ∧ adjacent_sorted g.heap g.keys.by_code ∧
      distinct_keys g.heap g.keys.by_sym ∧ distinct_keys g.heap g.keys.by_code) ∧
    (∀ k kb, g.heap k = some kb → wellformed kb →
      (∃ g2, keybinding_register_root g k = some g2 ∧
        adjacent_sorted g2.heap g2.keys.by_sym ∧ adjacent_sorted g2.heap g2.keys.by_code ∧
        distinct_keys g2.heap g2.keys.by_sym ∧ distinct_keys g2.heap g2.keys.by_code) ∧
      (∃ g2, keybinding_unregister_root g k = some g2 ∧
        adjacent_sorted g2.heap g2.keys.by_sym ∧ adjacent_sorted g2.heap g2.keys.by_code ∧
        distinct_keys g2.heap g2.keys.by_sym ∧ distinct_keys g2.heap g2.keys.by_code)) := by
  have key : ∀ g2 : State, Inv g2 →
      adjacent_sorted g2.heap g2.keys.by_sym ∧ adjacent_sorted g2.heap g2.keys.by_code ∧
      distinct_keys g2.heap g2.keys.by_sym ∧ distinct_keys g2.heap g2.keys.by_code :=
    fun g2 hI => ⟨sorted_adjacent hI.1.1, sorted_adjacent hI.1.2,
      sorted_distinct hI.1.1, sorted_distinct hI.1.2⟩
  have hI := reachable_inv hg
  refine ⟨key g hI, ?_⟩
  intro k kb hk hw
  obtain ⟨g2, h2, hI2⟩ := register_inv hI hk hw
  obtain ⟨g3, h3, hI3⟩ := unregister_inv hI hk hw
  exact ⟨⟨g2, h2, key g2 hI2⟩, ⟨g3, h3, key g3 hI3⟩⟩

/-- C2 at a concrete state: the index that holds the symbolic bindings 2 and 1, in this
order, and the raw-code binding 5. -/
theorem C2_sorted_after_every_call_witness :
    ex_state3.keys.by_sym = [2, 1] ∧
    adjacent_sorted ex_state3.heap ex_state3.keys.by_sym ∧
    adjacent_sorted ex_state3.heap ex_state3.keys.by_code ∧
    distinct_keys ex_state3.heap ex_state3.keys.by_sym ∧
    distinct_keys ex_state3.heap ex_state3.keys.by_code :=
  ⟨rfl, (C2_sorted_after_every_call ex_platform ex_state3 ex_state3_reachable).1⟩

/-- C3: on a sorted index, for two distinct live bindings `B1` and `B2` with the same key
symbol, key code and modifier mask (`B2` still owned by the caller if it is stored),
register of `B1` followed by register of `B2` leaves exactly one entry with that key and
mask in the target array, that entry is `B2`, the array is as long after the second
register as after the first, the second register logs a retain of `B2`, one release of
`B1` and the overwrite of the slot, no grab, and the reference count of `B1` is one less
than after the first register (the record is freed when that is zero). -/
theorem C3_register_twice_replaces (g : State) (B1 B2 : Nat) (b1 b2 : keybinding_t)
    (sym : Bool) (hI : Inv g) (hne : B1 ≠ B2)
    (h1 : g.heap B1 = some b1) (h2 : g.heap B2 = some b2)
    (hc1 : cls sym b1) (hc2 : cls sym b2)
    (hks : b1.keysym = b2.keysym) (hkc : b1.keycode = b2.keycode) (hm : b1.mod = b2.mod)
    (hown : B2 ∈ arr_of g.keys sym → 2 ≤ b2.refcount) :
    ∃ (g1 g2 : State) (i : Nat) (r1 : keybinding_t),
      keybinding_register_root g B1 = some g1 ∧
      keybinding_register_root g1 B2 = some g2 ∧
      g1.heap B1 = some r1 ∧
      (arr_of g2.keys sym)[i]? = some B2 ∧
      (∀ (j q : Nat) (rq : keybinding_t), (arr_of g2.keys sym)[j]? = some q →
        g2.heap q = some rq → rq.keysym = b2.keysym → rq.keycode = b2.keycode →
        rq.mod = b2.mod → j = i) ∧
      (arr_of g2.keys sym).length = (arr_of g1.keys sym).length ∧
      arr_of g2.keys (!sym) = arr_of g1.keys (!sym) ∧
      g2.log = g1.log ++ ([Effect.ref B2, Effect.unref B1] ++
        (if r1.refcount - 1 = 0 then [Effect.delete B1] else []) ++
        [Effect.tab_set sym i B2]) ∧
      (∀ p, Effect.grabkey p ∉ List.drop g1.log.length g2.log) ∧
      g2.heap B1 =
        (if r1.refcount - 1 = 0 then none
         else some { r1 with refcount := r1.refcount - 1 }) := by
  -- the first register
  obtain ⟨g1, i, r1, hrun1, hst1, hidx1, hr1, hlive⟩ :=
    register_result (hI.1.arr sym) hI.2 h1 hc1
  have hI1 : Inv g1 := hst1.inv hI
  obtain ⟨b2a, hb2a⟩ := hlive B2 b2 (Ne.symm hne) h2 hown
  obtain ⟨e1, e2, e3⟩ := key_of_kof (hst1.2.2.2.2 B2 b2a hb2a) h2 hb2a
  obtain ⟨f1, f2, f3⟩ := key_of_kof (hst1.2.2.2.2 B1 r1 hr1) h1 hr1
  have hc2a : cls sym b2a := cls_congr e1 e2 hc2
  have hrank : prank g1.heap sym B1 = rank sym b2a := by
    rw [prank_some sym hr1]
    simp [rank, e1, e2, e3, f1, f2, f3, hks, hkc, hm]
  -- the second register finds `B1` at `i`
  obtain ⟨g1u, hun, hrep, hst2⟩ := step_replace (hI1.1.arr sym) hI1.2 hb2a hc2a hidx1 hrank
  have hrun2 := (register_dup hb2a hc2a (hI1.1.arr sym) hidx1 hrank).trans hrep
  have hr1' : (ref_state g1 B2 b2a).heap B1 = some r1 := by
    simp [ref_state, heap_set, hne, hr1]
  obtain ⟨g1v, hun2, _, hoth, hcase⟩ := unref_spec hr1'
  rw [hun] at hun2
  cases hun2
  have hil : i < (arr_of g1.keys sym).length := (List.getElem?_eq_some.mp hidx1).1
  have hidx2 : (arr_of (arr_put g1.keys sym ((arr_of g1.keys sym).set i B2)) sym)[i]?
      = some B2 := by
    rw [arr_of_put_same]
    exact List.getElem?_set_self hil
  have hlog : g1u.log = g1.log ++ ([Effect.ref B2, Effect.unref B1] ++
      (if r1.refcount - 1 = 0 then [Effect.delete B1] else [])) := by
    rcases hcase with ⟨hz, _, hl⟩ | ⟨hz, _, hl⟩
    · rw [hl, if_pos hz]; simp [ref_state]
    · rw [hl, if_neg hz]; simp [ref_state]
  refine ⟨g1, _, i, r1, hrun1, hrun2, hr1, hidx2, ?_, ?_, ?_, ?_, ?_, ?_⟩
  · intro j q rq hj hq k1 k2 k3
    have hS2 := hst2.1
    obtain ⟨r2, hr2, _⟩ := hS2.1 B2 (List.getElem?_mem hidx2)
    obtain ⟨u1, u2, u3⟩ := key_of_kof (hst2.2.2.2.2 B2 r2 hr2) hb2a hr2
    apply hS2.idx_unique hj hidx2
    rw [prank_some sym hq, prank_some sym hr2]
    simp [rank, k1, k2, k3, u1, u2, u3, e1, e2, e3]
  · simp [arr_of_put_same]
  · simp [arr_of_put_other]
  · show g1u.log ++ [Effect.tab_set sym i B2] = _
    rw [hlog]
    simp
  · intro p hp
    have : List.drop g1.log.length (g1u.log ++ [Effect.tab_set sym i B2]) =
        [Effect.ref B2, Effect.unref B1] ++
        (if r1.refcount - 1 = 0 then [Effect.delete B1] else []) ++
        [Effect.tab_set sym i B2] := by
      rw [hlog]
      simp
    have hp2 : Effect.grabkey p ∈ List.drop g1.log.length
        (g1u.log ++ [Effect.tab_set sym i B2]) := hp
    rw [this] at hp2
    split_ifs at hp2 <;> simp at hp2
  · show g1u.heap B1 = _
    rcases hcase with ⟨hz, hl, _⟩ | ⟨hz, hl, _⟩
    · rw [hl, if_pos hz]
    · rw [hl, if_neg hz]

/-- C3 at a concrete input: bindings 1 and 3 of `ex_heap` share key symbol 97 and mask 8;
registered one after the other on the empty index they leave one entry. -/
theorem C3_register_twice_replaces_witness :
    ∃ (g1 g2 : State) (i : Nat),
      keybinding_register_root (empty_index ex_heap) 1 = some g1 ∧
      keybinding_register_root g1 3 = some g2 ∧
      (arr_of g2.keys true)[i]? = some 3 ∧
      (arr_of g2.keys true).length = (arr_of g1.keys true).length := by
  obtain ⟨g1, g2, i, r1, ha, hb, _, hc, _, hlen, _⟩ :=
    C3_register_twice_replaces (empty_index ex_heap) 1 3
      { refcount := 1, mod := 8, keysym := 97, keycode := 0, fct := 11 }
      { refcount := 1, mod := 8, keysym := 97, keycode := 0, fct := 13 } true
      (inv_empty ex_heap ex_heap_owned) (by decide) rfl rfl
      ⟨by decide, rfl⟩ ⟨by decide, rfl⟩ rfl rfl rfl
      (fun h => absurd h (List.not_mem_nil _))
  exact ⟨g1, g2, i, ha, hb, hc, hlen⟩

/-- C4: on a reachable index that holds a symbolic binding `S` and a raw-code binding `R`
with the same mask, an event whose code is the key code of `R`, whose code resolves to the
key symbol of `S` and whose clean mask is that mask is answered with `S`, which is not
`R`, although `R` compares equal to the event as well. -/
theorem C4_symbolic_match_first (X : Platform) (g : State)
    (hg : Reachable X owned wellformed g) (S R : Nat) (s r : keybinding_t)
    (ev : xcb_key_press_event_t)
    (hS : S ∈ g.keys.by_sym) (hs : g.heap S = some s)
    (hR : R ∈ g.keys.by_code) (hr : g.heap R = some r)
    (hA : s.keysym = X.keysyms ev.detail) (hM : s.mod = CLEANMASK X.numlockmask ev.state)
    (hc : r.keycode = ev.detail) (hrM : r.mod = CLEANMASK X.numlockmask ev.state) :
    keybinding_find X g.heap g.keys ev = some (some S) ∧ S ≠ R ∧
      keybinding_ev_cmp (X.keysyms ev.detail) ev.detail (CLEANMASK X.numlockmask ev.state) r
        = 0 := by
  have hI := reachable_inv hg
  refine ⟨?_, ?_, ?_⟩
  · rcases find_spec X hI.1 ev with ⟨p, b, hp, hb, e1, e2, hrun⟩ | ⟨hno, _⟩
    · have : p = S := by
        apply hI.1.1.mem_unique hp hS
        rw [prank_some true hb, prank_some true hs]
        simp [rank, e1, e2, hA, hM]
      rw [← this]; exact hrun
    · exact absurd ⟨hA, hM⟩ (hno S s hS hs)
  · intro e
    subst e
    obtain ⟨b1, hb1, hc1⟩ := hI.1.1.1 S hS
    obtain ⟨b2, hb2, hc2⟩ := hI.1.2.1 S hR
    rw [hb1] at hb2
    cases hb2
    exact @cls_disjoint true _ hc1 hc2
  · obtain ⟨b2, hb2, hc2⟩ := hI.1.2.1 R hR
    rw [hr] at hb2
    cases hb2
    rw [keybinding_ev_cmp_rank false _ _ _ r hc2, sgn3_eq_zero]
    simp [rank, hc, hrM]

/-- C4 at a concrete state: bindings 1 (symbol 97, mask 8) and 5 (code 38, mask 8) are
both stored, the key map sends 38 to 97, and the event of code 38 and state 8 gets 1. -/
theorem C4_symbolic_match_first_witness :
    keybinding_find ex_platform ex_state3.heap ex_state3.keys { detail := 38, state := 8 }
      = some (some 1) ∧ (1 : Nat) ≠ 5 ∧
    keybinding_ev_cmp (ex_platform.keysyms 38) 38 (CLEANMASK ex_platform.numlockmask 8)
      { refcount := 2, mod := 8, keysym := 0, keycode := 38, fct := 15 } = 0 :=
  C4_symbolic_match_first ex_platform ex_state3 ex_state3_reachable 1 5
    { refcount := 2, mod := 8, keysym := 97, keycode := 0, fct := 11 }
    { refcount := 2, mod := 8, keysym := 0, keycode := 38, fct := 15 }
    { detail := 38, state := 8 } (by decide) rfl (by decide) rfl rfl rfl rfl rfl

/-- C5: the scenario on the empty index. With `a` a non-zero key symbol, `2 ^ i` (Mod1)
and `2 ^ j` (Shift) two distinct modifier bits that are not noise bits, and three distinct
live bindings `p1` (key `a`, mask Mod1, action `H1`), `p2` (key `a`, mask Mod1 or Shift,
action `H2`), `p3` (key `a`, mask Mod1, action `H3`): the three registrations return,
`by_sym` then has length 2, and for an event whose code resolves to `a` the lookup returns
`p3`, whose action is `H3`, for the state Mod1, `p2`, whose action is `H2`, for the state
Mod1 or Shift, and `NULL` for the state Shift. -/
theorem C5_scenario (X : Platform) (h0 : Nat → Option keybinding_t)
    (p1 p2 p3 a i j c H1 H2 H3 : Nat) (m1 m2 m3 : Int)
    (ha : a ≠ 0) (hij : i ≠ j)
    (hi : (X.numlockmask ||| XCB_MOD_MASK_LOCK).testBit i = false)
    (hj : (X.numlockmask ||| XCB_MOD_MASK_LOCK).testBit j = false)
    (hp12 : p1 ≠ p2) (hp13 : p1 ≠ p3) (hp23 : p2 ≠ p3)
    (h1 : h0 p1 = some { refcount := m1, mod := 2 ^ i, keysym := a, keycode := 0, fct := H1 })
    (h2 : h0 p2 = some
      { refcount := m2, mod := 2 ^ i ||| 2 ^ j, keysym := a, keycode := 0, fct := H2 })
    (h3 : h0 p3 = some { refcount := m3, mod := 2 ^ i, keysym := a, keycode := 0, fct := H3 })
    (hc : X.keysyms c = a) :
    ∃ g1 g2 g3,
      keybinding_register_root (empty_index h0) p1 = some g1 ∧
      keybinding_register_root g1 p2 = some g2 ∧
      keybinding_register_root g2 p3 = some g3 ∧
      g3.keys.by_sym.length = 2 ∧
      (∃ b3, g3.heap p3 = some b3 ∧ b3.fct = H3) ∧
      (∃ b2, g3.heap p2 = some b2 ∧ b2.fct = H2) ∧
      keybinding_find X g3.heap g3.keys { detail := c, state := 2 ^ i } = some (some p3) ∧
      keybinding_find X g3.heap g3.keys { detail := c, state := 2 ^ i ||| 2 ^ j }
        = some (some p2) ∧
      keybinding_find X g3.heap g3.keys { detail := c, state := 2 ^ j } = some none := by
  -- facts about the masks
  have hlt : 2 ^ i < 2 ^ i ||| 2 ^ j := two_pow_lt_or i j hij
  have hcm1 : CLEANMASK X.numlockmask (2 ^ i) = 2 ^ i :=
    cleanmask_clean _ _ (two_pow_and_noise _ i hi)
  have hcm2 : CLEANMASK X.numlockmask (2 ^ i ||| 2 ^ j) = 2 ^ i ||| 2 ^ j :=
    cleanmask_clean _ _ (or_and_noise _ _ _ (two_pow_and_noise _ i hi)
      (two_pow_and_noise _ j hj))
  have hcm3 : CLEANMASK X.numlockmask (2 ^ j) = 2 ^ j :=
    cleanmask_clean _ _ (two_pow_and_noise _ j hj)
  have hcls : ∀ (m : Int) (md H : Nat),
      cls true { refcount := m, mod := md, keysym := a, keycode := 0, fct := H } :=
    fun m md H => ⟨ha, rfl⟩
  have hd : decide (a ≠ 0) = true := by simp [ha]
  -- first registration: insertion into the empty array
  have hrun1 := register_empty (g := empty_index h0) h1
    (by cases (decide (a ≠ 0)) <;> rfl)
  simp only [hd] at hrun1
  generalize hg1 : register_insert p1 true (ref_state (empty_index h0) p1
    { refcount := m1, mod := 2 ^ i, keysym := a, keycode := 0, fct := H1 }) 0 = g1 at hrun1
  have hk1 : g1.keys = { by_code := [], by_sym := [p1] } := by rw [← hg1]; rfl
  have hg1p1 : g1.heap p1
      = some { refcount := m1 + 1, mod := 2 ^ i, keysym := a, keycode := 0, fct := H1 } := by
    rw [← hg1]; simp [register_insert, window_root_grabkey, ref_state, heap_set]
  have hg1p2 : g1.heap p2 = some
      { refcount := m2, mod := 2 ^ i ||| 2 ^ j, keysym := a, keycode := 0, fct := H2 } := by
    rw [← hg1]
    simp [register_insert, window_root_grabkey, ref_state, heap_set, empty_index,
      Ne.symm hp12, h2]
  have hg1p3 : g1.heap p3
      = some { refcount := m3, mod := 2 ^ i, keysym := a, keycode := 0, fct := H3 } := by
    rw [← hg1]
    simp [register_insert, window_root_grabkey, ref_state, heap_set, empty_index,
      Ne.symm hp13, h3]
  -- second registration: insertion in front of `p1`
  have hS1 : SortedTab g1.heap true (arr_of g1.keys true) := by
    rw [hk1]; exact sortedTab_singleton hg1p1 (hcls _ _ _)
  obtain ⟨p, hp, hlo, _, hrun2⟩ := register_fresh hg1p2 (hcls _ _ _) hS1 (by
    intro q hq
    rw [hk1] at hq
    simp only [arr_of, if_true, List.mem_singleton] at hq
    subst hq
    rw [prank_some true hg1p1]
    simp only [rank, if_true, ne_eq, Prod.mk.injEq, true_and]
    omega)
  have hp0 : p = 0 := by
    by_contra hne
    have := hlo 0 p1 (by omega) (by rw [hk1]; rfl)
    rw [prank_some true hg1p1] at this
    simp only [plt, rank, if_true] at this
    omega
  subst hp0
  generalize hg2 : register_insert p2 true (ref_state g1 p2
    { refcount := m2, mod := 2 ^ i ||| 2 ^ j, keysym := a, keycode := 0, fct := H2 }) 0 = g2
    at hrun2
  have hk2 : g2.keys = { by_code := [], by_sym := [p2, p1] } := by
    rw [← hg2]
    simp [register_insert, window_root_grabkey, ref_state, hk1, arr_put, arr_of,
      keybinding_array_splice]
  have hg2p1 : g2.heap p1
      = some { refcount := m1 + 1, mod := 2 ^ i, keysym := a, keycode := 0, fct := H1 } := by
    rw [← hg2]
    simp [register_insert, window_root_grabkey, ref_state, heap_set, hp12, hg1p1]
  have hg2p2 : g2.heap p2 = some
      { refcount := m2 + 1, mod := 2 ^ i ||| 2 ^ j, keysym := a, keycode := 0, fct := H2 } := by
    rw [← hg2]; simp [register_insert, window_root_grabkey, ref_state, heap_set]
  have hg2p3 : g2.heap p3
      = some { refcount := m3, mod := 2 ^ i, keysym := a, keycode := 0, fct := H3 } := by
    rw [← hg2]
    simp [register_insert, window_root_grabkey, ref_state, heap_set, Ne.symm hp23, hg1p3]
  -- third registration: `p1` at index 1 is replaced
  have hS2 : SortedTab g2.heap true (arr_of g2.keys true) := by
    rw [hk2]
    exact sortedTab_pair hg2p2 hg2p1 (hcls _ _ _) (hcls _ _ _) (Or.inr ⟨rfl, hlt⟩)
  have hrun3 := register_dup hg2p3 (hcls _ _ _) hS2 (i := 1) (t := p1)
    (by rw [hk2]; rfl) (by rw [prank_some true hg2p1]; rfl)
  have hu1 : (ref_state g2 p3
      { refcount := m3, mod := 2 ^ i, keysym := a, keycode := 0, fct := H3 }).heap p1
      = some { refcount := m1 + 1, mod := 2 ^ i, keysym := a, keycode := 0, fct := H1 } := by
    simp [ref_state, heap_set, hp13, hg2p1]
  obtain ⟨g2u, hun, hkeys, hoth, _⟩ := unref_spec hu1
  have hku : g2u.keys = { by_code := [], by_sym := [p2, p1] } := by
    rw [hkeys]; exact hk2
  have hrep : register_replace p3 true (ref_state g2 p3
      { refcount := m3, mod := 2 ^ i, keysym := a, keycode := 0, fct := H3 }) 1 p1
      = some { heap := g2u.heap, keys := { by_code := [], by_sym := [p2, p3] },
               log := g2u.log ++ [Effect.tab_set true 1 p3] } := by
    simp [register_replace, hun, hku, arr_put, arr_of]
  rw [hrep] at hrun3
  have hg3p3 : g2u.heap p3
      = some { refcount := m3 + 1, mod := 2 ^ i, keysym := a, keycode := 0, fct := H3 } := by
    rw [hoth p3 (Ne.symm hp13)]
    simp [ref_state, heap_set]
  have hg3p2 : g2u.heap p2 = some
      { refcount := m2 + 1, mod := 2 ^ i ||| 2 ^ j, keysym := a, keycode := 0, fct := H2 } := by
    rw [hoth p2 (Ne.symm hp12)]
    simp [ref_state, heap_set, hp23, hg2p2]
  have hS3 : SortedIdx { heap := g2u.heap, keys := { by_code := [], by_sym := [p2, p3] },
                         log := g2u.log ++ [Effect.tab_set true 1 p3] } :=
    ⟨sortedTab_pair hg3p2 hg3p3 (hcls _ _ _) (hcls _ _ _) (Or.inr ⟨rfl, hlt⟩),
      sortedTab_nil _ _⟩
  -- what an entry of `by_sym` is
  have hmem : ∀ p b, p ∈ [p2, p3] → g2u.heap p = some b →
      (p = p2 ∧ b.keysym = a ∧ b.mod = 2 ^ i ||| 2 ^ j) ∨
      (p = p3 ∧ b.keysym = a ∧ b.mod = 2 ^ i) := by
    intro p b hp hb
    simp only [List.mem_cons, List.mem_singleton, List.not_mem_nil, or_false] at hp
    rcases hp with hp | hp
    · subst hp; rw [hg3p2] at hb; cases hb; exact Or.inl ⟨rfl, rfl, rfl⟩
    · subst hp; rw [hg3p3] at hb; cases hb; exact Or.inr ⟨rfl, rfl, rfl⟩
  refine ⟨g1, g2, _, hrun1, hrun2, hrun3, rfl, ⟨_, hg3p3, rfl⟩, ⟨_, hg3p2, rfl⟩, ?_, ?_, ?_⟩
  · rcases find_spec X hS3 { detail := c, state := 2 ^ i }
      with ⟨p, b, hp, hb, _, e2, hrun⟩ | ⟨hno, _⟩
    · rcases hmem p b hp hb with ⟨_, _, e3⟩ | ⟨e0, _, _⟩
      · simp only [hcm1] at e2
        omega
      · rw [e0] at hrun; exact hrun
    · exact absurd ⟨hc.symm, by simp only [hcm1]⟩
        (hno p3 _ (by simp) hg3p3)
  · rcases find_spec X hS3 { detail := c, state := 2 ^ i ||| 2 ^ j }
      with ⟨p, b, hp, hb, _, e2, hrun⟩ | ⟨hno, _⟩
    · rcases hmem p b hp hb with ⟨e0, _, _⟩ | ⟨_, _, e3⟩
      · rw [e0] at hrun; exact hrun
      · simp only [hcm2] at e2
        omega
    · exact absurd ⟨hc.symm, by simp only [hcm2]⟩
        (hno p2 _ (by simp) hg3p2)
  · rcases find_spec X hS3 { detail := c, state := 2 ^ j }
      with ⟨p, b, hp, hb, _, e2, _⟩ | ⟨_, ⟨p, b, hp, _⟩ | ⟨_, hrun⟩⟩
    · simp only [hcm3] at e2
      rcases hmem p b hp hb with ⟨_, _, e3⟩ | ⟨_, _, e3⟩
      · exact absurd (e3.symm.trans e2) (Ne.symm (two_pow_ne_or i j hij))
      · exact absurd (e3.symm.trans e2) (Ne.symm (two_pow_ne i j hij))
    · exact absurd hp (List.not_mem_nil _)
    · exact hrun

/-- C5 at a concrete input: key symbol 97, Mod1 the bit 3, Shift the bit 0, the key map
and the bindings 1, 2, 3 of `ex_heap`. -/
theorem C5_scenario_witness :
    ∃ g1 g2 g3,
      keybinding_register_root (empty_index ex_heap) 1 = some g1 ∧
      keybinding_register_root g1 2 = some g2 ∧
      keybinding_register_root g2 3 = some g3 ∧
      g3.keys.by_sym.length = 2 ∧
      keybinding_find ex_platform g3.heap g3.keys { detail := 38, state := 8 }
        = some (some 3) ∧
      keybinding_find ex_platform g3.heap g3.keys { detail := 38, state := 9 }
        = some (some 2) ∧
      keybinding_find ex_platform g3.heap g3.keys { detail := 38, state := 1 }
        = some none := by
  obtain ⟨g1, g2, g3, ha, hb, hc, hd, _, _, he, hf, hg⟩ :=
    C5_scenario ex_platform ex_heap 1 2 3 97 3 0 38 11 12 13 1 1 1
      (by decide) (by decide) rfl rfl (by decide) (by decide) (by decide) rfl rfl rfl rfl
  exact ⟨g1, g2, g3, ha, hb, hc, hd, he, hf, hg⟩

/-- C6, amended: on a sorted index, for a live binding `B` with exactly one discriminant
such that no entry of its target array has the key symbol, key code and modifier mask of
`B`, register of `B` followed by unregister of `B` returns and leaves `by_sym` and
`by_code` as they were: the same lists of pointers. -/
theorem C6_register_unregister_round_trip (g : State) (B : Nat) (b : keybinding_t)
    (hS : SortedIdx g) (hB : g.heap B = some b) (hw : wellformed b)
    (hfresh : ∀ q rq, (q ∈ g.keys.by_sym ∨ q ∈ g.keys.by_code) → g.heap q = some rq →
      ¬ (rq.keysym = b.keysym ∧ rq.keycode = b.keycode ∧ rq.mod = b.mod)) :
    ∃ g1 g2, keybinding_register_root g B = some g1 ∧
      keybinding_unregister_root g1 B = some g2 ∧
      g2.keys.by_sym = g.keys.by_sym ∧ g2.keys.by_code = g.keys.by_code := by
  obtain ⟨sym, hc⟩ := wellformed_cls hw
  have hST := hS.arr sym
  have hfr : ∀ q, q ∈ arr_of g.keys sym → prank g.heap sym q ≠ rank sym b := by
    intro q hq he
    obtain ⟨rq, hrq, hcq⟩ := hST.1 q hq
    have hmem : q ∈ g.keys.by_sym ∨ q ∈ g.keys.by_code := by
      cases sym
      · exact Or.inr hq
      · exact Or.inl hq
    apply hfresh q rq hmem hrq
    rw [prank_some sym hrq] at he
    have := cls_rank_key hcq hc he
    simp only [Prod.mk.injEq] at this
    exact this
  obtain ⟨p, hp, hlo, hhi, hrun⟩ := register_fresh hB hc hST hfr
  -- the state after the register
  have hkof := fun q => kof_ref_state (g := g) hB q
  have hB1 : (register_insert B sym (ref_state g B b) p).heap B
      = some { b with refcount := b.refcount + 1 } := by
    simp [register_insert, window_root_grabkey, ref_state, heap_set]
  have hc1 : cls sym { b with refcount := b.refcount + 1 } := cls_congr rfl rfl hc
  have hpr : ∀ q, prank (ref_state g B b).heap sym q = prank g.heap sym q :=
    fun q => prank_congr sym (hkof q)
  have hS1 : SortedTab (register_insert B sym (ref_state g B b) p).heap sym
      (arr_of (register_insert B sym (ref_state g B b) p).keys sym) := by
    have h0 : SortedTab (ref_state g B b).heap sym (arr_of g.keys sym) :=
      hST.congr (fun q _ => hkof q)
    have := h0.insert (p := p) (k := B) hB1 hc1
      (fun i t hi ht => by rw [hpr]; exact hlo i t hi ht)
      (fun i t hi ht => by rw [hpr]; exact hhi i t hi ht)
    simpa [register_insert, window_root_grabkey, arr_of_put_same, ref_state] using this
  have hidx : (arr_of (register_insert B sym (ref_state g B b) p).keys sym)[p]? = some B := by
    simp only [register_insert, window_root_grabkey, arr_of_put_same]
    exact splice_getElem_self _ p B hp
  have hrk : prank (register_insert B sym (ref_state g B b) p).heap sym B
      = rank sym { b with refcount := b.refcount + 1 } := prank_some sym hB1
  have hrun2 := unregister_present hB1 hc1 hS1 hidx hrk
  -- the unregister ends with the release of `B`, which is live
  obtain ⟨g2, hun, hkeys, _, _⟩ := unref_spec (g := window_root_ungrabkey
    { (register_insert B sym (ref_state g B b) p) with
        keys := arr_put (register_insert B sym (ref_state g B b) p).keys sym
          (keybinding_array_take
            (arr_of (register_insert B sym (ref_state g B b) p).keys sym) p),
        log := (register_insert B sym (ref_state g B b) p).log ++ [Effect.take sym p] } B)
    (t := B) hB1
  refine ⟨_, g2, hrun, hrun2.trans hun, ?_, ?_⟩ <;>
  · rw [hkeys]
    simp only [register_insert, window_root_grabkey, window_root_ungrabkey, arr_of_put_same,
      arr_put_put, ref_state, splice_take_insert _ p B hp, arr_put_self]

/-- C6 at a concrete input: binding 2 (mask 9) is registered and unregistered on the
index that holds binding 1 (mask 8). -/
theorem C6_register_unregister_round_trip_witness :
    ∃ g1 g2, keybinding_register_root ex_state1 2 = some g1 ∧
      keybinding_unregister_root g1 2 = some g2 ∧
      g2.keys.by_sym = ex_state1.keys.by_sym ∧ g2.keys.by_code = ex_state1.keys.by_code :=
  C6_register_unregister_round_trip ex_state1 2
    { refcount := 1, mod := 9, keysym := 97, keycode := 0, fct := 12 }
    (reachable_inv ex_state1_reachable).1 rfl (Or.inl ⟨by decide, rfl⟩)
    (by
      intro q rq hq hrq
      have hq1 : q = 1 := by
        simpa [ex_state1, register_insert, window_root_grabkey, arr_put, arr_of,
          keybinding_array_splice, ref_state, empty_index] using hq
      subst hq1
      have : rq = { refcount := 2, mod := 8, keysym := 97, keycode := 0, fct := 11 } := by
        have h2 : ex_state1.heap 1
            = some { refcount := 2, mod := 8, keysym := 97, keycode := 0, fct := 11 } := rfl
        rw [h2] at hrq
        exact (Option.some.inj hrq).symm
      subst this
      decide)

/-- C6 as stated fails: on the sorted index that holds binding 1 (key symbol 97, mask 8),
register then unregister of binding 3, which has the same key symbol and mask, leaves
`by_sym` empty although it held binding 1 before. -/
theorem C6_counterexample :
    SortedIdx ex_state1 ∧
    ex_state1.heap 3 = some { refcount := 1, mod := 8, keysym := 97, keycode := 0, fct := 13 } ∧
    ex_state1.keys.by_sym = [1] ∧
    ((keybinding_register_root ex_state1 3).bind
        (fun g => keybinding_unregister_root g 3)).map (fun g => g.keys.by_sym)
      = some [] :=
  ⟨(reachable_inv ex_state1_reachable).1, rfl, rfl, by decide⟩

/-- C7, amended: on a sorted index, for a live binding `B` with exactly one discriminant
such that no entry of its target array has the key symbol, key code and modifier mask of
`B`, `keybinding_unregister_root` returns the state it was given: both arrays, every
record and its reference count, and the log (no ungrab) are unchanged. -/
theorem C7_unregister_absent_is_noop (g : State) (B : Nat) (b : keybinding_t)
    (hS : SortedIdx g) (hB : g.heap B = some b) (hw : wellformed b)
    (habsent : ∀ q rq, (q ∈ g.keys.by_sym ∨ q ∈ g.keys.by_code) → g.heap q = some rq →
      ¬ (rq.keysym = b.keysym ∧ rq.keycode = b.keycode ∧ rq.mod = b.mod)) :
    keybinding_unregister_root g B = some g := by
  obtain ⟨sym, hc⟩ := wellformed_cls hw
  have hST := hS.arr sym
  apply unregister_absent hB hc hST
  intro q hq he
  obtain ⟨rq, hrq, hcq⟩ := hST.1 q hq
  have hmem : q ∈ g.keys.by_sym ∨ q ∈ g.keys.by_code := by
    cases sym
    · exact Or.inr hq
    · exact Or.inl hq
  apply habsent q rq hmem hrq
  rw [prank_some sym hrq] at he
  have := cls_rank_key hcq hc he
  simp only [Prod.mk.injEq] at this
  exact this

/-- C7 as stated fails: binding 3 is not an element of `by_sym` or `by_code` of the
sorted index that holds binding 1, yet unregister of 3 removes binding 1 from `by_sym`,
calls ungrab and releases (here: frees) binding 3. -/
theorem C7_counterexample :
    SortedIdx ex_state1 ∧ 3 ∉ ex_state1.keys.by_sym ∧ 3 ∉ ex_state1.keys.by_code ∧
    ex_state1.heap 3 = some { refcount := 1, mod := 8, keysym := 97, keycode := 0, fct := 13 } ∧
    ex_state1.keys.by_sym = [1] ∧
    (keybinding_unregister_root ex_state1 3).map
        (fun g => (g.keys.by_sym, List.drop ex_state1.log.length g.log, g.heap 3))
      = some ([], [Effect.take true 0, Effect.ungrabkey 3, Effect.unref 3, Effect.delete 3],
          none) :=
  ⟨(reachable_inv ex_state1_reachable).1, by decide, by decide, rfl, rfl, by decide⟩

/-- C7 at a concrete input: binding 2 (mask 9) is not registered on the index that holds
binding 1 (mask 8), and its unregistration returns the same state. -/
theorem C7_unregister_absent_is_noop_witness :
    keybinding_unregister_root ex_state1 2 = some ex_state1 :=
  C7_unregister_absent_is_noop ex_state1 2
    { refcount := 1, mod := 9, keysym := 97, keycode := 0, fct := 12 }
    (reachable_inv ex_state1_reachable).1 rfl (Or.inl ⟨by decide, rfl⟩)
    (by
      intro q rq hq hrq
      have hq1 : q = 1 := by
        simpa [ex_state1, register_insert, window_root_grabkey, arr_put, arr_of,
          keybinding_array_splice, ref_state, empty_index] using hq
      subst hq1
      have : rq = { refcount := 2, mod := 8, keysym := 97, keycode := 0, fct := 11 } := by
        have h2 : ex_state1.heap 1
            = some { refcount := 2, mod := 8, keysym := 97, keycode := 0, fct := 11 } := rfl
        rw [h2] at hrq
        exact (Option.some.inj hrq).symm
      subst this
      decide)

/-- C8: on every index, two key-press events with the same key code whose states differ
only in noise bits (the bits of the num-lock mask and the lock bit) get the same result
from `keybinding_find`; an event whose state is a mask `M` without noise bit plus noise
bits gets the result of the event with state `M`, and on a sorted index it finds the
symbolic binding registered with the mask `M` for the key symbol the code resolves to. -/
theorem C8_clean_mask (X : Platform) :
    (∀ (heap : Nat → Option keybinding_t) (idx : keybinding_idx_t)
        (ev1 ev2 : xcb_key_press_event_t),
      ev1.detail = ev2.detail →
      (ev1.state ^^^ ev2.state) &&& (X.numlockmask ||| XCB_MOD_MASK_LOCK)
        = ev1.state ^^^ ev2.state →
      keybinding_find X heap idx ev1 = keybinding_find X heap idx ev2) ∧
    (∀ (heap : Nat → Option keybinding_t) (idx : keybinding_idx_t) (code M n : Nat),
      M &&& (X.numlockmask ||| XCB_MOD_MASK_LOCK) = 0 →
      n &&& (X.numlockmask ||| XCB_MOD_MASK_LOCK) = n →
      keybinding_find X heap idx { detail := code, state := M ||| n }
        = keybinding_find X heap idx { detail := code, state := M }) ∧
    (∀ (g : State) (p : Nat) (b : keybinding_t) (code M n : Nat),
      SortedIdx g → p ∈ g.keys.by_sym → g.heap p = some b →
      b.keysym = X.keysyms code → b.mod = M →
      M &&& (X.numlockmask ||| XCB_MOD_MASK_LOCK) = 0 →
      n &&& (X.numlockmask ||| XCB_MOD_MASK_LOCK) = n →
      keybinding_find X g.heap g.keys { detail := code, state := M ||| n }
        = some (some p)) := by
  refine ⟨?_, ?_, ?_⟩
  · intro heap idx ev1 ev2 hd hs
    unfold keybinding_find
    rw [cleanmask_eq_of_noise_diff _ _ _ hs, hd]
  · intro heap idx code M n hM hn
    unfold keybinding_find
    simp only
    rw [cleanmask_or_noise _ _ _ hM hn, cleanmask_clean _ _ hM]
  · intro g p b code M n hS hp hb hk hm hM hn
    have hcm : CLEANMASK X.numlockmask (M ||| n) = M := cleanmask_or_noise _ _ _ hM hn
    rcases find_spec X hS { detail := code, state := M ||| n }
      with ⟨q, bq, hq, hbq, e1, e2, hrun⟩ | ⟨hno, _⟩
    · have : q = p := by
        apply hS.1.mem_unique hq hp
        rw [prank_some true hbq, prank_some true hb]
        simp only [rank, if_true, Prod.mk.injEq]
        simp only at e1 e2
        rw [e1, e2, hcm]
        exact ⟨hk.symm, hm.symm⟩
      rw [← this]; exact hrun
    · exact absurd ⟨hk, by simp only; rw [hcm]; exact hm⟩ (hno p b hp hb)

/-- C8 at a concrete input: binding 1 is registered with mask 8, the lock bit 2 is noise,
and the event of code 38 with state `8 ||| 2` finds binding 1. -/
theorem C8_clean_mask_witness :
    keybinding_find ex_platform ex_state3.heap ex_state3.keys
      { detail := 38, state := 8 ||| 2 } = some (some 1) :=
  (C8_clean_mask ex_platform).2.2 ex_state3 1
    { refcount := 2, mod := 8, keysym := 97, keycode := 0, fct := 11 } 38 8 2
    (reachable_inv ex_state3_reachable).1 (by decide) rfl rfl rfl (by decide) (by decide)

/-- C9: from the empty index, over records with at most one discriminant (every record
`luaA_keybinding_new` builds is one), after every sequence of register and unregister
calls that return, on whatever live binding, every entry of `by_code` is a live binding
with keysym zero, every entry of `by_sym` is a live binding with keysym non-zero and
keycode zero, and no binding is stored in both arrays. -/
theorem C9_arrays_disjoint (X : Platform) (g : State)
    (hg : Reachable X constructed any_binding g) :
    (∀ p, p ∈ g.keys.by_code → ∃ b, g.heap p = some b ∧ b.keysym = 0) ∧
    (∀ p, p ∈ g.keys.by_sym → ∃ b, g.heap p = some b ∧ b.keysym ≠ 0 ∧ b.keycode = 0) ∧
    (∀ p, p ∈ g.keys.by_sym → p ∉ g.keys.by_code) ∧
    (∀ mods key fct, constructed (luaA_keybinding_new X mods key fct)) := by
  have hI := reachable_disjInv hg
  have hcode : ∀ p, p ∈ g.keys.by_code → ∃ b, g.heap p = some b ∧ b.keysym = 0 := by
    intro p hp
    rcases hI.2.1 with hs | ⟨z, zb, h1, h2, h3, _⟩
    · obtain ⟨b, hb, hc⟩ := hs.1 p hp
      exact ⟨b, hb, hc.1⟩
    · rw [h1, List.mem_singleton] at hp
      subst hp
      exact ⟨zb, h2, h3⟩
  have hsym : ∀ p, p ∈ g.keys.by_sym →
      ∃ b, g.heap p = some b ∧ b.keysym ≠ 0 ∧ b.keycode = 0 := by
    intro p hp
    obtain ⟨b, hb, hc⟩ := hI.1.1 p hp
    exact ⟨b, hb, hc.1, hc.2⟩
  refine ⟨hcode, hsym, ?_, new_constructed X⟩
  intro p hp hp2
  obtain ⟨b, hb, h1, _⟩ := hsym p hp
  obtain ⟨b2, hb2, h2⟩ := hcode p hp2
  rw [hb] at hb2
  cases hb2
  exact h1 h2

/-- C9 at a concrete state: the index that holds the symbolic bindings 2 and 1 and the
raw-code binding 5. -/
theorem C9_arrays_disjoint_witness :
    (∀ p, p ∈ ex_state3.keys.by_code → ∃ b, ex_state3.heap p = some b ∧ b.keysym = 0) ∧
    (∀ p, p ∈ ex_state3.keys.by_sym →
      ∃ b, ex_state3.heap p = some b ∧ b.keysym ≠ 0 ∧ b.keycode = 0) ∧
    (∀ p, p ∈ ex_state3.keys.by_sym → p ∉ ex_state3.keys.by_code) ∧
    (∀ mods key fct, constructed (luaA_keybinding_new ex_platform mods key fct)) :=
  C9_arrays_disjoint ex_platform ex_state3
    (Reachable.add ex_state2 ex_state3 5
      { refcount := 1, mod := 8, keysym := 0, keycode := 38, fct := 15 }
      (Reachable.add ex_state1 ex_state2 2
        { refcount := 1, mod := 9, keysym := 97, keycode := 0, fct := 12 }
        (Reachable.add (empty_index ex_heap) ex_state1 1
          { refcount := 1, mod := 8, keysym := 97, keycode := 0, fct := 11 }
          (Reachable.init ex_heap ex_heap_constructed) rfl trivial rfl)
        rfl trivial rfl)
      rfl trivial rfl)

/-- C10, the code at the failing input: built from the empty key specifier, and from
`#0`, the record has keysym zero and keycode zero and construction does not fail;
registered on the empty index the record is stored in `by_code`, and the registration of
a raw-code binding after it does not return (the assertion of `keybinding_cmp` fails). -/
theorem C10_no_discriminant_is_built_and_stored (X : Platform) (mods : List String)
    (fct : Nat) :
    ((luaA_keybinding_new X mods "" fct).keysym = 0 ∧
      (luaA_keybinding_new X mods "" fct).keycode = 0 ∧
      (luaA_keybinding_new X mods "" fct).refcount = 1) ∧
    ((luaA_keybinding_new X mods "#0" fct).keysym = 0 ∧
      (luaA_keybinding_new X mods "#0" fct).keycode = 0 ∧
      (luaA_keybinding_new X mods "#0" fct).refcount = 1) ∧
    ex_bad_heap 7 = some { refcount := 1, mod := 0, keysym := 0, keycode := 0, fct := 21 } ∧
    (keybinding_register_root (empty_index ex_bad_heap) 7).map (fun g => g.keys)
      = some { by_code := [7], by_sym := [] } ∧
    ((keybinding_register_root (empty_index ex_bad_heap) 7).bind
      (fun g => keybinding_register_root g 4)).isNone = true ∧
    keybinding_cmp { refcount := 2, mod := 0, keysym := 0, keycode := 38, fct := 14 }
      { refcount := 2, mod := 0, keysym := 0, keycode := 0, fct := 21 } = none := by
  refine ⟨⟨?_, ?_, (new_fields X mods "" fct).1⟩, ⟨?_, ?_, (new_fields X mods "#0" fct).1⟩,
    ?_, ?_, ?_, ?_⟩
  · rw [(new_discriminants X mods "" fct).1]; rfl
  · rw [(new_discriminants X mods "" fct).2]; rfl
  · rw [(new_discriminants X mods "#0" fct).1]; rfl
  · rw [(new_discriminants X mods "#0" fct).2]; rfl
  · rfl
  · rfl
  · rfl
  · rfl


/-! ## Claims C11 to C20 and their lemmas -/

theorem sgn3_antisymm (x y : Nat × Nat) : sgn3 x y = - sgn3 y x := by
  rcases plt_total x y with h | h | h
  · rw [sgn3_eq_one.mpr h, sgn3_eq_neg.mpr h]; rfl
  · subst h; rw [sgn3_eq_zero.mpr rfl]; rfl
  · rw [sgn3_eq_neg.mpr h, sgn3_eq_one.mpr h]

/-- C11: `keybinding_cmp` passes its two assertions and returns a result, one of -1, 0
and 1, exactly when both operands are symbolic-only or both are raw-only; for a pair
with one symbolic-only and one raw-only operand it fails an assertion and returns
nothing. -/
theorem C11_cmp_returns_iff_same_discriminant (k1 k2 : keybinding_t) :
    ((∃ c, keybinding_cmp k1 k2 = some c) ↔
      ((symOnly k1 ∧ symOnly k2) ∨ (codeOnly k1 ∧ codeOnly k2))) ∧
    (((symOnly k1 ∧ codeOnly k2) ∨ (codeOnly k1 ∧ symOnly k2)) →
      keybinding_cmp k1 k2 = none) ∧
    (∀ c, keybinding_cmp k1 k2 = some c → c = -1 ∨ c = 0 ∨ c = 1) := by
  refine ⟨?_, ?_, ?_⟩
  · constructor
    · rintro ⟨c, hc⟩
      unfold keybinding_cmp at hc
      unfold symOnly codeOnly
      split_ifs at hc with h1 h2 <;> omega
    · rintro (⟨ha, hb⟩ | ⟨ha, hb⟩)
      · exact ⟨_, keybinding_cmp_rank true k1 k2 ha hb⟩
      · exact ⟨_, keybinding_cmp_rank false k1 k2 ha hb⟩
  · unfold symOnly codeOnly
    rintro (⟨⟨h1, h2⟩, h3, h4⟩ | ⟨⟨h1, h2⟩, h3, h4⟩) <;>
      simp [keybinding_cmp, h1, h2, h3, h4]
  · intro c hc
    unfold keybinding_cmp at hc
    split_ifs at hc <;> simp at hc <;> omega

/-- C11 at a concrete pair: a symbolic-only and a raw-only record. -/
theorem C11_cmp_returns_iff_same_discriminant_witness :
    keybinding_cmp { refcount := 1, mod := 8, keysym := 97, keycode := 0, fct := 11 }
      { refcount := 1, mod := 8, keysym := 0, keycode := 38, fct := 15 } = none :=
  (C11_cmp_returns_iff_same_discriminant _ _).2.1
    (Or.inl ⟨⟨by decide, rfl⟩, ⟨rfl, by decide⟩⟩)

/-- C13: the event comparator agrees with the binding comparator. For a symbolic-only
binding `k` and an event with a non-zero key symbol `s`, `keybinding_ev_cmp s c m k` is
the result of `keybinding_cmp` on the symbolic-only record with key symbol `s` and mask
`m` and on `k`; for a raw-only binding `k` and a non-zero code `c` it is the result of
`keybinding_cmp` on the raw-only record with key code `c` and mask `m` and on `k`. A field
that is zero in `k` does not contribute: with `k.keysym = 0` the result does not depend
on `s`, with `k.keycode = 0` it does not depend on `c`. -/
theorem C13_ev_cmp_agrees_with_cmp (s c m : Nat) (k : keybinding_t) (rc : Int) (f : Nat) :
    (symOnly k → s ≠ 0 →
      keybinding_cmp { refcount := rc, mod := m, keysym := s, keycode := 0, fct := f } k
        = some (keybinding_ev_cmp s c m k)) ∧
    (codeOnly k → c ≠ 0 →
      keybinding_cmp { refcount := rc, mod := m, keysym := 0, keycode := c, fct := f } k
        = some (keybinding_ev_cmp s c m k)) ∧
    (k.keysym = 0 → ∀ s2, keybinding_ev_cmp s2 c m k = keybinding_ev_cmp s c m k) ∧
    (k.keycode = 0 → ∀ c2, keybinding_ev_cmp s c2 m k = keybinding_ev_cmp s c m k) := by
  refine ⟨?_, ?_, ?_, ?_⟩
  · intro hk hs
    rw [keybinding_cmp_rank true _ k ⟨hs, rfl⟩ hk, keybinding_ev_cmp_rank true s c m k hk]
    rfl
  · intro hk hc
    rw [keybinding_cmp_rank false _ k ⟨rfl, hc⟩ hk, keybinding_ev_cmp_rank false s c m k hk]
    rfl
  · intro h0 s2
    simp [keybinding_ev_cmp, h0]
  · intro h0 c2
    simp [keybinding_ev_cmp, h0]

/-- C13 at a concrete input: the symbolic binding with key symbol 97 and mask 9 against
the event with key symbol 97, code 38 and mask 8. -/
theorem C13_ev_cmp_agrees_with_cmp_witness :
    keybinding_cmp { refcount := 0, mod := 8, keysym := 97, keycode := 0, fct := 0 }
        { refcount := 1, mod := 9, keysym := 97, keycode := 0, fct := 12 }
      = some (keybinding_ev_cmp 97 38 8
          { refcount := 1, mod := 9, keysym := 97, keycode := 0, fct := 12 }) :=
  (C13_ev_cmp_agrees_with_cmp 97 38 8
    { refcount := 1, mod := 9, keysym := 97, keycode := 0, fct := 12 } 0 0).1
    ⟨by decide, rfl⟩ (by decide)

/-- C18: on the bindings of one class (symbolic-only, or raw-only) `keybinding_cmp` is a
strict total order in three-way form: it returns 0 exactly for equal keysym, keycode and
mod; the result for `(a, b)` is the negation of the result for `(b, a)`; and it is
transitive. -/
theorem C18_cmp_strict_total_order (sym : Bool) (a b c : keybinding_t)
    (ha : cls sym a) (hb : cls sym b) (hc : cls sym c) :
    (keybinding_cmp a b = some 0 ↔
      (a.keysym = b.keysym ∧ a.keycode = b.keycode ∧ a.mod = b.mod)) ∧
    (∃ x y, keybinding_cmp a b = some x ∧ keybinding_cmp b a = some y ∧ x = -y) ∧
    (keybinding_cmp a b = some 1 → keybinding_cmp b c = some 1 →
      keybinding_cmp a c = some 1) ∧
    (keybinding_cmp a b = some (-1) → keybinding_cmp b c = some (-1) →
      keybinding_cmp a c = some (-1)) ∧
    (keybinding_cmp a b = some 1 ∨ keybinding_cmp a b = some 0 ∨
      keybinding_cmp a b = some (-1)) := by
  rw [keybinding_cmp_rank sym a b ha hb, keybinding_cmp_rank sym b c hb hc,
    keybinding_cmp_rank sym a c ha hc, keybinding_cmp_rank sym b a hb ha]
  simp only [Option.some.injEq]
  refine ⟨?_, ⟨_, _, rfl, rfl, sgn3_antisymm _ _⟩, ?_, ?_, ?_⟩
  · rw [sgn3_eq_zero]
    constructor
    · intro h
      have := cls_rank_key ha hb h
      simpa using this
    · rintro ⟨e1, e2, e3⟩
      simp [rank, e1, e2, e3]
  · rw [sgn3_eq_one, sgn3_eq_one, sgn3_eq_one]
    exact plt_trans
  · rw [sgn3_eq_neg, sgn3_eq_neg, sgn3_eq_neg]
    exact fun h1 h2 => plt_trans h2 h1
  · rcases sgn3_cases (rank sym a) (rank sym b) with h | h | h
    · exact Or.inr (Or.inr h)
    · exact Or.inr (Or.inl h)
    · exact Or.inl h

/-- C18 at three concrete symbolic-only records with masks 8, 9 and 10. -/
theorem C18_cmp_strict_total_order_witness :
    keybinding_cmp { refcount := 1, mod := 8, keysym := 97, keycode := 0, fct := 11 }
        { refcount := 1, mod := 10, keysym := 97, keycode := 0, fct := 13 } = some 1 :=
  (C18_cmp_strict_total_order true
    { refcount := 1, mod := 8, keysym := 97, keycode := 0, fct := 11 }
    { refcount := 1, mod := 9, keysym := 97, keycode := 0, fct := 12 }
    { refcount := 1, mod := 10, keysym := 97, keycode := 0, fct := 13 }
    ⟨by decide, rfl⟩ ⟨by decide, rfl⟩ ⟨by decide, rfl⟩).2.2.1 rfl rfl

theorem set_same {tab : List Nat} {i t : Nat} (hi : tab[i]? = some t) : tab.set i t = tab := by
  apply List.ext_getElem?
  intro j
  by_cases hj : i = j
  · subst hj
    rw [List.getElem?_set_self (List.getElem?_eq_some.mp hi).1, hi]
  · rw [List.getElem?_set_ne hj]

theorem fresh_of_keys {g : State} {b : keybinding_t} {sym : Bool}
    (hST : SortedTab g.heap sym (arr_of g.keys sym)) (hc : cls sym b)
    (hfresh : ∀ q rq, q ∈ arr_of g.keys sym → g.heap q = some rq →
      ¬ (rq.keysym = b.keysym ∧ rq.keycode = b.keycode ∧ rq.mod = b.mod)) :
    ∀ q, q ∈ arr_of g.keys sym → prank g.heap sym q ≠ rank sym b := by
  intro q hq he
  obtain ⟨rq, hrq, hcq⟩ := hST.1 q hq
  apply hfresh q rq hq hrq
  rw [prank_some sym hrq] at he
  have := cls_rank_key hcq hc he
  simp only [Prod.mk.injEq] at this
  exact this

/-- C14: on a sorted index, for a live binding `B` with exactly one discriminant such that
no entry of its target array has the key symbol, key code and modifier mask of `B`,
`keybinding_register_root` returns; the target array is the old one with `B` inserted at
one position `p` (one entry longer, the old entries in their order), the other array is
unchanged, the reference count of `B` is one more and no other record changes, and the
call logs the retain, the splice and exactly one grab, of `B`. -/
theorem C14_register_fresh_inserts (g : State) (B : Nat) (b : keybinding_t) (sym : Bool)
    (hS : SortedIdx g) (hB : g.heap B = some b) (hc : cls sym b)
    (hfresh : ∀ q rq, q ∈ arr_of g.keys sym → g.heap q = some rq →
      ¬ (rq.keysym = b.keysym ∧ rq.keycode = b.keycode ∧ rq.mod = b.mod)) :
    ∃ (g1 : State) (p : Nat), keybinding_register_root g B = some g1 ∧
      p ≤ (arr_of g.keys sym).length ∧
      arr_of g1.keys sym
        = (arr_of g.keys sym).take p ++ [B] ++ (arr_of g.keys sym).drop p ∧
      (arr_of g1.keys sym).length = (arr_of g.keys sym).length + 1 ∧
      arr_of g1.keys (!sym) = arr_of g.keys (!sym) ∧
      g1.heap B = some { b with refcount := b.refcount + 1 } ∧
      (∀ q, q ≠ B → g1.heap q = g.heap q) ∧
      g1.log = g.log ++ [Effect.ref B, Effect.splice sym p B, Effect.grabkey B] := by
  have hST := hS.arr sym
  obtain ⟨p, hp, _, _, hrun⟩ := register_fresh hB hc hST (fresh_of_keys hST hc hfresh)
  have harr : arr_of (register_insert B sym (ref_state g B b) p).keys sym
      = (arr_of g.keys sym).take p ++ [B] ++ (arr_of g.keys sym).drop p := by
    simp [register_insert, window_root_grabkey, arr_of_put_same, ref_state,
      keybinding_array_splice]
  refine ⟨_, p, hrun, hp, harr, ?_, ?_, ?_, ?_, ?_⟩
  · rw [harr]
    simp only [List.length_append, List.length_take, List.length_drop, List.length_singleton]
    omega
  · simp [register_insert, window_root_grabkey, arr_of_put_other, ref_state]
  · simp [register_insert, window_root_grabkey, ref_state, heap_set]
  · intro q hq
    simp [register_insert, window_root_grabkey, ref_state, heap_set, hq]
  · simp [register_insert, window_root_grabkey, ref_state]

/-- C14 at a concrete input: binding 2 (mask 9) is registered on the index that holds
binding 1 (mask 8). -/
theorem C14_register_fresh_inserts_witness :
    ∃ (g1 : State) (p : Nat), keybinding_register_root ex_state1 2 = some g1 ∧
      (arr_of g1.keys true).length = (arr_of ex_state1.keys true).length + 1 ∧
      g1.log = ex_state1.log ++ [Effect.ref 2, Effect.splice true p 2, Effect.grabkey 2] := by
  obtain ⟨g1, p, h1, _, _, h2, _, _, _, h3⟩ :=
    C14_register_fresh_inserts ex_state1 2
      { refcount := 1, mod := 9, keysym := 97, keycode := 0, fct := 12 } true
      (reachable_inv ex_state1_reachable).1 rfl ⟨by decide, rfl⟩
      (by
        intro q rq hq hrq
        have hq1 : q = 1 := by
          simpa [ex_state1, register_insert, window_root_grabkey, arr_put, arr_of,
            keybinding_array_splice, ref_state, empty_index] using hq
        subst hq1
        have : rq = { refcount := 2, mod := 8, keysym := 97, keycode := 0, fct := 11 } := by
          have h2 : ex_state1.heap 1
              = some { refcount := 2, mod := 8, keysym := 97, keycode := 0, fct := 11 } := rfl
          rw [h2] at hrq
          exact (Option.some.inj hrq).symm
        subst this
        decide)
  exact ⟨g1, p, h1, h2, h3⟩

/-- C15: on a sorted index, for a binding `B` that is an entry of the array `sym`,
`keybinding_unregister_root` returns; it removes the one entry `B`, at its index `i`
(the array is one entry shorter, the other entries in their order), leaves the other
array unchanged, and logs, in this order, the removal, exactly one ungrab, and the
release of `B`, whose reference count is one less (the record is freed when that is
zero); no other record changes. -/
theorem C15_unregister_stored_removes (g : State) (B : Nat) (sym : Bool)
    (hS : SortedIdx g) (hB : B ∈ arr_of g.keys sym) :
    ∃ (b : keybinding_t) (i : Nat) (g1 : State), g.heap B = some b ∧
      (arr_of g.keys sym)[i]? = some B ∧
      keybinding_unregister_root g B = some g1 ∧
      arr_of g1.keys sym = (arr_of g.keys sym).take i ++ (arr_of g.keys sym).drop (i + 1) ∧
      (arr_of g1.keys sym).length + 1 = (arr_of g.keys sym).length ∧
      arr_of g1.keys (!sym) = arr_of g.keys (!sym) ∧
      g1.log = g.log ++ ([Effect.take sym i, Effect.ungrabkey B, Effect.unref B] ++
        (if b.refcount - 1 = 0 then [Effect.delete B] else [])) ∧
      g1.heap B = (if b.refcount - 1 = 0 then none
        else some { b with refcount := b.refcount - 1 }) ∧
      (∀ q, q ≠ B → g1.heap q = g.heap q) := by
  have hST := hS.arr sym
  obtain ⟨b, hb, hc⟩ := hST.1 B hB
  obtain ⟨i, hi⟩ := List.mem_iff_getElem?.mp hB
  have hil : i < (arr_of g.keys sym).length := (List.getElem?_eq_some.mp hi).1
  have hrun := unregister_present hb hc hST hi (prank_some sym hb)
  obtain ⟨g1, hun, hkeys, hoth, hcase⟩ := unref_spec (g := window_root_ungrabkey
    { g with keys := arr_put g.keys sym (keybinding_array_take (arr_of g.keys sym) i),
             log := g.log ++ [Effect.take sym i] } B) (t := B) hb
  have harr : arr_of g1.keys sym
      = (arr_of g.keys sym).take i ++ (arr_of g.keys sym).drop (i + 1) := by
    rw [hkeys]
    simp [window_root_ungrabkey, arr_of_put_same, keybinding_array_take,
      keybinding_array_splice]
  refine ⟨b, i, g1, hb, hi, hrun.trans hun, harr, ?_, ?_, ?_, ?_, ?_⟩
  · rw [harr]
    simp only [List.length_append, List.length_take, List.length_drop]
    omega
  · rw [hkeys]
    simp [window_root_ungrabkey, arr_of_put_other]
  · rcases hcase with ⟨hz, _, hl⟩ | ⟨hz, _, hl⟩
    · rw [hl, if_pos hz]; simp [window_root_ungrabkey]
    · rw [hl, if_neg hz]; simp [window_root_ungrabkey]
  · rcases hcase with ⟨hz, hl, _⟩ | ⟨hz, hl, _⟩
    · rw [hl, if_pos hz]
    · rw [hl, if_neg hz]
  · intro q hq
    rw [hoth q hq]
    rfl

/-- C15 at a concrete input: binding 1 is unregistered from the index that holds the
symbolic bindings 2 and 1 and the raw-code binding 5. -/
theorem C15_unregister_stored_removes_witness :
    ∃ (g1 : State), keybinding_unregister_root ex_state3 1 = some g1 ∧
      (arr_of g1.keys true).length + 1 = (arr_of ex_state3.keys true).length ∧
      arr_of g1.keys false = arr_of ex_state3.keys false := by
  obtain ⟨_, _, g1, _, _, h1, _, h2, h3, _⟩ :=
    C15_unregister_stored_removes ex_state3 1 true
      (reachable_inv ex_state3_reachable).1 (by decide)
  exact ⟨g1, h1, h2, h3⟩

/-- C20: on a sorted index in which the binding `B` is an entry of the array `sym` and
holds at least one reference (the one of the index), `keybinding_register_root` of `B`
returns and leaves both arrays as they were, `B` at its index, leaves every record,
the reference count of `B` included, as it was, and logs one retain, one release and
the overwrite of the slot of `B` with `B`: no grab. -/
theorem C20_register_again_is_idempotent (g : State) (B : Nat) (b : keybinding_t)
    (sym : Bool) (hS : SortedIdx g) (hB : B ∈ arr_of g.keys sym)
    (hb : g.heap B = some b) (hrc : 1 ≤ b.refcount) :
    ∃ (i : Nat) (g1 : State), (arr_of g.keys sym)[i]? = some B ∧
      keybinding_register_root g B = some g1 ∧
      g1.keys = g.keys ∧ g1.heap = g.heap ∧
      g1.log = g.log ++ [Effect.ref B, Effect.unref B, Effect.tab_set sym i B] ∧
      (∀ p, Effect.grabkey p ∉ List.drop g.log.length g1.log) := by
  have hST := hS.arr sym
  obtain ⟨b2, hb2, hc⟩ := hST.1 B hB
  rw [hb] at hb2
  cases hb2
  obtain ⟨i, hi⟩ := List.mem_iff_getElem?.mp hB
  have hrun := register_dup hb hc hST hi (prank_some sym hb)
  have hB1 : (ref_state g B b).heap B = some { b with refcount := b.refcount + 1 } := by
    simp [ref_state, heap_set]
  obtain ⟨g1, hun, hkeys, hoth, hcase⟩ := unref_spec hB1
  have hrep : register_replace B sym (ref_state g B b) i B
      = some { g1 with keys := arr_put g1.keys sym ((arr_of g1.keys sym).set i B),
                       log := g1.log ++ [Effect.tab_set sym i B] } := by
    simp only [register_replace, hun]
  have hk1 : g1.keys = g.keys := hkeys
  rcases hcase with ⟨hz, _, _⟩ | ⟨_, hl, hlog⟩
  · simp only at hz
    omega
  · refine ⟨i, _, hi, hrun.trans hrep, ?_, ?_, ?_, ?_⟩
    · show arr_put g1.keys sym ((arr_of g1.keys sym).set i B) = g.keys
      rw [hk1, set_same hi, arr_put_self]
    · show g1.heap = g.heap
      funext q
      by_cases hq : q = B
      · subst hq
        rw [hl, hb]
        have : b.refcount + 1 - 1 = b.refcount := by omega
        simp only [this]
      · rw [hoth q hq]
        simp [ref_state, heap_set, hq]
    · show g1.log ++ [Effect.tab_set sym i B] = _
      rw [hlog]
      simp [ref_state]
    · intro p hp
      have hp2 : Effect.grabkey p ∈ List.drop g.log.length
          (g1.log ++ [Effect.tab_set sym i B]) := hp
      rw [hlog] at hp2
      simp [ref_state] at hp2

/-- C20 at a concrete input: binding 1 is registered again on the index that holds it. -/
theorem C20_register_again_is_idempotent_witness :
    ∃ (i : Nat) (g1 : State), keybinding_register_root ex_state3 1 = some g1 ∧
      g1.keys = ex_state3.keys ∧ g1.heap = ex_state3.heap ∧
      g1.log = ex_state3.log ++ [Effect.ref 1, Effect.unref 1, Effect.tab_set true i 1] := by
  obtain ⟨i, g1, _, h1, h2, h3, h4, _⟩ :=
    C20_register_again_is_idempotent ex_state3 1
      { refcount := 2, mod := 8, keysym := 97, keycode := 0, fct := 11 } true
      (reachable_inv ex_state3_reachable).1 (by decide) rfl (by decide)
  exact ⟨i, g1, h1, h2, h3, h4⟩

theorem entry_count_arr (idx : keybinding_idx_t) (sym : Bool) :
    entry_count idx = (arr_of idx sym).length + (arr_of idx (!sym)).length := by
  cases sym
  · simp only [entry_count, arr_of, Bool.false_eq_true, if_false, Bool.not_false, if_true]
    omega
  · simp only [entry_count, arr_of, if_true, Bool.not_true, Bool.false_eq_true, if_false]

/-- What a registration does to the counts: either one entry more and one grab more, or
the same number of entries and no grab; never an ungrab. -/
theorem register_counts {g : State} {k : Nat} {kb : keybinding_t} {sym : Bool}
    (hS : SortedTab g.heap sym (arr_of g.keys sym)) (hR : RefOK g.heap)
    (hk : g.heap k = some kb) (hcls : cls sym kb) :
    ∃ g2, keybinding_register_root g k = some g2 ∧
      ungrab_count g2.log = ungrab_count g.log ∧
      ((entry_count g2.keys = entry_count g.keys + 1 ∧
          grab_count g2.log = grab_count g.log + 1) ∨
       (entry_count g2.keys = entry_count g.keys ∧ grab_count g2.log = grab_count g.log)) := by
  rcases exists_rank_or g.heap sym (arr_of g.keys sym) (rank sym kb)
    with ⟨i, t, hi, hr⟩ | hfresh
  · obtain ⟨g1, hun, hrep, hst⟩ := step_replace hS hR hk hcls hi hr
    obtain ⟨tb1, htb1⟩ : ∃ tb1, (ref_state g k kb).heap t = some tb1 := by
      cases h : (ref_state g k kb).heap t with
      | none => simp [keybinding_unref, h] at hun
      | some tb1 => exact ⟨tb1, rfl⟩
    obtain ⟨g1b, hun2, _, _, hcase⟩ := unref_spec htb1
    rw [hun] at hun2
    cases hun2
    refine ⟨_, (register_dup hk hcls hS hi hr).trans hrep, ?_, Or.inr ⟨?_, ?_⟩⟩
    · show ungrab_count (g1.log ++ [Effect.tab_set sym i k]) = _
      rcases hcase with ⟨_, _, hl⟩ | ⟨_, _, hl⟩ <;>
        simp [hl, ungrab_count, ref_state, List.countP_append, List.countP_cons]
    · rw [entry_count_arr _ sym, entry_count_arr g.keys sym, hst.2.1]
      simp [arr_of_put_same]
    · show grab_count (g1.log ++ [Effect.tab_set sym i k]) = _
      rcases hcase with ⟨_, _, hl⟩ | ⟨_, _, hl⟩ <;>
        simp [hl, grab_count, ref_state, List.countP_append, List.countP_cons]
  · obtain ⟨p, hp, hlo, hhi, hrun⟩ := register_fresh hk hcls hS hfresh
    have hst := step_insert hS hR hk hcls hlo hhi
    refine ⟨_, hrun, ?_, Or.inl ⟨?_, ?_⟩⟩
    · simp [register_insert, window_root_grabkey, ref_state, ungrab_count,
        List.countP_append, List.countP_cons]
    · rw [entry_count_arr _ sym, entry_count_arr g.keys sym, hst.2.1]
      simp only [register_insert, window_root_grabkey, arr_of_put_same, ref_state,
        keybinding_array_splice, List.length_append, List.length_take, List.length_drop,
        List.length_singleton]
      omega
    · simp [register_insert, window_root_grabkey, ref_state, grab_count,
        List.countP_append, List.countP_cons]

/-- What an unregistration does to the counts: either one entry less and one ungrab
more, or nothing; never a grab. -/
theorem unregister_counts {g : State} {k : Nat} {kb : keybinding_t} {sym : Bool}
    (hS : SortedTab g.heap sym (arr_of g.keys sym)) (hR : RefOK g.heap)
    (hk : g.heap k = some kb) (hcls : cls sym kb) :
    ∃ g2, keybinding_unregister_root g k = some g2 ∧
      grab_count g2.log = grab_count g.log ∧
      ((entry_count g2.keys + 1 = entry_count g.keys ∧
          ungrab_count g2.log = ungrab_count g.log + 1) ∨
       (entry_count g2.keys = entry_count g.keys ∧
          ungrab_count g2.log = ungrab_count g.log)) := by
  rcases exists_rank_or g.heap sym (arr_of g.keys sym) (rank sym kb)
    with ⟨i, t, hi, hr⟩ | hfresh
  · have hil : i < (arr_of g.keys sym).length := (List.getElem?_eq_some.mp hi).1
    obtain ⟨g2, hrem, hst, hkeys⟩ := step_remove hS hR hk hcls hi hr
    obtain ⟨g2b, hun2, _, _, hcase⟩ := unref_spec (g := window_root_ungrabkey
      { g with keys := arr_put g.keys sym (keybinding_array_take (arr_of g.keys sym) i),
               log := g.log ++ [Effect.take sym i] } k) (t := k) hk
    have hrem2 : unregister_remove k sym g i = some g2b := hun2
    rw [hrem] at hrem2
    cases hrem2
    refine ⟨g2, (unregister_present hk hcls hS hi hr).trans hrem, ?_, Or.inl ⟨?_, ?_⟩⟩
    · rcases hcase with ⟨_, _, hl⟩ | ⟨_, _, hl⟩ <;>
        simp [hl, grab_count, window_root_ungrabkey, List.countP_append, List.countP_cons]
    · rw [entry_count_arr _ sym, entry_count_arr g.keys sym, hst.2.1, hkeys]
      simp only [arr_of_put_same, keybinding_array_take, keybinding_array_splice,
        List.append_nil, List.length_append, List.length_take, List.length_drop]
      omega
    · rcases hcase with ⟨_, _, hl⟩ | ⟨_, _, hl⟩ <;>
        simp [hl, ungrab_count, window_root_ungrabkey, List.countP_append, List.countP_cons]
  · exact ⟨g, unregister_absent hk hcls hS hfresh, rfl, Or.inr ⟨rfl, rfl⟩⟩

theorem reachable_balance {X : Platform} {g : State}
    (hg : Reachable X owned wellformed g) :
    grab_count g.log = ungrab_count g.log + entry_count g.keys := by
  induction hg with
  | init h0 hQ => rfl
  | new g q mods key fct _ hq ih => exact ih
  | add g g2 k kb hg hk hP hrun ih =>
    have hI := reachable_inv hg
    obtain ⟨sym, hcls⟩ := wellformed_cls hP
    obtain ⟨g3, h3, hu, hcase⟩ := register_counts (hI.1.arr sym) hI.2 hk hcls
    rw [hrun] at h3
    cases h3
    rcases hcase with ⟨h1, h2⟩ | ⟨h1, h2⟩ <;> omega
  | remove g g2 k kb hg hk hP hrun ih =>
    have hI := reachable_inv hg
    obtain ⟨sym, hcls⟩ := wellformed_cls hP
    obtain ⟨g3, h3, hu, hcase⟩ := unregister_counts (hI.1.arr sym) hI.2 hk hcls
    rw [hrun] at h3
    cases h3
    rcases hcase with ⟨h1, h2⟩ | ⟨h1, h2⟩ <;> omega

/-- C19: from the empty index, after every sequence of register and unregister calls on
bindings with exactly one discriminant, the number of grabs is the number of ungrabs plus
the number of entries of `by_sym` and `by_code`. A register call never ungrabs and either
inserts one entry and grabs once or keeps the number of entries and does not grab; an
unregister call never grabs and either removes one entry and ungrabs once or changes
neither. -/
theorem C19_grab_balance (X : Platform) (g : State)
    (hg : Reachable X owned wellformed g) :
    grab_count g.log = ungrab_count g.log + (g.keys.by_sym.length + g.keys.by_code.length) ∧
    (∀ k kb, g.heap k = some kb → wellformed kb →
      (∃ g2, keybinding_register_root g k = some g2 ∧
        ungrab_count g2.log = ungrab_count g.log ∧
        ((entry_count g2.keys = entry_count g.keys + 1 ∧
            grab_count g2.log = grab_count g.log + 1) ∨
         (entry_count g2.keys = entry_count g.keys ∧
            grab_count g2.log = grab_count g.log))) ∧
      (∃ g2, keybinding_unregister_root g k = some g2 ∧
        grab_count g2.log = grab_count g.log ∧
        ((entry_count g2.keys + 1 = entry_count g.keys ∧
            ungrab_count g2.log = ungrab_count g.log + 1) ∨
         (entry_count g2.keys = entry_count g.keys ∧
            ungrab_count g2.log = ungrab_count g.log)))) := by
  have hI := reachable_inv hg
  refine ⟨reachable_balance hg, ?_⟩
  intro k kb hk hw
  obtain ⟨sym, hcls⟩ := wellformed_cls hw
  exact ⟨register_counts (hI.1.arr sym) hI.2 hk hcls,
    unregister_counts (hI.1.arr sym) hI.2 hk hcls⟩

/-- C19 at a concrete state: three grabs, no ungrab and three entries. -/
theorem C19_grab_balance_witness :
    grab_count ex_state3.log = ungrab_count ex_state3.log +
      (ex_state3.keys.by_sym.length + ex_state3.keys.by_code.length) ∧
    grab_count ex_state3.log = 3 :=
  ⟨(C19_grab_balance ex_platform ex_state3 ex_state3_reachable).1, by decide⟩

theorem bool_eq_not_of_ne {s sym : Bool} (h : ¬ s = sym) : s = !sym := by
  cases s <;> cases sym <;> simp at h ⊢

theorem ex_state_gc_sorted : SortedIdx ex_state_gc :=
  ⟨@sortedTab_singleton ex_state_gc.heap true 1
      { refcount := 1, mod := 8, keysym := 97, keycode := 0, fct := 11 } rfl
      ⟨by decide, rfl⟩,
    sortedTab_nil _ _⟩

/-- C12, the code at the failing input: `keybinding_cmp` returns -1 exactly when its
first operand is numerically greater than the second (and 1 when it is less), so the
arrays are kept in descending order. After the registration of binding 1 (key symbol 97,
mask 8) and then of binding 2 (key symbol 97, mask 9) on the empty index, `by_sym` is
`[2, 1]`: the greater mask comes first. -/
theorem C12_order_is_descending :
    (∀ (sym : Bool) (a b : keybinding_t), cls sym a → cls sym b →
      ((keybinding_cmp a b = some (-1) ↔ plt (rank sym b) (rank sym a)) ∧
       (keybinding_cmp a b = some 1 ↔ plt (rank sym a) (rank sym b)))) ∧
    keybinding_cmp { refcount := 1, mod := 8, keysym := 97, keycode := 0, fct := 11 }
      { refcount := 1, mod := 9, keysym := 97, keycode := 0, fct := 12 } = some 1 ∧
    keybinding_register_root (empty_index ex_heap) 1 = some ex_state1 ∧
    keybinding_register_root ex_state1 2 = some ex_state2 ∧
    ex_state2.keys.by_sym = [2, 1] ∧
    (ex_state2.heap 2).map (fun b => (b.keysym, b.mod)) = some (97, 9) ∧
    (ex_state2.heap 1).map (fun b => (b.keysym, b.mod)) = some (97, 8) := by
  refine ⟨?_, rfl, rfl, rfl, rfl, rfl, rfl⟩
  intro sym a b ha hb
  rw [keybinding_cmp_rank sym a b ha hb]
  simp only [Option.some.injEq]
  exact ⟨sgn3_eq_neg, sgn3_eq_one⟩

/-- C16, the code at the failing input: over `ex_heap`, where every binding has one
external owner, the accounting holds on the empty index and after the registration of
binding 1; the unregistration of binding 3, which is not stored and has the key symbol
and mask of binding 1, then removes binding 1 from `by_sym` and releases binding 3:
binding 1 keeps the count 2 although it is stored nowhere, and binding 3 is freed
although its external owner still holds it. -/
theorem C16_accounting_breaks :
    accounted (fun _ => 1) (empty_index ex_heap) ∧
    keybinding_register_root (empty_index ex_heap) 1 = some ex_state1 ∧
    accounted (fun _ => 1) ex_state1 ∧
    (keybinding_unregister_root ex_state1 3).map
        (fun g => (g.keys, g.heap 1, g.heap 3))
      = some ({ by_code := [], by_sym := [] },
          some { refcount := 2, mod := 8, keysym := 97, keycode := 0, fct := 11 }, none) ∧
    (∀ g, keybinding_unregister_root ex_state1 3 = some g → ¬ accounted (fun _ => 1) g) := by
  refine ⟨?_, rfl, ?_, by decide, ?_⟩
  · intro p b hp
    have hp2 : ex_heap p = some b := hp
    unfold ex_heap at hp2
    split_ifs at hp2 <;> cases hp2 <;> simp [empty_index]
  · intro p b hp
    have hk : ex_state1.keys = { by_code := [], by_sym := [1] } := rfl
    have hp2 : heap_set ex_heap 1
        (some { refcount := 2, mod := 8, keysym := 97, keycode := 0, fct := 11 }) p
        = some b := hp
    rw [hk]
    unfold heap_set at hp2
    by_cases h1 : p = 1
    · rw [if_pos h1] at hp2
      cases hp2
      simp [h1]
    · rw [if_neg h1] at hp2
      unfold ex_heap at hp2
      simp only [if_neg h1] at hp2
      split_ifs at hp2 <;> cases hp2 <;> simp [h1]
  · intro g hg hacc
    have h1 : (keybinding_unregister_root ex_state1 3).map
        (fun g => (g.keys, g.heap 1))
        = some ({ by_code := [], by_sym := [] },
            some { refcount := 2, mod := 8, keysym := 97, keycode := 0, fct := 11 }) := by
      decide
    rw [hg] at h1
    simp only [Option.map_some', Option.some.injEq, Prod.mk.injEq] at h1
    have := hacc 1 _ h1.2
    rw [h1.1] at this
    simp at this

/-- C17, amended: on a sorted index, an unregistration that releases a reference has
first taken the entry out of its slot and then called ungrab, and the binding it
releases is in no slot of the state it leaves; a registration that replaces the entry
`t` at index `i` retains the new binding, then releases `t` (the record is freed when
its count drops to zero), and overwrites the slot `i` in the next step. -/
theorem C17_release_order (g : State) (k : Nat) (kb : keybinding_t) (sym : Bool)
    (hS : SortedIdx g) (hk : g.heap k = some kb) (hcls : cls sym kb) :
    (∃ g2, keybinding_unregister_root g k = some g2 ∧
      (g2 = g ∨
        (∃ i, g2.log = g.log ++ ([Effect.take sym i, Effect.ungrabkey k, Effect.unref k] ++
            (if kb.refcount - 1 = 0 then [Effect.delete k] else [])) ∧
          g2.keys = arr_put g.keys sym (keybinding_array_take (arr_of g.keys sym) i) ∧
          k ∉ g2.keys.by_sym ∧ k ∉ g2.keys.by_code))) ∧
    (∀ (i t : Nat) (tb : keybinding_t), (arr_of g.keys sym)[i]? = some t →
      g.heap t = some tb →
      (tb.keysym = kb.keysym ∧ tb.keycode = kb.keycode ∧ tb.mod = kb.mod) →
      ∃ (g2 : State) (n : Int), keybinding_register_root g k = some g2 ∧
        n = (if t = k then tb.refcount + 1 else tb.refcount) ∧
        g2.log = g.log ++ ([Effect.ref k, Effect.unref t] ++
          (if n - 1 = 0 then [Effect.delete t] else []) ++
          [Effect.tab_set sym i k])) := by
  have hST := hS.arr sym
  constructor
  · rcases exists_rank_or g.heap sym (arr_of g.keys sym) (rank sym kb)
      with ⟨i, t, hi, hr⟩ | hfresh
    · have hrun := unregister_present hk hcls hST hi hr
      obtain ⟨g2, hun, hkeys, _, hcase⟩ := unref_spec (g := window_root_ungrabkey
        { g with keys := arr_put g.keys sym (keybinding_array_take (arr_of g.keys sym) i),
                 log := g.log ++ [Effect.take sym i] } k) (t := k) hk
      have hkeys2 : g2.keys
          = arr_put g.keys sym (keybinding_array_take (arr_of g.keys sym) i) := hkeys
      have hnot : ∀ s, k ∉ arr_of g2.keys s := by
        intro s hin
        rw [hkeys2] at hin
        by_cases hs : s = sym
        · subst hs
          rw [arr_of_put_same] at hin
          obtain ⟨j, hji, hj⟩ := mem_take_splice hin
          apply hji
          apply hST.idx_unique hj hi
          rw [hr, prank_some s hk]
        · have hs2 : s = !sym := bool_eq_not_of_ne hs
          subst hs2
          rw [arr_of_put_other] at hin
          obtain ⟨b, hb, hbc⟩ := (hS.arr (!sym)).1 k hin
          rw [hk] at hb
          cases hb
          exact cls_disjoint hcls hbc
      refine ⟨g2, hrun.trans hun, Or.inr ⟨i, ?_, hkeys2, hnot true, hnot false⟩⟩
      rcases hcase with ⟨hz, _, hl⟩ | ⟨hz, _, hl⟩
      · rw [hl, if_pos hz]; simp [window_root_ungrabkey]
      · rw [hl, if_neg hz]; simp [window_root_ungrabkey]
    · exact ⟨g, unregister_absent hk hcls hST hfresh, Or.inl rfl⟩
  · intro i t tb hi ht hkey
    have hr : prank g.heap sym t = rank sym kb := by
      rw [prank_some sym ht]
      simp [rank, hkey.1, hkey.2.1, hkey.2.2]
    have hrun := register_dup hk hcls hST hi hr
    have ht1 : (ref_state g k kb).heap t
        = some { tb with refcount := (if t = k then tb.refcount + 1 else tb.refcount) } := by
      by_cases htk : t = k
      · subst htk
        rw [hk] at ht
        cases ht
        simp [ref_state, heap_set]
      · simp [ref_state, heap_set, htk, ht]
    obtain ⟨g1, hun, _, _, hcase⟩ := unref_spec ht1
    have hrep : register_replace k sym (ref_state g k kb) i t
        = some { g1 with keys := arr_put g1.keys sym ((arr_of g1.keys sym).set i k),
                         log := g1.log ++ [Effect.tab_set sym i k] } := by
      simp only [register_replace, hun]
    refine ⟨_, _, hrun.trans hrep, rfl, ?_⟩
    show g1.log ++ [Effect.tab_set sym i k] = _
    rcases hcase with ⟨hz, _, hl⟩ | ⟨hz, _, hl⟩
    · simp only at hz
      rw [hl, if_pos hz]; simp [ref_state]
    · simp only at hz
      rw [hl, if_neg hz]; simp [ref_state]

/-- C17 at a concrete input: on the index that holds binding 1, the unregistration of
binding 1 logs the removal, the ungrab and then the release. -/
theorem C17_release_order_witness :
    ∃ g2, keybinding_unregister_root ex_state1 1 = some g2 ∧
      (g2 = ex_state1 ∨
        (∃ i, g2.log = ex_state1.log ++
            ([Effect.take true i, Effect.ungrabkey 1, Effect.unref 1] ++
              (if (2 : Int) - 1 = 0 then [Effect.delete 1] else [])) ∧
          g2.keys = arr_put ex_state1.keys true
            (keybinding_array_take (arr_of ex_state1.keys true) i) ∧
          1 ∉ g2.keys.by_sym ∧ 1 ∉ g2.keys.by_code)) :=
  (C17_release_order ex_state1 1
    { refcount := 2, mod := 8, keysym := 97, keycode := 0, fct := 11 } true
    (reachable_inv ex_state1_reachable).1 rfl ⟨by decide, rfl⟩).1

/-- C17 as stated fails: on the sorted index whose `by_sym` holds binding 1 with the
index as its only owner, the registration of binding 3, which has the key symbol and mask
of binding 1, releases and frees binding 1 first and overwrites its slot after that. -/
theorem C17_counterexample :
    SortedIdx ex_state_gc ∧ ex_state_gc.keys.by_sym = [1] ∧
    ex_state_gc.heap 1
      = some { refcount := 1, mod := 8, keysym := 97, keycode := 0, fct := 11 } ∧
    (keybinding_register_root ex_state_gc 3).map
        (fun g => (List.drop ex_state_gc.log.length g.log, g.keys.by_sym, g.heap 1))
      = some ([Effect.ref 3, Effect.unref 1, Effect.delete 1, Effect.tab_set true 0 3],
          [3], none) :=
  ⟨ex_state_gc_sorted, rfl, rfl, by decide⟩

end Keybinding
